import Mathlib

/-!
Verification development for the GraphEx task-graph library
(`src/graphex.hpp`, with the thread pool of `src/cptl.hpp`).

The embedding models the primary node template `GE::Node<ReturnType, Args...>`
(graphex.hpp lines 54-231) and the scheduler `GE::GraphEx`
(lines 355-458).  Values produced by jobs live in an abstract type `V`;
argument tuples are slot-indexed functions `Nat → V`; `size_t` counters are
naturals with wrap-around arithmetic modulo `2^64`.

Concurrency note: `GraphEx::execute` (default concurrency 1) runs the
breadth-first enqueue loop on the calling thread while the single pool worker
executes the pushed thunks in FIFO order.  The enqueue loop reads and writes
only `parentEnqueued`/`parentCount`/`next_nodes`, while node thunks read and
write only `pendingCount`/`args`/`_result`/`_validResult`, so the two phases
commute and the run is modelled as: compute the dispatch order, then run the
thunks sequentially in that order.  A thunk that reaches its busy-wait loop
`while (pendingCount > 0);` with a nonzero counter spins forever under the
single worker; the model returns `none` (the run never terminates).
-/

set_option maxRecDepth 100000

namespace GE

/-- `size_t` modulus. -/
def USIZE : Nat := 2 ^ 64

/-- Wrapping `++counter` on a `size_t`. -/
def winc (p : Nat) : Nat := (p + 1) % USIZE

/-- Wrapping `--counter` on a `size_t`: `0` wraps to `2^64 - 1`.  (On the
`size_t` domain `p < 2^64` this agrees with `(p + 2^64 - 1) % 2^64`.) -/
def wdec (p : Nat) : Nat := if p = 0 then USIZE - 1 else p - 1

/-- State of one `GE::Node<ReturnType, Args...>` object (graphex.hpp 54-231).
`childTasks` models `child_tasks`: each registered `SubscribeCallback` is the
bound `on_argument_ready<idx>` of a child node, recorded as (child id, slot).
`noArgChildTasks` models `no_arg_child_tasks` the same way. -/
structure NodeSt (V : Type) where
  arity : Nat                      -- tuple_size of std::tuple<Args...>
  copyable : Bool                  -- std::is_copy_constructible<ReturnType>
  isOutput : Bool                  -- BaseNode::_is_output
  job : (Nat → V) → V              -- JobCallback job
  args : Nat → V                   -- std::tuple<Args...> args
  validResult : Bool               -- _validResult
  result : Option V                -- _result
  parentEnqueued : Nat             -- parentEnqueued
  pendingCount : Nat               -- pendingCount
  parentCount : Nat                -- parentCount
  childTasks : List (Nat × Nat)    -- child_tasks
  noArgChildTasks : List Nat       -- no_arg_child_tasks
  nextNodes : List Nat             -- BaseNode::next_nodes

instance (V : Type) [Inhabited V] : Inhabited (NodeSt V) :=
  ⟨{ arity := 0, copyable := true, isOutput := false, job := fun _ => default,
     args := fun _ => default, validResult := false, result := none,
     parentEnqueued := 0, pendingCount := 0, parentCount := 0,
     childTasks := [], noArgChildTasks := [], nextNodes := [] }⟩

/-- A `GE::GraphEx` with its nodes.  Node ids index `nodeList`;
`inputs` is `_input_nodes` in registration order. -/
structure Graph (V : Type) where
  nodeList : List (NodeSt V)
  inputs : List Nat

variable {V : Type} [Inhabited V]

/-- Number of nodes owned by the executor. -/
def Graph.n (g : Graph V) : Nat := g.nodeList.length

/-- Read a node (out-of-range ids yield the inert default node; such ids do
not exist in the C++ object graph). -/
def Graph.node (g : Graph V) (i : Nat) : NodeSt V := g.nodeList.getD i default

/-- Update one node in place. -/
def Graph.upd (g : Graph V) (i : Nat) (f : NodeSt V → NodeSt V) : Graph V :=
  { g with nodeList := g.nodeList.set i (f (g.node i)) }

/-- `Node::Node(JobCallback j)` plus the in-class member initializers
(graphex.hpp 63, 219-230): counters start at the argument arity. -/
def mkNode (arity : Nat) (copyable : Bool) (job : (Nat → V) → V) : NodeSt V :=
  { arity := arity, copyable := copyable, isOutput := false, job := job,
    args := fun _ => default, validResult := false, result := none,
    parentEnqueued := 0, pendingCount := arity, parentCount := arity,
    childTasks := [], noArgChildTasks := [], nextNodes := [] }

/-- The two wiring-time exceptions thrown by `Node::add_child` (160-175). -/
inductive WireErr : Type
  | fanOutViolation    -- "Non copyable result cannot be passed to more than 1 child process"
  | outputConflict     -- "Non copyable result which has been marked as output cannot have children"
deriving DecidableEq, Repr

/-- `Node::add_child(SubscribeCallback)` (graphex.hpp 160-175) on parent `p`,
registering the value callback of child `c` at slot `s`.  On an exception the
object is left untouched and the error is reported to the caller. -/
def addChildValue (g : Graph V) (p c s : Nat) : Graph V × Option WireErr :=
  if (g.node p).copyable = false ∧ (g.node p).childTasks.length > 0 then
    (g, some .fanOutViolation)
  else if (g.node p).copyable = false ∧ (g.node p).isOutput = true then
    (g, some .outputConflict)
  else
    (g.upd p fun nd => { nd with childTasks := nd.childTasks ++ [(c, s)] }, none)

/-- `Node::add_child(SubscribeNoArgCallback)` (graphex.hpp 181-184). -/
def addChildNoArg (g : Graph V) (p c : Nat) : Graph V :=
  g.upd p fun nd => { nd with noArgChildTasks := nd.noArgChildTasks ++ [c] }

/-- `child.set_parent<idx>(parent)` (graphex.hpp 83-89): register the child's
`on_argument_ready<idx>` on the parent, then append the child to the parent's
`next_nodes`.  If `add_child` throws, `next_nodes` is not touched. -/
def setParentData (g : Graph V) (c s p : Nat) : Graph V × Option WireErr :=
  match addChildValue g p c s with
  | (g1, none) =>
      (g1.upd p fun nd => { nd with nextNodes := nd.nextNodes ++ [c] }, none)
  | (g1, some e) => (g1, some e)

/-- `child.set_parent(parent)` (graphex.hpp 100-108): `add_parent_count()` on
the child, then register a no-arg callback on the parent and append the child
to the parent's `next_nodes`. -/
def setParentOrder (g : Graph V) (c p : Nat) : Graph V :=
  let g1 := g.upd c fun nd =>
    { nd with parentCount := winc nd.parentCount,
              pendingCount := winc nd.pendingCount }
  (addChildNoArg g1 p c).upd p fun nd => { nd with nextNodes := nd.nextNodes ++ [c] }

/-- `BaseNode::mark_as_output()` (graphex.hpp 40). -/
def markAsOutput (g : Graph V) (i : Nat) : Graph V :=
  g.upd i fun nd => { nd with isOutput := true }

/-- The ways `Node::collect` (graphex.hpp 143-154) can fail. -/
inductive CollectErr : Type
  | noResult           -- std::runtime_error("No result found in node")
  | badOptionalAccess  -- _result.value() on a disengaged optional
deriving DecidableEq, Repr

/-- `Node::collect()` (graphex.hpp 143-154).  For a copyable result this is a
pure read of `_result`; for a move-only result C++ moves the stored value out
(the claim set only inspects collect on copyable nodes after success, or its
error outcome, so the moved-from residue is not modelled). -/
def collect (g : Graph V) (i : Nat) : Except CollectErr V :=
  if (g.node i).validResult = false then .error .noResult
  else
    match (g.node i).result with
    | some v => .ok v
    | none => .error .badOptionalAccess

/-- `Node::on_argument_ready<idx>` (graphex.hpp 205-215): store the delivered
value in the argument tuple at the slot, then `--pendingCount`. -/
def deliverValue (g : Graph V) (c s : Nat) (v : V) : Graph V :=
  g.upd c fun nd =>
    { nd with args := fun s' => if s' = s then v else nd.args s',
              pendingCount := wdec nd.pendingCount }

/-- `Node::on_argument_ready()` (graphex.hpp 217): `--pendingCount`. -/
def deliverNoArg (g : Graph V) (c : Nat) : Graph V :=
  g.upd c fun nd => { nd with pendingCount := wdec nd.pendingCount }

/-- Modelled from the spec: `feed<slot>(value)`.  The member is absent from
`src/graphex.hpp` (the shipped test binary calls it on a later draft of the
node class); spec section 4.B: "inject an argument manually; equivalent to an
invisible parent delivering `value` to `slot`.  Decrements the pending counter
by one". -/
def feed (g : Graph V) (i s : Nat) (v : V) : Graph V :=
  g.upd i fun nd =>
    { nd with args := fun s' => if s' = s then v else nd.args s',
              pendingCount := wdec nd.pendingCount }

/-- One node thunk `Node::execute()` (graphex.hpp 114-138) under the single
pool worker.  `none` models the busy-wait loop spinning forever.  The
`DE_ENFORCE` throw for a non-copyable result with more than one child escapes
the thunk and is swallowed by the pool (the packaged task stores it), leaving
the node unchanged.  Returns the new graph and the value the job produced (if
it ran). -/
def runNode (g : Graph V) (i : Nat) : Option (Graph V × Option V) :=
  let nd := g.node i
  if nd.pendingCount ≠ 0 then none
  else if nd.copyable = false then
    if nd.childTasks.length > 1 then some (g, none)
    else
      let r := nd.job nd.args
      let g1 := g.upd i fun nd => { nd with result := some r, validResult := true }
      let g2 :=
        match nd.childTasks with
        | [] => g1
        | (c, s) :: _ =>
            (deliverValue g1 c s r).upd i fun nd => { nd with validResult := false }
      some (nd.noArgChildTasks.foldl deliverNoArg g2, some r)
  else
    let r := nd.job nd.args
    let g1 := g.upd i fun nd => { nd with result := some r, validResult := true }
    let g2 := nd.childTasks.foldl (fun h cs => deliverValue h cs.1 cs.2 r) g1
    some (nd.noArgChildTasks.foldl deliverNoArg g2, some r)

/-- Run the queued thunks in FIFO order (the single worker of the pool). -/
def runList (g : Graph V) (L : List Nat) : Option (Graph V) :=
  match L with
  | [] => some g
  | i :: L' =>
      match runNode g i with
      | none => none
      | some (g', _) => runList g' L'

/-- As `runList`, additionally recording for every thunk the node id, its
`pendingCount` at thunk start and the value its job produced (`none` when the
`DE_ENFORCE` throw skipped the job). -/
def runTrace (g : Graph V) (L : List Nat) :
    Option (Graph V × List (Nat × Nat × Option V)) :=
  match L with
  | [] => some (g, [])
  | i :: L' =>
      match runNode g i with
      | none => none
      | some (g', r) =>
          match runTrace g' L' with
          | none => none
          | some (g'', tr) => some (g'', (i, (g.node i).pendingCount, r) :: tr)

/-- `k->parent_enqueued()` for every `k ∈ u->next_nodes`
(graphex.hpp 436 and 448). -/
def bumpPE (g : Graph V) (u : Nat) : Graph V :=
  (g.node u).nextNodes.foldl
    (fun h k => h.upd k fun nd => { nd with parentEnqueued := winc nd.parentEnqueued }) g

/-- `std::unordered_set::emplace`. -/
def insertP (pr : List Nat) (v : Nat) : List Nat :=
  if v ∈ pr then pr else pr ++ [v]

/-- Seeding loop of `GraphEx::execute` (graphex.hpp 433-437): every registered
input node is queued and marked processed, and its children's
`parentEnqueued` counters are bumped. -/
def seed (g : Graph V) : Graph V × List Nat × List Nat :=
  g.inputs.foldl
    (fun acc v => (bumpPE acc.1 v, acc.2.1 ++ [v], insertP acc.2.2 v))
    (g, [], [])

/-- Inner loop of `GraphEx::execute` (graphex.hpp 443-450): for each child of
the popped node, enqueue it when it is unprocessed and
`all_parent_enqueued()` holds. -/
def tryEnqueue (acc : Graph V × List Nat × List Nat) (c : Nat) :
    Graph V × List Nat × List Nat :=
  if c ∉ acc.2.2 ∧ (acc.1.node c).parentEnqueued = (acc.1.node c).parentCount then
    (bumpPE acc.1 c, acc.2.1 ++ [c], acc.2.2 ++ [c])
  else acc

/-- The pop loop of `GraphEx::execute` (graphex.hpp 439-451).  `acc` collects
the pop order, which is the order thunks are pushed to the pool.  The fuel is
a structural bound; `schedule` supplies enough for every well-formed graph. -/
def bfs : Nat → Graph V → List Nat → List Nat → List Nat → Graph V × List Nat
  | 0, g, _, _, acc => (g, acc.reverse)
  | _ + 1, g, [], _, acc => (g, acc.reverse)
  | fuel + 1, g, u :: qs, pr, acc =>
      let st := (g.node u).nextNodes.foldl tryEnqueue (g, qs, pr)
      bfs fuel st.1 st.2.1 st.2.2 (u :: acc)

/-- `GraphEx::execute` scheduling phase: the dispatch (pop) order and the
graph with the `parentEnqueued` counters it wrote. -/
def schedule (g : Graph V) : Graph V × List Nat :=
  let s := seed g
  bfs (g.inputs.length + g.n + 1) s.1 s.2.1 s.2.2 []

/-- The order in which `GraphEx::execute` pushes node thunks to the pool. -/
def scheduleList (g : Graph V) : List Nat := (schedule g).2

/-- `GraphEx::execute()` (graphex.hpp 427-453) at concurrency 1: push thunks
in BFS pop order, run them FIFO, `pool.stop(true)` drains.  `none` models a
run that never terminates (a thunk spinning on its pending counter).  This
models ONE call on a fresh executor whose pool is still live: the closing
`pool.stop(true)` (graphex.hpp 452) permanently stops the `pool` member
(cptl.hpp 91-109), so a later `execute()` on the same object is NOT another
`executeG` — see `executeTP` for the pool flag made explicit. -/
def executeG (g : Graph V) : Option (Graph V) :=
  runList (schedule g).1 (schedule g).2

/-- `executeG` with the per-thunk trace; like `executeG` it models a single
`execute()` on a live pool. -/
def executeT (g : Graph V) : Option (Graph V × List (Nat × Nat × Option V)) :=
  runTrace (schedule g).1 (schedule g).2

/-- `GraphEx::execute()` with the pool state made explicit.
`ctpl::thread_pool::stop` (cptl.hpp 91-109) is terminal: it returns at once
when `isDone` is already set, and otherwise sets it, joins and then CLEARS
every worker thread.  `GraphEx::execute` ends with `pool.stop(true)`
(graphex.hpp 452), so the member pool is dead once the first `execute()`
returns.  On a live pool this is `executeT` and the pool ends stopped.  On a
stopped pool the enqueue loop still runs on the calling thread (it reads and
writes only `parentEnqueued`), but every `pool.push` (cptl.hpp 116-128)
lands in a queue no worker will ever service, and the final `pool.stop(true)`
returns immediately at the `isDone` guard: no thunk runs, the trace is
empty, and the graph carries only the enqueue loop's counter writes. -/
def executeTP (g : Graph V) (stopped : Bool) :
    Option (Graph V × List (Nat × Nat × Option V)) × Bool :=
  if stopped then (some ((schedule g).1, []), true)
  else (executeT g, true)

/-- `Node::reset()` (graphex.hpp 197-202): clear `_result`, restore
`pendingCount` to `parentCount`, zero `parentEnqueued`.  (`_validResult` is
not touched.) -/
def resetNode (nd : NodeSt V) : NodeSt V :=
  { nd with result := none, pendingCount := nd.parentCount, parentEnqueued := 0 }

/-- The DFS of `GraphEx::reset` (graphex.hpp 407-424): visit, reset, recurse
into unvisited children. -/
def resetDfs : Nat → Graph V → Nat → List Nat → Graph V × List Nat
  | 0, g, _, vis => (g, vis)
  | fuel + 1, g, u, vis =>
      let vis1 := insertP vis u
      let g1 := g.upd u resetNode
      (g.node u).nextNodes.foldl
        (fun acc c => if c ∈ acc.2 then acc else resetDfs fuel acc.1 c acc.2)
        (g1, vis1)

/-- `GraphEx::reset()` (graphex.hpp 407-424). -/
def resetG (g : Graph V) : Graph V :=
  (g.inputs.foldl
    (fun acc v => if v ∈ acc.2 then acc else resetDfs (g.n + 1) acc.1 v acc.2)
    (g, [])).1

/-- Tricolor map of `GraphEx::has_cycle` (`col`): `none` = unvisited,
`some true` = on stack, `some false` = finished. -/
def Col : Type := Nat → Option Bool

/-- `col[u] = b`. -/
def setCol (col : Col) (u : Nat) (b : Bool) : Col :=
  fun x => if x = u then some b else col x

/-- The recursive lambda of `GraphEx::has_cycle` (graphex.hpp 382-397).
Returns the flag and the final `col`; early `return true` is modelled by the
short-circuiting fold state. -/
def dfsCycle : Nat → Graph V → Nat → Col → Bool × Col
  | 0, _, _, col => (false, col)
  | fuel + 1, g, u, col =>
      let col1 := setCol col u true
      let st := (g.node u).nextNodes.foldl
        (fun (st : Bool × Col) c =>
          if st.1 then st
          else
            match st.2 c with
            | none => dfsCycle fuel g c st.2
            | some true => (true, st.2)
            | some false => st)
        (false, col1)
      if st.1 then (true, st.2) else (false, setCol st.2 u false)

/-- The fold body of `dfsCycle`'s child loop, named for the proofs. -/
def dfsStep (fuel : Nat) (g : Graph V) (st : Bool × Col) (c : Nat) : Bool × Col :=
  if st.1 then st
  else
    match st.2 c with
    | none => dfsCycle fuel g c st.2
    | some true => (true, st.2)
    | some false => st

/-- `GraphEx::has_cycle()` (graphex.hpp 379-405): for each registered input
node, clear `col` and DFS from it. -/
def hasCycleG (g : Graph V) : Bool :=
  g.inputs.any fun v => (dfsCycle (g.n + 1) g v (fun _ => none)).1

/-! ### Derived notions used to state the claims -/

/-- The fields of a node that wiring fixes and execution never changes. -/
def NodeSt.statics (nd : NodeSt V) :
    Nat × Bool × Bool × ((Nat → V) → V) × Nat ×
      List (Nat × Nat) × List Nat × List Nat :=
  (nd.arity, nd.copyable, nd.isOutput, nd.job, nd.parentCount,
   nd.childTasks, nd.noArgChildTasks, nd.nextNodes)

/-- One wiring call on the graph. -/
inductive WireOp : Type
  | data (child slot parentId : Nat)    -- child.set_parent<slot>(parent)
  | order (child parentId : Nat)        -- child.set_parent(parent)
deriving DecidableEq, Repr

/-- Apply one wiring call. -/
def applyWire (g : Graph V) : WireOp → Graph V × Option WireErr
  | .data c s p => setParentData g c s p
  | .order c p => (setParentOrder g c p, none)

/-- Apply a sequence of wiring calls; `none` when one of them throws
(the exception aborts the wiring code). -/
def applyWires (g : Graph V) : List WireOp → Option (Graph V)
  | [] => some g
  | op :: ops =>
      match applyWire g op with
      | (g1, none) => applyWires g1 ops
      | (_, some _) => none

/-- The child node an op targets. -/
def WireOp.child : WireOp → Nat
  | .data c _ _ => c
  | .order c _ => c

/-- Number of ordering-only edges a wiring sequence adds onto node `i`. -/
def ordersInto (i : Nat) (ops : List WireOp) : Nat :=
  ops.countP fun op =>
    match op with
    | .order c _ => c = i
    | _ => false

/-- Every value-carrying edge (child, slot) registered anywhere. -/
def allChildTasks (g : Graph V) : List (Nat × Nat) :=
  (List.range g.n).flatMap fun w => (g.node w).childTasks

/-- Each argument slot has at most one value-carrying edge feeding it. -/
def SlotsUniq (g : Graph V) : Prop := (allChildTasks g).Nodup

/-- `g'` agrees with `g` on everything except possibly the `parentEnqueued`
counters (what the scheduling loop is allowed to touch). -/
def EqExceptPE (g g' : Graph V) : Prop :=
  g'.n = g.n ∧ g'.inputs = g.inputs ∧
  ∀ j, (g'.node j).statics = (g.node j).statics ∧
    (g'.node j).result = (g.node j).result ∧
    (g'.node j).validResult = (g.node j).validResult ∧
    (g'.node j).args = (g.node j).args ∧
    (g'.node j).pendingCount = (g.node j).pendingCount

/-- A node that has never been wired beyond its construction state nor run:
the state `mkNode` leaves behind, after any wiring. -/
def FreshNode (nd : NodeSt V) : Prop :=
  nd.validResult = false ∧ nd.result = none ∧ nd.parentEnqueued = 0 ∧
  nd.pendingCount = nd.parentCount

/-- A freshly wired graph: no node has run, been reset mid-state, or been fed
manually, so every pending counter sits at its parent count. -/
def Fresh (g : Graph V) : Prop := ∀ nd ∈ g.nodeList, FreshNode nd

/-- How many deliveries node `w`'s thunk sends to node `c`
(value callbacks targeting `c` plus no-arg callbacks targeting `c`). -/
def edgesFromInto (g : Graph V) (w c : Nat) : Nat :=
  (g.node w).childTasks.countP (fun cs => cs.1 = c) +
    (g.node w).noArgChildTasks.count c

/-- Deliveries node `c` will still receive from the thunks in `L`. -/
def futureEdgesInto (g : Graph V) (L : List Nat) (c : Nat) : Nat :=
  (L.map (fun w => edgesFromInto g w c)).sum

/-- Number of ordering-only (no-arg) edges onto `c` over the whole graph. -/
def noArgEdgesInto (g : Graph V) (c : Nat) : Nat :=
  ((List.range g.n).map (fun w => (g.node w).noArgChildTasks.count c)).sum

/-- All registered input-node ids and all edge targets are real nodes. -/
def InputsEdgesInRange (g : Graph V) : Prop :=
  (∀ i ∈ g.inputs, i < g.n) ∧
  ∀ w < g.n, ∀ c ∈ (g.node w).nextNodes, c < g.n

/-- All callback targets are real nodes. -/
def TargetsInRange (g : Graph V) : Prop :=
  ∀ w < g.n, (∀ cs ∈ (g.node w).childTasks, cs.1 < g.n) ∧
    ∀ c ∈ (g.node w).noArgChildTasks, c < g.n

/-- Every value callback stores into a slot below its target's arity. -/
def SlotsInRange (g : Graph V) : Prop :=
  ∀ w < g.n, ∀ cs ∈ (g.node w).childTasks, cs.2 < (g.node cs.1).arity

/-- The invariant `set_parent` maintains: the parent count is the arity plus
the number of ordering-only edges onto the node. -/
def ParentCountConsistent (g : Graph V) : Prop :=
  ∀ c < g.n, (g.node c).parentCount = (g.node c).arity + noArgEdgesInto g c

/-- Every registered callback target also appears in the registering node's
`next_nodes` (both `set_parent` overloads append to both lists). -/
def DeliveriesAlongEdges (g : Graph V) : Prop :=
  ∀ w < g.n, (∀ cs ∈ (g.node w).childTasks, cs.1 ∈ (g.node w).nextNodes) ∧
    ∀ c ∈ (g.node w).noArgChildTasks, c ∈ (g.node w).nextNodes

/-- The fields the scheduling loop reads agree between two graphs. -/
def SchedEq (g h : Graph V) : Prop :=
  h.n = g.n ∧ h.inputs = g.inputs ∧
  ∀ j, (h.node j).nextNodes = (g.node j).nextNodes ∧
    (h.node j).parentCount = (g.node j).parentCount ∧
    (h.node j).parentEnqueued = (g.node j).parentEnqueued

/-- The edge relation recorded in the `next_nodes` lists. -/
def edgeRel (g : Graph V) (a b : Nat) : Prop := b ∈ (g.node a).nextNodes

/-- Reachability along registered edges. -/
def Reaches (g : Graph V) (a b : Nat) : Prop :=
  Relation.ReflTransGen (edgeRel g) a b

/-- `c` is reachable from some registered input node. -/
def Reachable (g : Graph V) (c : Nat) : Prop :=
  ∃ i ∈ g.inputs, Reaches g i c

/-- The edge set contains a directed cycle (a nonempty edge sequence starting
and ending at the same node).  This is the spec's notion in P7. -/
def HasDirCycle (g : Graph V) : Prop :=
  ∃ v, Relation.TransGen (edgeRel g) v v

/-- Some directed cycle is reachable from a registered input node. -/
def CycReach (g : Graph V) : Prop :=
  ∃ i ∈ g.inputs, ∃ v, Reaches g i v ∧ Relation.TransGen (edgeRel g) v v

/-- The outer loop of `GraphEx::reset` together with its visited set
(`resetG` is its first component). -/
def resetRun (g : Graph V) : Graph V × List Nat :=
  g.inputs.foldl
    (fun acc v => if v ∈ acc.2 then acc else resetDfs (g.n + 1) acc.1 v acc.2)
    (g, [])

/-- What one reset traversal does, relative to the visited sets before
(`vis`) and after (`vis'`): the visited set grows, nodes already visited or
never visited are untouched, newly visited nodes get `Node::reset()` applied
(result cleared, pending counter restored to the parent count,
`parentEnqueued` zeroed), and no traversal touches the wiring, the argument
tuples or the validity flags. -/
def ResetSpec (g g' : Graph V) (vis vis' : List Nat) : Prop :=
  g'.n = g.n ∧ g'.inputs = g.inputs ∧
  (∀ x ∈ vis, x ∈ vis') ∧
  (∀ j, (g'.node j).statics = (g.node j).statics ∧
        (g'.node j).args = (g.node j).args ∧
        (g'.node j).validResult = (g.node j).validResult) ∧
  (∀ j, j ∉ vis' → g'.node j = g.node j) ∧
  (∀ j, j ∈ vis → g'.node j = g.node j) ∧
  (∀ j, j ∈ vis' → j ∉ vis →
      (g'.node j).result = none ∧
      (g'.node j).pendingCount = (g.node j).parentCount ∧
      (g'.node j).parentEnqueued = 0)

/-! ### Concrete graphs used for witnesses and counterexamples -/

/-- The diamond of the shipped tests: `0` void-like root, `1 → 1`,
`2: a+2`, `3: a*2`, `4: a%b`; ordering edge `1 ← 0`, data edges
`2.slot0 ← 1`, `3.slot0 ← 1`, `4.slot0 ← 2`, `4.slot1 ← 3`. -/
def gDia : Graph Nat :=
  let g0 : Graph Nat :=
    { nodeList :=
        [mkNode 0 true (fun _ => 0), mkNode 0 true (fun _ => 1),
         mkNode 1 true (fun a => a 0 + 2), mkNode 1 true (fun a => a 0 * 2),
         mkNode 2 true (fun a => a 0 % a 1)],
      inputs := [0] }
  let g1 := setParentOrder g0 1 0
  let g2 := (setParentData g1 2 0 1).1
  let g3 := (setParentData g2 3 0 1).1
  let g4 := (setParentData g3 4 0 2).1
  (setParentData g4 4 1 3).1

/-- `gDia` after one `execute()`. -/
def gDia1 : Graph Nat := (executeG gDia).getD gDia

/-- `gDia` execution trace. -/
def gDiaTr : List (Nat × Nat × Option Nat) :=
  ((executeT gDia).getD (gDia, [])).2

/-- The diamond with node 4 marked as output. -/
def gDiaOut : Graph Nat := markAsOutput gDia 4

/-- `gDiaOut` after one `execute()`. -/
def gDiaOut1 : Graph Nat := (executeG gDiaOut).getD gDiaOut

/-- Move-only handoff of the shipped tests: node 0 produces 10 (move-only),
node 1 consumes it via slot 0 and produces 6. -/
def gMove : Graph Nat :=
  let g0 : Graph Nat :=
    { nodeList := [mkNode 0 false (fun _ => 10), mkNode 1 false (fun a => a 0 - 4)],
      inputs := [0] }
  (setParentData g0 1 0 0).1

/-- `gMove` trace run. -/
def gMove1 : Graph Nat := ((executeT gMove).getD (gMove, [])).1

/-- `gMove` execution trace. -/
def gMoveTr : List (Nat × Nat × Option Nat) :=
  ((executeT gMove).getD (gMove, [])).2

/-- `gMove` with the already-wired parent then marked as output
(the wiring-order the code does not protect against). -/
def gMoveOut : Graph Nat := markAsOutput gMove 0

/-- `gMoveOut` after one `execute()`. -/
def gMoveOut1 : Graph Nat := (executeG gMoveOut).getD gMoveOut

/-- Three move-only nodes with the edge `1.slot0 ← 0` already wired. -/
def gFan : Graph Nat :=
  let g0 : Graph Nat :=
    { nodeList :=
        [mkNode 0 false (fun _ => 10), mkNode 1 false (fun a => a 0),
         mkNode 1 false (fun a => a 0)],
      inputs := [0] }
  (setParentData g0 1 0 0).1

/-- A move-only producer marked as output before any wiring. -/
def gOutC : Graph Nat :=
  markAsOutput
    { nodeList := [mkNode 0 false (fun _ => 10), mkNode 1 false (fun a => a 0)],
      inputs := [0] } 0

/-- A two-node ordering cycle `0 → 1 → 0` with no registered inputs. -/
def gCyc : Graph Nat :=
  let g0 : Graph Nat :=
    { nodeList := [mkNode 0 true (fun _ => 0), mkNode 0 true (fun _ => 0)],
      inputs := [] }
  setParentOrder (setParentOrder g0 1 0) 0 1

/-- The same two-node cycle with node 0 registered as input. -/
def gCycIn : Graph Nat := { gCyc with inputs := [0] }

/-- Ordering edge `0 → 1`, but only node 1 registered as input: node 1 is
submitted first despite a nonzero pending counter, and the pending-zero root
0 is never submitted. -/
def gSched : Graph Nat :=
  setParentOrder
    { nodeList := [mkNode 0 true (fun _ => 7), mkNode 0 true (fun _ => 8)],
      inputs := [1] } 1 0

/-- Three unwired nodes used to exercise `applyWires`. -/
def gW7 : Graph Nat :=
  { nodeList :=
      [mkNode 0 true (fun _ => 5), mkNode 1 true (fun a => a 0 + 1),
       mkNode 0 true (fun _ => 9)],
    inputs := [0] }

/-- A data edge into slot 0 of node 1 and two ordering edges onto node 1. -/
def opsW7 : List WireOp := [.data 1 0 0, .order 1 2, .order 1 2]

/-- `gW7` after wiring `opsW7`. -/
def gW7w : Graph Nat := (applyWires gW7 opsW7).getD gW7

end GE

namespace GE

/-! ### Basic facts about node access and update -/

variable {V : Type} [Inhabited V]

theorem Graph.node_of_ge (g : Graph V) (i : Nat) (h : g.n ≤ i) :
    g.node i = default := by
  simp [Graph.node, Graph.n] at *
  rw [List.getElem?_eq_none (by simpa [Graph.n] using h)]
  rfl

theorem Graph.upd_n (g : Graph V) (i : Nat) (f : NodeSt V → NodeSt V) :
    (g.upd i f).n = g.n := by
  simp [Graph.upd, Graph.n]

theorem Graph.upd_inputs (g : Graph V) (i : Nat) (f : NodeSt V → NodeSt V) :
    (g.upd i f).inputs = g.inputs := rfl

theorem Graph.upd_of_ge (g : Graph V) (i : Nat) (f : NodeSt V → NodeSt V)
    (h : g.n ≤ i) : g.upd i f = g := by
  show Graph.mk (g.nodeList.set i _) g.inputs = g
  rw [List.set_eq_of_length_le h]

theorem Graph.node_upd_self (g : Graph V) (i : Nat) (f : NodeSt V → NodeSt V)
    (h : i < g.n) : (g.upd i f).node i = f (g.node i) := by
  simp [Graph.upd, Graph.node, List.getD]
  rw [List.getElem?_set_self (by simpa [Graph.n] using h)]
  rfl

theorem Graph.node_upd_ne (g : Graph V) (i : Nat) (f : NodeSt V → NodeSt V)
    (j : Nat) (h : j ≠ i) : (g.upd i f).node j = g.node j := by
  simp [Graph.upd, Graph.node, List.getD]
  rw [List.getElem?_set_ne (Ne.symm h)]

/-- One-shot description of reading after updating. -/
theorem Graph.node_upd (g : Graph V) (i : Nat) (f : NodeSt V → NodeSt V)
    (j : Nat) :
    (g.upd i f).node j =
      if j = i ∧ j < g.n then f (g.node j) else g.node j := by
  by_cases hj : j = i
  · subst hj
    by_cases hlt : j < g.n
    · simp [hlt, Graph.node_upd_self g j f hlt]
    · simp [hlt]
      rw [Graph.upd_of_ge g j f (Nat.le_of_not_lt hlt)]
  · simp [hj, Graph.node_upd_ne g i f j hj]

/-! ### C4: wiring-time errors on move-only parents -/

/-- C4.  For a node `p` with a move-only result type, `set_parent<slot>`
registering a second value-carrying child raises FanOutViolation, and
registering any value-carrying child once `p` is marked output raises
OutputConflict; in both cases the call returns with the graph exactly in its
prior state (no callback registered, no downstream node appended). -/
theorem c4_wiring_errors (g : Graph V) (p c s : Nat)
    (hnc : (g.node p).copyable = false) :
    ((g.node p).childTasks ≠ [] →
      setParentData g c s p = (g, some WireErr.fanOutViolation)) ∧
    ((g.node p).childTasks = [] → (g.node p).isOutput = true →
      setParentData g c s p = (g, some WireErr.outputConflict)) := by
  constructor
  · intro h
    have hlen : (g.node p).childTasks.length > 0 := List.length_pos.mpr h
    simp [setParentData, addChildValue, hnc, hlen]
  · intro h hout
    simp [setParentData, addChildValue, hnc, h, hout]

/-- Witness for C4 at the concrete graphs `gFan` and `gOutC`. -/
theorem c4_wiring_errors_witness :
    ((gFan.node 0).copyable = false ∧ (gFan.node 0).childTasks ≠ [] ∧
      setParentData gFan 2 0 0 = (gFan, some WireErr.fanOutViolation)) ∧
    ((gOutC.node 0).copyable = false ∧ (gOutC.node 0).childTasks = [] ∧
      (gOutC.node 0).isOutput = true ∧
      setParentData gOutC 1 0 0 = (gOutC, some WireErr.outputConflict)) :=
  ⟨⟨by decide, by decide,
      (c4_wiring_errors gFan 0 2 0 (by decide)).1 (by decide)⟩,
    ⟨by decide, by decide, by decide,
      (c4_wiring_errors gOutC 0 1 0 (by decide)).2 (by decide) (by decide)⟩⟩

/-! ### C9: manual argument injection (`feed<slot>`) -/

/-- C9 (spec-modelled: `feed` is absent from src/graphex.hpp).  `feed<slot>`
acts exactly like a real parent delivering the value through
`on_argument_ready<idx>`: it stores the value in the argument tuple at the
slot and decrements the pending counter by exactly one. -/
theorem c9_feed_matches_parent_delivery (g : Graph V) (i s : Nat) (v : V)
    (hi : i < g.n) (h0 : (g.node i).pendingCount ≠ 0) :
    feed g i s v = deliverValue g i s v ∧
    ((feed g i s v).node i).args s = v ∧
    ((feed g i s v).node i).pendingCount = (g.node i).pendingCount - 1 := by
  refine ⟨rfl, ?_, ?_⟩
  · rw [feed, Graph.node_upd_self g i _ hi]
    simp
  · rw [feed, Graph.node_upd_self g i _ hi]
    show wdec (g.node i).pendingCount = _
    rw [wdec, if_neg h0]

/-- Witness for C9 at node 2 of the diamond graph. -/
theorem c9_feed_witness :
    2 < gDia.n ∧ (gDia.node 2).pendingCount ≠ 0 ∧
    feed gDia 2 0 7 = deliverValue gDia 2 0 7 ∧
    ((feed gDia 2 0 7).node 2).args 0 = 7 ∧
    ((feed gDia 2 0 7).node 2).pendingCount = (gDia.node 2).pendingCount - 1 := by
  have h := c9_feed_matches_parent_delivery gDia 2 0 7 (by decide) (by decide)
  exact ⟨by decide, by decide, h.1, h.2.1, h.2.2⟩

/-! ### C6: the pending counter is zero when a task starts -/

theorem runNode_pending_zero (g : Graph V) (i : Nat)
    (pr : Graph V × Option V) (h : runNode g i = some pr) :
    (g.node i).pendingCount = 0 := by
  by_contra hne
  rw [runNode] at h
  simp [hne] at h

theorem runTrace_pending_zero (L : List Nat) :
    ∀ (g g'' : Graph V) (tr : List (Nat × Nat × Option V)),
      runTrace g L = some (g'', tr) → ∀ e ∈ tr, e.2.1 = 0 := by
  induction L with
  | nil =>
      intro g g'' tr h e he
      rw [runTrace] at h
      cases h
      simp at he
  | cons i L' ih =>
      intro g g'' tr h e he
      cases hr : runNode g i with
      | none => rw [runTrace, hr] at h; cases h
      | some pr =>
          rcases pr with ⟨g1, r⟩
          cases htr : runTrace g1 L' with
          | none => simp [runTrace, hr, htr] at h
          | some pr' =>
              rcases pr' with ⟨g2, tr2⟩
              simp [runTrace, hr, htr] at h
              rcases h with ⟨h1, h2⟩
              subst h1
              rw [← h2] at he
              rcases List.mem_cons.mp he with he1 | he2
              · subst he1
                exact runNode_pending_zero g i (g1, r) hr
              · exact ih g1 g2 tr2 htr e he2

/-- C6.  In every `execute()` cycle, whenever a node's thunk starts (and in
particular whenever its job is applied), the node's pending counter is
exactly zero: the thunk's busy-wait loop cannot fall through otherwise, and
under a single worker a nonzero counter at thunk start means the run never
terminates (`executeT` returns `none`). -/
theorem c6_pending_zero_at_task_start (g g' : Graph V)
    (tr : List (Nat × Nat × Option V)) (h : executeT g = some (g', tr)) :
    ∀ e ∈ tr, e.2.1 = 0 :=
  runTrace_pending_zero (schedule g).2 (schedule g).1 g' tr h

/-- Witness for C6 on the diamond graph. -/
theorem c6_pending_zero_witness :
    executeT gDia = some (((executeT gDia).getD (gDia, [])).1, gDiaTr) ∧
    ∀ e ∈ gDiaTr, e.2.1 = 0 :=
  ⟨rfl, c6_pending_zero_at_task_start gDia _ gDiaTr rfl⟩

/-! ### C7: the pending counter equals arity plus ordering-only parents -/

theorem winc_eq_succ (p : Nat) (h : p + 1 < USIZE) : winc p = p + 1 :=
  Nat.mod_eq_of_lt h

theorem Graph.node_upd_counters (g : Graph V) (p : Nat)
    (f : NodeSt V → NodeSt V)
    (hf : ∀ nd, (f nd).pendingCount = nd.pendingCount ∧
      (f nd).parentCount = nd.parentCount ∧ (f nd).arity = nd.arity)
    (i : Nat) :
    ((g.upd p f).node i).pendingCount = (g.node i).pendingCount ∧
    ((g.upd p f).node i).parentCount = (g.node i).parentCount ∧
    ((g.upd p f).node i).arity = (g.node i).arity := by
  rw [Graph.node_upd]
  split
  · exact hf (g.node i)
  · exact ⟨rfl, rfl, rfl⟩

theorem addChildValue_fst_counters (g : Graph V) (p c s : Nat) (i : Nat) :
    (((addChildValue g p c s).1).node i).pendingCount = (g.node i).pendingCount ∧
    (((addChildValue g p c s).1).node i).parentCount = (g.node i).parentCount ∧
    (((addChildValue g p c s).1).node i).arity = (g.node i).arity := by
  rw [addChildValue]
  split
  · exact ⟨rfl, rfl, rfl⟩
  · split
    · exact ⟨rfl, rfl, rfl⟩
    · exact Graph.node_upd_counters g p
        (fun nd => { nd with childTasks := nd.childTasks ++ [(c, s)] })
        (fun nd => ⟨rfl, rfl, rfl⟩) i

theorem setParentData_fst_counters (g : Graph V) (c s p : Nat) (i : Nat) :
    (((setParentData g c s p).1).node i).pendingCount = (g.node i).pendingCount ∧
    (((setParentData g c s p).1).node i).parentCount = (g.node i).parentCount ∧
    (((setParentData g c s p).1).node i).arity = (g.node i).arity := by
  rw [setParentData]
  rcases h : addChildValue g p c s with ⟨g1, e⟩
  have h1 := addChildValue_fst_counters g p c s i
  rw [h] at h1
  cases e with
  | none =>
      simp only []
      have h2 := Graph.node_upd_counters g1 p
        (fun nd => { nd with nextNodes := nd.nextNodes ++ [c] })
        (fun nd => ⟨rfl, rfl, rfl⟩) i
      exact ⟨h2.1.trans h1.1, h2.2.1.trans h1.2.1, h2.2.2.trans h1.2.2⟩
  | some e => exact h1

theorem setParentOrder_counters (g : Graph V) (c p : Nat) (i : Nat) :
    ((setParentOrder g c p).node i).pendingCount =
      (if i = c ∧ i < g.n then winc (g.node i).pendingCount
       else (g.node i).pendingCount) ∧
    ((setParentOrder g c p).node i).parentCount =
      (if i = c ∧ i < g.n then winc (g.node i).parentCount
       else (g.node i).parentCount) ∧
    ((setParentOrder g c p).node i).arity = (g.node i).arity := by
  have hstep2 := Graph.node_upd_counters
    (addChildNoArg (g.upd c fun nd =>
      { nd with parentCount := winc nd.parentCount,
                pendingCount := winc nd.pendingCount }) p c) p
    (fun nd => { nd with nextNodes := nd.nextNodes ++ [c] })
    (fun nd => ⟨rfl, rfl, rfl⟩) i
  have hstep1 := Graph.node_upd_counters
    (g.upd c fun nd =>
      { nd with parentCount := winc nd.parentCount,
                pendingCount := winc nd.pendingCount }) p
    (fun nd => { nd with noArgChildTasks := nd.noArgChildTasks ++ [c] })
    (fun nd => ⟨rfl, rfl, rfl⟩) i
  rw [addChildNoArg] at hstep2
  have hbase := Graph.node_upd (g := g) (i := c)
    (f := fun nd => { nd with parentCount := winc nd.parentCount,
                              pendingCount := winc nd.pendingCount }) (j := i)
  refine ⟨?_, ?_, ?_⟩
  · show (((addChildNoArg (g.upd c _) p c).upd p _).node i).pendingCount = _
    rw [addChildNoArg]
    rw [hstep2.1, hstep1.1, hbase]
    by_cases hc : i = c ∧ i < g.n
    · simp only [if_pos hc]
    · simp only [if_neg hc]
  · show (((addChildNoArg (g.upd c _) p c).upd p _).node i).parentCount = _
    rw [addChildNoArg]
    rw [hstep2.2.1, hstep1.2.1, hbase]
    by_cases hc : i = c ∧ i < g.n
    · simp only [if_pos hc]
    · simp only [if_neg hc]
  · show (((addChildNoArg (g.upd c _) p c).upd p _).node i).arity = _
    rw [addChildNoArg]
    rw [hstep2.2.2, hstep1.2.2, hbase]
    by_cases hc : i = c ∧ i < g.n
    · simp only [if_pos hc]
    · simp only [if_neg hc]

theorem addChildValue_fst_n (g : Graph V) (p c s : Nat) :
    ((addChildValue g p c s).1).n = g.n := by
  rw [addChildValue]
  split
  · rfl
  · split
    · rfl
    · exact Graph.upd_n g p _

theorem setParentData_fst_n (g : Graph V) (c s p : Nat) :
    ((setParentData g c s p).1).n = g.n := by
  rw [setParentData]
  rcases h : addChildValue g p c s with ⟨g1, e⟩
  have h1 := addChildValue_fst_n g p c s
  rw [h] at h1
  cases e with
  | none => exact (Graph.upd_n g1 p _).trans h1
  | some e => exact h1

theorem setParentOrder_n (g : Graph V) (c p : Nat) :
    (setParentOrder g c p).n = g.n := by
  show ((addChildNoArg (g.upd c _) p c).upd p _).n = g.n
  rw [Graph.upd_n, addChildNoArg, Graph.upd_n, Graph.upd_n]

theorem ordersInto_cons (i : Nat) (op : WireOp) (ops : List WireOp) :
    ordersInto i (op :: ops) =
      ordersInto i ops +
        (match op with | .order c _ => if c = i then 1 else 0 | _ => 0) := by
  rw [ordersInto, ordersInto, List.countP_cons]
  cases op with
  | data c s p => simp
  | order c p => by_cases h : c = i <;> simp [h]

theorem applyWires_counters (ops : List WireOp) :
    ∀ (g g' : Graph V), applyWires g ops = some g' →
      (∀ op ∈ ops, op.child < g.n) →
      ∀ i, (g.node i).pendingCount + ordersInto i ops < USIZE →
        (g.node i).parentCount + ordersInto i ops < USIZE →
        (g'.node i).pendingCount = (g.node i).pendingCount + ordersInto i ops ∧
        (g'.node i).parentCount = (g.node i).parentCount + ordersInto i ops ∧
        (g'.node i).arity = (g.node i).arity := by
  induction ops with
  | nil =>
      intro g g' h _ i _ _
      rw [applyWires] at h
      cases h
      simp [ordersInto]
  | cons op ops ih =>
      intro g g' h hch i hb1 hb2
      cases op with
      | data c s p =>
          rcases hs : setParentData g c s p with ⟨g1, e⟩
          rw [applyWires, applyWire, hs] at h
          cases e with
          | none =>
              have hcnt := setParentData_fst_counters g c s p i
              rw [hs] at hcnt
              have hn := setParentData_fst_n g c s p
              rw [hs] at hn
              have hch' : ∀ op ∈ ops, op.child < g1.n := by
                intro op hop
                rw [hn]
                exact hch op (List.mem_cons_of_mem _ hop)
              have hord : ordersInto i (WireOp.data c s p :: ops) =
                  ordersInto i ops := by
                simp [ordersInto_cons]
              rw [hord] at hb1 hb2 ⊢
              have := ih g1 g' h hch' i
                (by rw [hcnt.1]; exact hb1) (by rw [hcnt.2.1]; exact hb2)
              rw [hcnt.1, hcnt.2.1, hcnt.2.2] at this
              exact this
          | some e => cases h
      | order c p =>
          simp only [applyWires, applyWire] at h
          have hcnt := setParentOrder_counters g c p i
          have hn := setParentOrder_n g c p
          have hch' : ∀ op ∈ ops, op.child < (setParentOrder g c p).n := by
            intro op hop
            rw [hn]
            exact hch op (List.mem_cons_of_mem _ hop)
          have hcn : c < g.n := hch (.order c p) (List.mem_cons_self _ _)
          by_cases hic : i = c
          · have hcond : i = c ∧ i < g.n := ⟨hic, hic ▸ hcn⟩
            simp only [if_pos hcond] at hcnt
            have hord : ordersInto i (WireOp.order c p :: ops) =
                ordersInto i ops + 1 := by
              simp [ordersInto_cons, hic.symm]
            rw [hord] at hb1 hb2 ⊢
            have hw1 : winc (g.node i).pendingCount = (g.node i).pendingCount + 1 :=
              winc_eq_succ _ (by omega)
            have hw2 : winc (g.node i).parentCount = (g.node i).parentCount + 1 :=
              winc_eq_succ _ (by omega)
            rw [hw1, hw2] at hcnt
            have := ih (setParentOrder g c p) g' h hch' i
              (by rw [hcnt.1]; omega) (by rw [hcnt.2.1]; omega)
            rw [hcnt.1, hcnt.2.1, hcnt.2.2] at this
            refine ⟨?_, ?_, this.2.2⟩ <;> omega
          · have hcond : ¬(i = c ∧ i < g.n) := fun hcc => hic hcc.1
            simp only [if_neg hcond] at hcnt
            have hne : ¬ c = i := fun hcc => hic hcc.symm
            have hord : ordersInto i (WireOp.order c p :: ops) =
                ordersInto i ops := by
              simp [ordersInto_cons, hne]
            rw [hord] at hb1 hb2 ⊢
            have := ih (setParentOrder g c p) g' h hch' i
              (by rw [hcnt.1]; omega) (by rw [hcnt.2.1]; omega)
            rw [hcnt.1, hcnt.2.1, hcnt.2.2] at this
            exact this

/-- C7.  The pending counter of a node equals `k + e`: it starts at the
argument arity `k` at construction (`mkNode`), each ordering-only
`set_parent` increments both it and the parent count by exactly one, each
data edge `set_parent<slot>` leaves both unchanged, and after a successful
wiring sequence the counter (and the parent count) is `k + e` where `e`
counts the ordering-only edges onto the node. -/
theorem c7_pending_counter_invariant (g0 g' : Graph V) (ops : List WireOp)
    (i : Nat)
    (hinit : (g0.node i).pendingCount = (g0.node i).arity ∧
      (g0.node i).parentCount = (g0.node i).arity)
    (hch : ∀ op ∈ ops, op.child < g0.n)
    (happ : applyWires g0 ops = some g')
    (hb : (g0.node i).arity + ordersInto i ops < USIZE) :
    (g'.node i).pendingCount = (g0.node i).arity + ordersInto i ops ∧
    (g'.node i).parentCount = (g0.node i).arity + ordersInto i ops ∧
    (∀ (k : Nat) (cb : Bool) (jb : (Nat → V) → V),
      (mkNode k cb jb).pendingCount = k ∧ (mkNode k cb jb).parentCount = k) ∧
    (∀ (h : Graph V) (c s p j : Nat),
      (((setParentData h c s p).1).node j).pendingCount = (h.node j).pendingCount ∧
      (((setParentData h c s p).1).node j).parentCount = (h.node j).parentCount) := by
  have := applyWires_counters ops g0 g' happ hch i
    (by rw [hinit.1]; exact hb) (by rw [hinit.2]; exact hb)
  refine ⟨by rw [this.1, hinit.1], by rw [this.2.1, hinit.2], ?_, ?_⟩
  · intro k cb jb
    exact ⟨rfl, rfl⟩
  · intro h c s p j
    exact ⟨(setParentData_fst_counters h c s p j).1,
      (setParentData_fst_counters h c s p j).2.1⟩

/-! ### Preservation lemmas for the execution phase -/

theorem statics_fields {nd nd' : NodeSt V} (h : nd.statics = nd'.statics) :
    nd.arity = nd'.arity ∧ nd.copyable = nd'.copyable ∧
    nd.isOutput = nd'.isOutput ∧ nd.job = nd'.job ∧
    nd.parentCount = nd'.parentCount ∧ nd.childTasks = nd'.childTasks ∧
    nd.noArgChildTasks = nd'.noArgChildTasks ∧ nd.nextNodes = nd'.nextNodes := by
  rw [NodeSt.statics, NodeSt.statics, Prod.mk.injEq, Prod.mk.injEq, Prod.mk.injEq,
    Prod.mk.injEq, Prod.mk.injEq, Prod.mk.injEq, Prod.mk.injEq] at h
  exact ⟨h.1, h.2.1, h.2.2.1, h.2.2.2.1, h.2.2.2.2.1, h.2.2.2.2.2.1,
    h.2.2.2.2.2.2.1, h.2.2.2.2.2.2.2⟩

theorem Graph.node_upd_statics (g : Graph V) (p : Nat) (f : NodeSt V → NodeSt V)
    (hf : ∀ nd, (f nd).statics = nd.statics) (j : Nat) :
    ((g.upd p f).node j).statics = (g.node j).statics := by
  rw [Graph.node_upd]
  split
  · exact hf _
  · rfl

theorem deliverValue_statics (g : Graph V) (c s : Nat) (v : V) (j : Nat) :
    ((deliverValue g c s v).node j).statics = (g.node j).statics := by
  rw [deliverValue]
  apply Graph.node_upd_statics
  intro nd
  rfl

theorem deliverNoArg_statics (g : Graph V) (c : Nat) (j : Nat) :
    ((deliverNoArg g c).node j).statics = (g.node j).statics := by
  rw [deliverNoArg]
  apply Graph.node_upd_statics
  intro nd
  rfl

theorem upd_rv_statics (g : Graph V) (i : Nat) (r : Option V) (j : Nat) :
    ((g.upd i fun nd =>
      { nd with result := r, validResult := true }).node j).statics =
      (g.node j).statics := by
  apply Graph.node_upd_statics
  intro nd
  rfl

theorem upd_vfalse_statics (g : Graph V) (i : Nat) (j : Nat) :
    ((g.upd i fun nd => { nd with validResult := false }).node j).statics =
      (g.node j).statics := by
  apply Graph.node_upd_statics
  intro nd
  rfl

theorem foldl_deliverNoArg_statics (l : List Nat) :
    ∀ (g : Graph V) (j : Nat),
      ((l.foldl deliverNoArg g).node j).statics = (g.node j).statics := by
  induction l with
  | nil => intro g j; rfl
  | cons c l ih =>
      intro g j
      rw [List.foldl_cons]
      exact (ih (deliverNoArg g c) j).trans (deliverNoArg_statics g c j)

theorem foldl_deliverValue_statics (l : List (Nat × Nat)) (r : V) :
    ∀ (g : Graph V) (j : Nat),
      ((l.foldl (fun h cs => deliverValue h cs.1 cs.2 r) g).node j).statics =
        (g.node j).statics := by
  induction l with
  | nil => intro g j; rfl
  | cons cs l ih =>
      intro g j
      rw [List.foldl_cons]
      exact (ih (deliverValue g cs.1 cs.2 r) j).trans
        (deliverValue_statics g cs.1 cs.2 r j)

theorem runNode_spin (g : Graph V) (i : Nat)
    (h : (g.node i).pendingCount ≠ 0) : runNode g i = none := by
  simp [runNode, h]

theorem runNode_copy (g : Graph V) (i : Nat)
    (hp : (g.node i).pendingCount = 0) (hcp : (g.node i).copyable = true) :
    runNode g i =
      some ((g.node i).noArgChildTasks.foldl deliverNoArg
        ((g.node i).childTasks.foldl
          (fun h cs => deliverValue h cs.1 cs.2 ((g.node i).job (g.node i).args))
          (g.upd i fun nd =>
            { nd with result := some ((g.node i).job (g.node i).args),
                      validResult := true })),
        some ((g.node i).job (g.node i).args)) := by
  simp [runNode, hp, hcp]

theorem runNode_mo_big (g : Graph V) (i : Nat)
    (hp : (g.node i).pendingCount = 0) (hcp : (g.node i).copyable = false)
    (hlen : (g.node i).childTasks.length > 1) :
    runNode g i = some (g, none) := by
  simp [runNode, hp, hcp, hlen]

theorem runNode_mo_nil (g : Graph V) (i : Nat)
    (hp : (g.node i).pendingCount = 0) (hcp : (g.node i).copyable = false)
    (hct : (g.node i).childTasks = []) :
    runNode g i =
      some ((g.node i).noArgChildTasks.foldl deliverNoArg
        (g.upd i fun nd =>
          { nd with result := some ((g.node i).job (g.node i).args),
                    validResult := true }),
        some ((g.node i).job (g.node i).args)) := by
  simp [runNode, hp, hcp, hct]

theorem runNode_mo_one (g : Graph V) (i c s : Nat)
    (hp : (g.node i).pendingCount = 0) (hcp : (g.node i).copyable = false)
    (hct : (g.node i).childTasks = [(c, s)]) :
    runNode g i =
      some ((g.node i).noArgChildTasks.foldl deliverNoArg
        ((deliverValue
            (g.upd i fun nd =>
              { nd with result := some ((g.node i).job (g.node i).args),
                        validResult := true })
            c s ((g.node i).job (g.node i).args)).upd i
          fun nd => { nd with validResult := false }),
        some ((g.node i).job (g.node i).args)) := by
  simp [runNode, hp, hcp, hct]

theorem runNode_statics (g : Graph V) (i : Nat) (g' : Graph V) (r : Option V)
    (h : runNode g i = some (g', r)) :
    ∀ j, (g'.node j).statics = (g.node j).statics := by
  intro j
  have hp := runNode_pending_zero g i (g', r) h
  by_cases hcp : (g.node i).copyable = false
  · by_cases hlen : (g.node i).childTasks.length > 1
    · rw [runNode_mo_big g i hp hcp hlen] at h
      cases h
      rfl
    · cases hct : (g.node i).childTasks with
      | nil =>
          rw [runNode_mo_nil g i hp hcp hct] at h
          cases h
          exact (foldl_deliverNoArg_statics _ _ j).trans (upd_rv_statics g i _ j)
      | cons cs rest =>
          have hrest : rest = [] := by
            rw [hct] at hlen
            simp only [List.length_cons, gt_iff_lt, not_lt] at hlen
            exact List.length_eq_zero.mp (by omega)
          subst hrest
          rw [runNode_mo_one g i cs.1 cs.2 hp hcp (by rw [hct])] at h
          cases h
          refine (foldl_deliverNoArg_statics _ _ j).trans ?_
          refine (upd_vfalse_statics _ i j).trans ?_
          exact (deliverValue_statics _ cs.1 cs.2 _ j).trans (upd_rv_statics g i _ j)
  · rw [runNode_copy g i hp (by revert hcp; cases (g.node i).copyable <;> simp)] at h
    cases h
    refine (foldl_deliverNoArg_statics _ _ j).trans ?_
    exact (foldl_deliverValue_statics _ _ _ j).trans (upd_rv_statics g i _ j)

theorem foldl_deliverNoArg_n (l : List Nat) :
    ∀ (h0 : Graph V), (l.foldl deliverNoArg h0).n = h0.n := by
  induction l with
  | nil => intro h0; rfl
  | cons c l ih =>
      intro h0
      rw [List.foldl_cons, ih]
      exact Graph.upd_n h0 c _

theorem foldl_deliverValue_n (l : List (Nat × Nat)) (r0 : V) :
    ∀ (h0 : Graph V),
      (l.foldl (fun h cs => deliverValue h cs.1 cs.2 r0) h0).n = h0.n := by
  induction l with
  | nil => intro h0; rfl
  | cons cs l ih =>
      intro h0
      rw [List.foldl_cons, ih]
      exact Graph.upd_n h0 cs.1 _

theorem runNode_n (g : Graph V) (i : Nat) (g' : Graph V) (r : Option V)
    (h : runNode g i = some (g', r)) : g'.n = g.n := by
  have hp := runNode_pending_zero g i (g', r) h
  by_cases hcp : (g.node i).copyable = false
  · by_cases hlen : (g.node i).childTasks.length > 1
    · rw [runNode_mo_big g i hp hcp hlen] at h
      cases h
      rfl
    · cases hct : (g.node i).childTasks with
      | nil =>
          rw [runNode_mo_nil g i hp hcp hct] at h
          cases h
          rw [foldl_deliverNoArg_n, Graph.upd_n]
      | cons cs rest =>
          have hrest : rest = [] := by
            rw [hct] at hlen
            simp only [List.length_cons, gt_iff_lt, not_lt] at hlen
            exact List.length_eq_zero.mp (by omega)
          subst hrest
          rw [runNode_mo_one g i cs.1 cs.2 hp hcp (by rw [hct])] at h
          cases h
          rw [foldl_deliverNoArg_n, Graph.upd_n, deliverValue, Graph.upd_n,
            Graph.upd_n]
  · rw [runNode_copy g i hp (by revert hcp; cases (g.node i).copyable <;> simp)] at h
    cases h
    rw [foldl_deliverNoArg_n, foldl_deliverValue_n, Graph.upd_n]

theorem Graph.node_upd_rv (g : Graph V) (p : Nat) (f : NodeSt V → NodeSt V)
    (hf : ∀ nd, (f nd).result = nd.result ∧ (f nd).validResult = nd.validResult)
    (j : Nat) :
    ((g.upd p f).node j).result = (g.node j).result ∧
    ((g.upd p f).node j).validResult = (g.node j).validResult := by
  rw [Graph.node_upd]
  split
  · exact hf _
  · exact ⟨rfl, rfl⟩

theorem Graph.node_upd_args (g : Graph V) (p : Nat) (f : NodeSt V → NodeSt V)
    (hf : ∀ nd, (f nd).args = nd.args) (j s : Nat) :
    ((g.upd p f).node j).args s = (g.node j).args s := by
  rw [Graph.node_upd]
  split
  · rw [hf]
  · rfl

theorem deliverValue_rv (g : Graph V) (c s : Nat) (v : V) (j : Nat) :
    ((deliverValue g c s v).node j).result = (g.node j).result ∧
    ((deliverValue g c s v).node j).validResult = (g.node j).validResult := by
  rw [deliverValue]
  apply Graph.node_upd_rv
  intro nd
  exact ⟨rfl, rfl⟩

theorem deliverNoArg_rv (g : Graph V) (c : Nat) (j : Nat) :
    ((deliverNoArg g c).node j).result = (g.node j).result ∧
    ((deliverNoArg g c).node j).validResult = (g.node j).validResult := by
  rw [deliverNoArg]
  apply Graph.node_upd_rv
  intro nd
  exact ⟨rfl, rfl⟩

theorem foldl_deliverNoArg_rv (l : List Nat) :
    ∀ (g : Graph V) (j : Nat),
      ((l.foldl deliverNoArg g).node j).result = (g.node j).result ∧
      ((l.foldl deliverNoArg g).node j).validResult = (g.node j).validResult := by
  induction l with
  | nil => intro g j; exact ⟨rfl, rfl⟩
  | cons c l ih =>
      intro g j
      rw [List.foldl_cons]
      exact ⟨(ih _ j).1.trans (deliverNoArg_rv g c j).1,
        (ih _ j).2.trans (deliverNoArg_rv g c j).2⟩

theorem foldl_deliverValue_rv (l : List (Nat × Nat)) (r : V) :
    ∀ (g : Graph V) (j : Nat),
      ((l.foldl (fun h cs => deliverValue h cs.1 cs.2 r) g).node j).result =
        (g.node j).result ∧
      ((l.foldl (fun h cs => deliverValue h cs.1 cs.2 r) g).node j).validResult =
        (g.node j).validResult := by
  induction l with
  | nil => intro g j; exact ⟨rfl, rfl⟩
  | cons cs l ih =>
      intro g j
      rw [List.foldl_cons]
      exact ⟨(ih _ j).1.trans (deliverValue_rv g cs.1 cs.2 r j).1,
        (ih _ j).2.trans (deliverValue_rv g cs.1 cs.2 r j).2⟩

/-- Reading an argument slot after a value delivery. -/
theorem deliverValue_args (g : Graph V) (c0 s0 : Nat) (v : V) (c s : Nat) :
    ((deliverValue g c0 s0 v).node c).args s =
      if c = c0 ∧ c < g.n ∧ s = s0 then v else (g.node c).args s := by
  rw [deliverValue, Graph.node_upd]
  by_cases hc : c = c0 ∧ c < g.n
  · rw [if_pos hc]
    by_cases hs : s = s0
    · rw [if_pos ⟨hc.1, hc.2, hs⟩]
      simp [hs]
    · rw [if_neg (by intro hx; exact hs hx.2.2)]
      simp [hs]
  · rw [if_neg hc, if_neg (by intro hx; exact hc ⟨hx.1, hx.2.1⟩)]

theorem deliverNoArg_args (g : Graph V) (c0 : Nat) (c s : Nat) :
    ((deliverNoArg g c0).node c).args s = (g.node c).args s := by
  rw [deliverNoArg]
  apply Graph.node_upd_args
  intro nd
  rfl

theorem foldl_deliverNoArg_args (l : List Nat) :
    ∀ (g : Graph V) (c s : Nat),
      ((l.foldl deliverNoArg g).node c).args s = (g.node c).args s := by
  induction l with
  | nil => intro g c s; rfl
  | cons c0 l ih =>
      intro g c s
      rw [List.foldl_cons]
      exact (ih _ c s).trans (deliverNoArg_args g c0 c s)

theorem foldl_deliverValue_args_other (l : List (Nat × Nat)) (r : V) (c s : Nat)
    (hno : (c, s) ∉ l) :
    ∀ (g : Graph V),
      ((l.foldl (fun h cs => deliverValue h cs.1 cs.2 r) g).node c).args s =
        (g.node c).args s := by
  induction l with
  | nil => intro g; rfl
  | cons cs l ih =>
      intro g
      rw [List.foldl_cons]
      have hne : ¬((c, s) = cs) := fun hx => hno (hx ▸ List.mem_cons_self _ _)
      have h1 : ((deliverValue g cs.1 cs.2 r).node c).args s = (g.node c).args s := by
        rw [deliverValue_args]
        rw [if_neg]
        intro hx
        exact hne (by rcases cs with ⟨c1, s1⟩; simp at hx ⊢; exact ⟨hx.1, hx.2.2⟩)
      exact (ih (fun hm => hno (List.mem_cons_of_mem _ hm)) _).trans h1

/-- Effects of one thunk on other nodes' result and validity flags. -/
theorem runNode_rv_other (g : Graph V) (w : Nat) (g' : Graph V) (r : Option V)
    (h : runNode g w = some (g', r)) (j : Nat) (hj : j ≠ w) :
    (g'.node j).result = (g.node j).result ∧
    (g'.node j).validResult = (g.node j).validResult := by
  have hp := runNode_pending_zero g w (g', r) h
  have hupd : ∀ (h0 : Graph V) (f : NodeSt V → NodeSt V),
      ((h0.upd w f).node j).result = (h0.node j).result ∧
      ((h0.upd w f).node j).validResult = (h0.node j).validResult := by
    intro h0 f
    rw [Graph.node_upd, if_neg (by intro hx; exact hj hx.1)]
    exact ⟨rfl, rfl⟩
  by_cases hcp : (g.node w).copyable = false
  · by_cases hlen : (g.node w).childTasks.length > 1
    · rw [runNode_mo_big g w hp hcp hlen] at h
      cases h
      exact ⟨rfl, rfl⟩
    · cases hct : (g.node w).childTasks with
      | nil =>
          rw [runNode_mo_nil g w hp hcp hct] at h
          cases h
          refine ⟨(foldl_deliverNoArg_rv _ _ j).1.trans (hupd _ _).1,
            (foldl_deliverNoArg_rv _ _ j).2.trans (hupd _ _).2⟩
      | cons cs rest =>
          have hrest : rest = [] := by
            rw [hct] at hlen
            simp only [List.length_cons, gt_iff_lt, not_lt] at hlen
            exact List.length_eq_zero.mp (by omega)
          subst hrest
          rw [runNode_mo_one g w cs.1 cs.2 hp hcp (by rw [hct])] at h
          cases h
          refine ⟨?_, ?_⟩
          · refine (foldl_deliverNoArg_rv _ _ j).1.trans ?_
            refine (hupd _ _).1.trans ?_
            exact (deliverValue_rv _ cs.1 cs.2 _ j).1.trans (hupd _ _).1
          · refine (foldl_deliverNoArg_rv _ _ j).2.trans ?_
            refine (hupd _ _).2.trans ?_
            exact (deliverValue_rv _ cs.1 cs.2 _ j).2.trans (hupd _ _).2
  · rw [runNode_copy g w hp (by revert hcp; cases (g.node w).copyable <;> simp)] at h
    cases h
    refine ⟨?_, ?_⟩
    · refine (foldl_deliverNoArg_rv _ _ j).1.trans ?_
      exact (foldl_deliverValue_rv _ _ _ j).1.trans (hupd _ _).1
    · refine (foldl_deliverNoArg_rv _ _ j).2.trans ?_
      exact (foldl_deliverValue_rv _ _ _ j).2.trans (hupd _ _).2

/-- A thunk of a node that does not feed `(c, s)` leaves that slot alone. -/
theorem runNode_args_other (g : Graph V) (w : Nat) (g' : Graph V) (r : Option V)
    (h : runNode g w = some (g', r)) (c s : Nat)
    (hno : (c, s) ∉ (g.node w).childTasks) :
    (g'.node c).args s = (g.node c).args s := by
  have hp := runNode_pending_zero g w (g', r) h
  have hupdargs : ∀ (h0 : Graph V) (f : NodeSt V → NodeSt V),
      (∀ nd, (f nd).args = nd.args) →
      ((h0.upd w f).node c).args s = (h0.node c).args s := by
    intro h0 f hf
    exact Graph.node_upd_args h0 w f hf c s
  by_cases hcp : (g.node w).copyable = false
  · by_cases hlen : (g.node w).childTasks.length > 1
    · rw [runNode_mo_big g w hp hcp hlen] at h
      cases h
      rfl
    · cases hct : (g.node w).childTasks with
      | nil =>
          rw [runNode_mo_nil g w hp hcp hct] at h
          cases h
          exact (foldl_deliverNoArg_args _ _ c s).trans
            (hupdargs _
              (fun nd => { nd with
                result := some ((g.node w).job (g.node w).args),
                validResult := true }) (fun nd => rfl))
      | cons cs rest =>
          have hrest : rest = [] := by
            rw [hct] at hlen
            simp only [List.length_cons, gt_iff_lt, not_lt] at hlen
            exact List.length_eq_zero.mp (by omega)
          subst hrest
          rw [runNode_mo_one g w cs.1 cs.2 hp hcp (by rw [hct])] at h
          cases h
          refine (foldl_deliverNoArg_args _ _ c s).trans ?_
          refine (hupdargs _ (fun nd => { nd with validResult := false })
            (fun nd => rfl)).trans ?_
          have hmid : ((deliverValue
              (g.upd w fun nd => { nd with
                result := some ((g.node w).job (g.node w).args),
                validResult := true })
              cs.1 cs.2 ((g.node w).job (g.node w).args)).node c).args s =
              ((g.upd w fun nd => { nd with
                result := some ((g.node w).job (g.node w).args),
                validResult := true }).node c).args s := by
            rw [deliverValue_args]
            rw [if_neg]
            intro hx
            refine hno ?_
            rw [hct]
            have hcs : (c, s) = cs := by
              rcases cs with ⟨c1, s1⟩
              simp at hx ⊢
              exact ⟨hx.1, hx.2.2⟩
            rw [hcs]
            exact List.mem_cons_self _ _
          refine hmid.trans ?_
          exact hupdargs _
            (fun nd => { nd with
              result := some ((g.node w).job (g.node w).args),
              validResult := true }) (fun nd => rfl)
  · rw [runNode_copy g w hp (by revert hcp; cases (g.node w).copyable <;> simp)] at h
    cases h
    exact (foldl_deliverNoArg_args _ _ c s).trans
      ((foldl_deliverValue_args_other _ _ c s hno _).trans
        (hupdargs _
          (fun nd => { nd with
            result := some ((g.node w).job (g.node w).args),
            validResult := true }) (fun nd => rfl)))

/-- Decomposing one step of a traced run. -/
theorem runTrace_cons (g : Graph V) (i : Nat) (L' : List Nat)
    (g'' : Graph V) (tr : List (Nat × Nat × Option V))
    (h : runTrace g (i :: L') = some (g'', tr)) :
    ∃ g1 r tr', runNode g i = some (g1, r) ∧
      runTrace g1 L' = some (g'', tr') ∧
      tr = (i, (g.node i).pendingCount, r) :: tr' := by
  cases hr : runNode g i with
  | none => rw [runTrace, hr] at h; cases h
  | some pr =>
      rcases pr with ⟨g1, r⟩
      cases htr : runTrace g1 L' with
      | none => simp [runTrace, hr, htr] at h
      | some pr' =>
          rcases pr' with ⟨g2, tr2⟩
          simp [runTrace, hr, htr] at h
          exact ⟨g1, r, tr2, rfl, by rw [htr, h.1], h.2.symm⟩

/-- `runList` is `runTrace` without the trace. -/
theorem runTrace_of_runList (L : List Nat) :
    ∀ (g g' : Graph V), runList g L = some g' →
      ∃ tr, runTrace g L = some (g', tr) := by
  induction L with
  | nil =>
      intro g g' h
      rw [runList] at h
      cases h
      exact ⟨[], rfl⟩
  | cons i L' ih =>
      intro g g' h
      rw [runList] at h
      cases hr : runNode g i with
      | none => rw [hr] at h; cases h
      | some pr =>
          rcases pr with ⟨g1, r⟩
          rw [hr] at h
          simp only [] at h
          rcases ih g1 g' h with ⟨tr', htr'⟩
          exact ⟨(i, (g.node i).pendingCount, r) :: tr', by
            simp [runTrace, hr, htr']⟩

theorem runTrace_rv_notmem (L : List Nat) :
    ∀ (g g'' : Graph V) (tr : List (Nat × Nat × Option V)) (j : Nat),
      runTrace g L = some (g'', tr) → j ∉ L →
      (g''.node j).result = (g.node j).result ∧
      (g''.node j).validResult = (g.node j).validResult := by
  induction L with
  | nil =>
      intro g g'' tr j h _
      rw [runTrace] at h
      cases h
      exact ⟨rfl, rfl⟩
  | cons i L' ih =>
      intro g g'' tr j h hj
      rcases runTrace_cons g i L' g'' tr h with ⟨g1, r, tr', hr, htr, _⟩
      have hji : j ≠ i := fun hx => hj (hx ▸ List.mem_cons_self _ _)
      have h1 := runNode_rv_other g i g1 r hr j hji
      have h2 := ih g1 g'' tr' j htr (fun hm => hj (List.mem_cons_of_mem _ hm))
      exact ⟨h2.1.trans h1.1, h2.2.trans h1.2⟩

theorem runTrace_args_notwritten (L : List Nat) :
    ∀ (g g'' : Graph V) (tr : List (Nat × Nat × Option V)) (c s : Nat),
      runTrace g L = some (g'', tr) →
      (∀ w ∈ L, (c, s) ∉ (g.node w).childTasks) →
      (g''.node c).args s = (g.node c).args s := by
  induction L with
  | nil =>
      intro g g'' tr c s h _
      rw [runTrace] at h
      cases h
      rfl
  | cons i L' ih =>
      intro g g'' tr c s h hno
      rcases runTrace_cons g i L' g'' tr h with ⟨g1, r, tr', hr, htr, _⟩
      have h1 := runNode_args_other g i g1 r hr c s
        (hno i (List.mem_cons_self _ _))
      have hno' : ∀ w ∈ L', (c, s) ∉ (g1.node w).childTasks := by
        intro w hw
        have hst := statics_fields (runNode_statics g i g1 r hr w)
        rw [hst.2.2.2.2.2.1]
        exact hno w (List.mem_cons_of_mem _ hw)
      exact (ih g1 g'' tr' c s htr hno').trans h1

/-- A dispatched node with a copyable result (or no value-carrying children)
ends the run with a valid stored result, namely the value its job produced. -/
theorem runTrace_value_of_mem (L : List Nat) :
    ∀ (g g'' : Graph V) (tr : List (Nat × Nat × Option V)) (i : Nat),
      runTrace g L = some (g'', tr) → L.Nodup → i ∈ L → i < g.n →
      ((g.node i).copyable = true ∨ (g.node i).childTasks = []) →
      ∃ v, (i, 0, some v) ∈ tr ∧ (g''.node i).result = some v ∧
        (g''.node i).validResult = true := by
  induction L with
  | nil =>
      intro g g'' tr i h _ hm
      cases hm
  | cons j L' ih =>
      intro g g'' tr i h hnd hm hi hok
      rcases runTrace_cons g j L' g'' tr h with ⟨g1, r, tr', hr, htr, htreq⟩
      have hp := runNode_pending_zero g j (g1, r) hr
      by_cases hji : i = j
      · subst hji
        have hin' : i ∉ L' := by
          have := hnd
          rw [List.nodup_cons] at this
          exact this.1
        set rv := (g.node i).job (g.node i).args with hrv
        have heff : runNode g i = some (g1, some rv) ∧
            (g1.node i).result = some rv ∧ (g1.node i).validResult = true := by
          rcases hok with hcp | hct
          · rw [runNode_copy g i hp hcp] at hr
            cases hr
            refine ⟨runNode_copy g i hp hcp, ?_, ?_⟩
            · refine (foldl_deliverNoArg_rv _ _ i).1.trans ?_
              refine (foldl_deliverValue_rv _ _ _ i).1.trans ?_
              rw [Graph.node_upd_self g i _ hi]
            · refine (foldl_deliverNoArg_rv _ _ i).2.trans ?_
              refine (foldl_deliverValue_rv _ _ _ i).2.trans ?_
              rw [Graph.node_upd_self g i _ hi]
          · by_cases hcp : (g.node i).copyable = false
            · rw [runNode_mo_nil g i hp hcp hct] at hr
              cases hr
              refine ⟨runNode_mo_nil g i hp hcp hct, ?_, ?_⟩
              · refine (foldl_deliverNoArg_rv _ _ i).1.trans ?_
                rw [Graph.node_upd_self g i _ hi]
              · refine (foldl_deliverNoArg_rv _ _ i).2.trans ?_
                rw [Graph.node_upd_self g i _ hi]
            · have hcp' : (g.node i).copyable = true := by
                revert hcp; cases (g.node i).copyable <;> simp
              rw [runNode_copy g i hp hcp'] at hr
              cases hr
              refine ⟨runNode_copy g i hp hcp', ?_, ?_⟩
              · refine (foldl_deliverNoArg_rv _ _ i).1.trans ?_
                refine (foldl_deliverValue_rv _ _ _ i).1.trans ?_
                rw [Graph.node_upd_self g i _ hi]
              · refine (foldl_deliverNoArg_rv _ _ i).2.trans ?_
                refine (foldl_deliverValue_rv _ _ _ i).2.trans ?_
                rw [Graph.node_upd_self g i _ hi]
        have hrsome : r = some rv := by
          have := heff.1
          rw [hr] at this
          cases this
          rfl
        have hkeep := runTrace_rv_notmem L' g1 g'' tr' i htr hin'
        refine ⟨rv, ?_, hkeep.1.trans heff.2.1, hkeep.2.trans heff.2.2⟩
        rw [htreq, hrsome, hp]
        exact List.mem_cons_self _ _
      · have hm' : i ∈ L' := by
          rcases List.mem_cons.mp hm with hx | hx
          · exact absurd hx hji
          · exact hx
        have hst := statics_fields (runNode_statics g j g1 r hr i)
        have hn := runNode_n g j g1 r hr
        rcases ih g1 g'' tr' i htr (List.Nodup.of_cons hnd) hm'
          (by rw [hn]; exact hi)
          (by rw [hst.2.1, hst.2.2.2.2.2.1]; exact hok) with ⟨v, hv1, hv2, hv3⟩
        exact ⟨v, by rw [htreq]; exact List.mem_cons_of_mem _ hv1, hv2, hv3⟩

/-- A dispatched move-only node with exactly one value-carrying child hands
its produced value to the child's slot and invalidates its own result. -/
theorem runTrace_moveonly (L : List Nat) :
    ∀ (g g'' : Graph V) (tr : List (Nat × Nat × Option V)) (i c s : Nat),
      runTrace g L = some (g'', tr) → L.Nodup → i ∈ L → i < g.n → c < g.n →
      (g.node i).copyable = false → (g.node i).childTasks = [(c, s)] →
      (∀ w, (c, s) ∈ (g.node w).childTasks → w = i) →
      ∃ v, (i, 0, some v) ∈ tr ∧ (g''.node c).args s = v ∧
        (g''.node i).validResult = false := by
  induction L with
  | nil =>
      intro g g'' tr i c s h _ hm
      cases hm
  | cons j L' ih =>
      intro g g'' tr i c s h hnd hm hi hc hcp hct huniq
      rcases runTrace_cons g j L' g'' tr h with ⟨g1, r, tr', hr, htr, htreq⟩
      have hp := runNode_pending_zero g j (g1, r) hr
      by_cases hji : i = j
      · subst hji
        have hin' : i ∉ L' := by
          rw [List.nodup_cons] at hnd
          exact hnd.1
        set rv := (g.node i).job (g.node i).args with hrv
        have hrun : runNode g i = some (g1, r) := hr
        have heff : (g1.node c).args s = rv ∧ (g1.node i).validResult = false ∧
            r = some rv := by
          rw [runNode_mo_one g i c s hp hcp hct] at hrun
          cases hrun
          refine ⟨?_, ?_, rfl⟩
          · refine (foldl_deliverNoArg_args _ _ c s).trans ?_
            refine (Graph.node_upd_args _ i
              (fun nd => { nd with validResult := false }) (fun nd => rfl) c s).trans ?_
            rw [deliverValue_args]
            rw [if_pos ⟨rfl, by rw [Graph.upd_n]; exact hc, rfl⟩]
          · refine (foldl_deliverNoArg_rv _ _ i).2.trans ?_
            rw [Graph.node_upd_self _ i _ (by
              rw [deliverValue, Graph.upd_n, Graph.upd_n]; exact hi)]
        have hargs2 : (g''.node c).args s = (g1.node c).args s := by
          refine runTrace_args_notwritten L' g1 g'' tr' c s htr ?_
          intro w hw hmem
          have hst := statics_fields (runNode_statics g i g1 r hr w)
          rw [hst.2.2.2.2.2.1] at hmem
          exact hin' ((huniq w hmem) ▸ hw)
        have hvalid2 := runTrace_rv_notmem L' g1 g'' tr' i htr hin'
        refine ⟨rv, ?_, hargs2.trans heff.1, hvalid2.2.trans heff.2.1⟩
        rw [htreq, heff.2.2, hp]
        exact List.mem_cons_self _ _
      · have hm' : i ∈ L' := by
          rcases List.mem_cons.mp hm with hx | hx
          · exact absurd hx hji
          · exact hx
        have hst := fun w => statics_fields (runNode_statics g j g1 r hr w)
        have hn := runNode_n g j g1 r hr
        rcases ih g1 g'' tr' i c s htr (List.Nodup.of_cons hnd) hm'
          (by rw [hn]; exact hi) (by rw [hn]; exact hc)
          (by rw [(hst i).2.1]; exact hcp)
          (by rw [(hst i).2.2.2.2.2.1]; exact hct)
          (by
            intro w hw
            rw [(hst w).2.2.2.2.2.1] at hw
            exact huniq w hw) with ⟨v, hv1, hv2, hv3⟩
        exact ⟨v, by rw [htreq]; exact List.mem_cons_of_mem _ hv1, hv2, hv3⟩

/-! ### The scheduling loop touches only `parentEnqueued` -/

theorem eqExceptPE_refl (g : Graph V) : EqExceptPE g g :=
  ⟨rfl, rfl, fun _ => ⟨rfl, rfl, rfl, rfl, rfl⟩⟩

theorem eqExceptPE_trans {g g' g'' : Graph V}
    (h1 : EqExceptPE g g') (h2 : EqExceptPE g' g'') : EqExceptPE g g'' := by
  refine ⟨h2.1.trans h1.1, h2.2.1.trans h1.2.1, fun j => ?_⟩
  rcases h1.2.2 j with ⟨a1, b1, c1, d1, e1⟩
  rcases h2.2.2 j with ⟨a2, b2, c2, d2, e2⟩
  exact ⟨a2.trans a1, b2.trans b1, c2.trans c1, d2.trans d1, e2.trans e1⟩

theorem peupd_eqExceptPE (g : Graph V) (p : Nat) :
    EqExceptPE g
      (g.upd p fun nd => { nd with parentEnqueued := winc nd.parentEnqueued }) := by
  refine ⟨Graph.upd_n g p _, rfl, fun j => ?_⟩
  rw [Graph.node_upd]
  split
  · exact ⟨rfl, rfl, rfl, rfl, rfl⟩
  · exact ⟨rfl, rfl, rfl, rfl, rfl⟩

theorem foldl_peupd_eqExceptPE (l : List Nat) :
    ∀ (g : Graph V),
      EqExceptPE g
        (l.foldl (fun h k =>
          h.upd k fun nd => { nd with parentEnqueued := winc nd.parentEnqueued }) g) := by
  induction l with
  | nil => intro g; exact eqExceptPE_refl g
  | cons k l ih =>
      intro g
      rw [List.foldl_cons]
      exact eqExceptPE_trans (peupd_eqExceptPE g k) (ih _)

theorem bumpPE_eqExceptPE (g : Graph V) (u : Nat) :
    EqExceptPE g (bumpPE g u) :=
  foldl_peupd_eqExceptPE (g.node u).nextNodes g

theorem foldl_seed_eqExceptPE (l : List Nat) :
    ∀ (acc : Graph V × List Nat × List Nat),
      EqExceptPE acc.1
        ((l.foldl (fun acc v =>
          (bumpPE acc.1 v, acc.2.1 ++ [v], insertP acc.2.2 v)) acc).1) := by
  induction l with
  | nil => intro acc; exact eqExceptPE_refl acc.1
  | cons v l ih =>
      intro acc
      rw [List.foldl_cons]
      exact eqExceptPE_trans (bumpPE_eqExceptPE acc.1 v) (ih _)

theorem seed_eqExceptPE (g : Graph V) : EqExceptPE g (seed g).1 :=
  foldl_seed_eqExceptPE g.inputs (g, [], [])

theorem foldl_tryEnqueue_eqExceptPE (l : List Nat) :
    ∀ (acc : Graph V × List Nat × List Nat),
      EqExceptPE acc.1 ((l.foldl tryEnqueue acc).1) := by
  induction l with
  | nil => intro acc; exact eqExceptPE_refl acc.1
  | cons c l ih =>
      intro acc
      rw [List.foldl_cons]
      refine eqExceptPE_trans ?_ (ih (tryEnqueue acc c))
      rw [tryEnqueue]
      split
      · exact bumpPE_eqExceptPE acc.1 c
      · exact eqExceptPE_refl acc.1

theorem bfs_eqExceptPE :
    ∀ (fuel : Nat) (g : Graph V) (q pr acc : List Nat),
      EqExceptPE g (bfs fuel g q pr acc).1 := by
  intro fuel
  induction fuel with
  | zero => intro g q pr acc; exact eqExceptPE_refl g
  | succ fuel ih =>
      intro g q pr acc
      cases q with
      | nil => exact eqExceptPE_refl g
      | cons u qs =>
          rw [bfs]
          exact eqExceptPE_trans
            (foldl_tryEnqueue_eqExceptPE (g.node u).nextNodes (g, qs, pr))
            (ih _ _ _ _)

theorem schedule_eqExceptPE (g : Graph V) : EqExceptPE g (schedule g).1 :=
  eqExceptPE_trans (seed_eqExceptPE g) (bfs_eqExceptPE _ _ _ _ _)

/-! ### `collect` outcomes -/

theorem collect_ok_of (g : Graph V) (i : Nat) (v : V)
    (hval : (g.node i).validResult = true) (hres : (g.node i).result = some v) :
    collect g i = .ok v := by
  simp [collect, hval, hres]

theorem collect_err_of (g : Graph V) (i : Nat)
    (hval : (g.node i).validResult = false) :
    collect g i = .error .noResult := by
  simp [collect, hval]

/-- Witness for C7: wiring `opsW7` onto `gW7` leaves node 1 with pending
counter `1 + 2`. -/
theorem c7_pending_counter_witness :
    ((gW7.node 1).pendingCount = (gW7.node 1).arity ∧
      (gW7.node 1).parentCount = (gW7.node 1).arity) ∧
    (∀ op ∈ opsW7, op.child < gW7.n) ∧
    applyWires gW7 opsW7 = some gW7w ∧
    (gW7.node 1).arity + ordersInto 1 opsW7 < USIZE ∧
    (gW7w.node 1).pendingCount = (gW7.node 1).arity + ordersInto 1 opsW7 ∧
    (gW7w.node 1).parentCount = (gW7.node 1).arity + ordersInto 1 opsW7 := by
  have h := c7_pending_counter_invariant gW7 gW7w opsW7 1
    ⟨by decide, by decide⟩ (by decide) rfl (by decide)
  exact ⟨⟨by decide, by decide⟩, by decide, rfl, by decide, h.1, h.2.1⟩

/-! ### C3: move-only handoff -/

/-- C3.  A dispatched node with a move-only result type: if it has exactly
one value-carrying child and is not marked output, then after `execute()`
the child's argument slot holds the value the parent's job produced and the
parent's `collect()` raises NoResult; if it has no value-carrying children,
its `collect()` succeeds and returns the produced value.  (The trace entry
`(i, 0, some v)` pins down the produced value.) -/
theorem c3_moveonly_handoff (g g' : Graph V)
    (tr : List (Nat × Nat × Option V)) (i c s : Nat)
    (h : executeT g = some (g', tr)) (hnd : (scheduleList g).Nodup)
    (hm : i ∈ scheduleList g) (hi : i < g.n)
    (hcp : (g.node i).copyable = false) :
    ((g.node i).childTasks = [(c, s)] → (g.node i).isOutput = false →
      c < g.n → SlotsUniq g →
      ∃ v, (i, 0, some v) ∈ tr ∧ (g'.node c).args s = v ∧
        collect g' i = .error .noResult) ∧
    ((g.node i).childTasks = [] →
      ∃ v, (i, 0, some v) ∈ tr ∧ collect g' i = .ok v) := by
  have hkeep := schedule_eqExceptPE g
  have hst : ∀ j, (((schedule g).1).node j).statics = (g.node j).statics :=
    fun j => (hkeep.2.2 j).1
  constructor
  · intro hct _ hc huq
    have huniq : ∀ w, (c, s) ∈ (((schedule g).1).node w).childTasks → w = i := by
      intro w hw
      rw [(statics_fields (hst w)).2.2.2.2.2.1] at hw
      by_cases hwn : w < g.n
      · by_cases hwi : w = i
        · exact hwi
        · exfalso
          have hnf := List.nodup_flatMap.mp huq
          have hpair := hnf.2
          have hdisj : List.Disjoint ((g.node w).childTasks)
              ((g.node i).childTasks) := by
            refine List.Pairwise.forall ?_ hpair ?_ ?_ hwi
            · intro a b hab x hx1 hx2
              exact hab hx2 hx1
            · exact List.mem_range.mpr hwn
            · exact List.mem_range.mpr hi
          exact hdisj hw (by rw [hct]; exact List.mem_cons_self _ _)
      · exfalso
        rw [Graph.node_of_ge g w (Nat.le_of_not_lt hwn)] at hw
        cases hw
    rcases runTrace_moveonly (schedule g).2 (schedule g).1 g' tr i c s h hnd hm
      (by rw [hkeep.1]; exact hi) (by rw [hkeep.1]; exact hc)
      (by rw [(statics_fields (hst i)).2.1]; exact hcp)
      (by rw [(statics_fields (hst i)).2.2.2.2.2.1]; exact hct)
      huniq with ⟨v, hv1, hv2, hv3⟩
    exact ⟨v, hv1, hv2, collect_err_of g' i hv3⟩
  · intro hct
    rcases runTrace_value_of_mem (schedule g).2 (schedule g).1 g' tr i h hnd hm
      (by rw [hkeep.1]; exact hi)
      (Or.inr (by rw [(statics_fields (hst i)).2.2.2.2.2.1]; exact hct)) with
      ⟨v, hv1, hv2, hv3⟩
    exact ⟨v, hv1, collect_ok_of g' i v hv3 hv2⟩

set_option maxHeartbeats 2000000 in
/-- Witness for C3 on the move-only handoff graph `gMove`. -/
theorem c3_moveonly_handoff_witness :
    executeT gMove = some (gMove1, gMoveTr) ∧
    (scheduleList gMove).Nodup ∧ 0 ∈ scheduleList gMove ∧ 0 < gMove.n ∧
    (gMove.node 0).copyable = false ∧ (gMove.node 0).childTasks = [(1, 0)] ∧
    (gMove.node 0).isOutput = false ∧ 1 < gMove.n ∧ SlotsUniq gMove ∧
    ∃ v, (0, 0, some v) ∈ gMoveTr ∧ (gMove1.node 1).args 0 = v ∧
      collect gMove1 0 = .error .noResult := by
  have h := (c3_moveonly_handoff gMove gMove1 gMoveTr 0 1 0 rfl (by decide)
    (by decide) (by decide) (by decide)).1 (by decide) (by decide) (by decide)
    (by unfold SlotsUniq; decide)
  exact ⟨rfl, by decide, by decide, by decide, by decide, by decide, by decide,
    by decide, by unfold SlotsUniq; decide, h⟩

/-! ### C5: mark_as_output and result preservation -/

/-- C5 (amended).  For a node marked as output, the result survives
`execute()` and `collect()` succeeds provided the result type is copyable or
the node has no value-carrying consumer.  (For a move-only result with a
value-carrying consumer wired before `mark_as_output()`, the code still moves
the result out — see the counterexample.) -/
theorem c5_output_preserved (g g' : Graph V) (i : Nat)
    (h : executeG g = some g') (hnd : (scheduleList g).Nodup)
    (hm : i ∈ scheduleList g) (hi : i < g.n)
    (hout : (g.node i).isOutput = true)
    (hok : (g.node i).copyable = true ∨ (g.node i).childTasks = []) :
    ∃ v, (g'.node i).result = some v ∧ (g'.node i).validResult = true ∧
      collect g' i = .ok v := by
  rcases runTrace_of_runList (schedule g).2 (schedule g).1 g' h with ⟨tr, htr⟩
  have hkeep := schedule_eqExceptPE g
  have hst : ∀ j, (((schedule g).1).node j).statics = (g.node j).statics :=
    fun j => (hkeep.2.2 j).1
  rcases runTrace_value_of_mem (schedule g).2 (schedule g).1 g' tr i htr hnd hm
    (by rw [hkeep.1]; exact hi)
    (by
      rcases hok with hcp | hct
      · exact Or.inl (by rw [(statics_fields (hst i)).2.1]; exact hcp)
      · exact Or.inr (by rw [(statics_fields (hst i)).2.2.2.2.2.1]; exact hct)) with
    ⟨v, _, hv2, hv3⟩
  exact ⟨v, hv2, hv3, collect_ok_of g' i v hv3 hv2⟩

/-- Counterexample to C5 as stated: on `gMoveOut` the consumer was wired
before `mark_as_output()`; after `execute()` the output-marked node's result
was still moved out and `collect()` raises NoResult. -/
theorem c5_output_counterexample :
    (gMoveOut.node 0).isOutput = true ∧
    (gMoveOut.node 0).copyable = false ∧
    (gMoveOut.node 0).childTasks = [(1, 0)] ∧
    executeG gMoveOut = some gMoveOut1 ∧
    collect gMoveOut1 0 = Except.error CollectErr.noResult :=
  ⟨by decide, by decide, by decide, rfl, by rfl⟩

/-- Witness for C5 (amended) on the diamond with node 4 marked output. -/
theorem c5_output_preserved_witness :
    executeG gDiaOut = some gDiaOut1 ∧ (scheduleList gDiaOut).Nodup ∧
    4 ∈ scheduleList gDiaOut ∧ 4 < gDiaOut.n ∧
    (gDiaOut.node 4).isOutput = true ∧ (gDiaOut.node 4).copyable = true ∧
    ∃ v, (gDiaOut1.node 4).result = some v ∧
      (gDiaOut1.node 4).validResult = true ∧ collect gDiaOut1 4 = .ok v := by
  have h := c5_output_preserved gDiaOut gDiaOut1 4 rfl (by decide) (by decide)
    (by decide) (by decide) (Or.inl (by decide))
  exact ⟨rfl, by decide, by decide, by decide, by decide, by decide, h⟩

/-! ### C10: collect on a copyable node is a pure observer -/

/-- C10.  For a dispatched node with a copyable result type, after
`execute()` the stored result is valid, and `collect()` succeeds returning
that stored value.  In the source, the copyable branch of `Node::collect`
performs no writes at all (`return _result.value();` copies), so `collect`
is embedded as a pure function of the graph state: every repeated call
returns this same value and no call changes any node state. -/
theorem c10_collect_pure_observer (g g' : Graph V) (i : Nat)
    (h : executeG g = some g') (hnd : (scheduleList g).Nodup)
    (hm : i ∈ scheduleList g) (hi : i < g.n)
    (hcp : (g.node i).copyable = true) :
    ∃ v, (g'.node i).result = some v ∧ (g'.node i).validResult = true ∧
      collect g' i = .ok v := by
  rcases runTrace_of_runList (schedule g).2 (schedule g).1 g' h with ⟨tr, htr⟩
  have hkeep := schedule_eqExceptPE g
  rcases runTrace_value_of_mem (schedule g).2 (schedule g).1 g' tr i htr hnd hm
    (by rw [hkeep.1]; exact hi)
    (Or.inl (by rw [(statics_fields ((hkeep.2.2 i).1)).2.1]; exact hcp)) with
    ⟨v, _, hv2, hv3⟩
  exact ⟨v, hv2, hv3, collect_ok_of g' i v hv3 hv2⟩

/-! ### Pending-counter accounting for one thunk -/

theorem deliverValue_pending (g : Graph V) (c s : Nat) (v : V) (j : Nat) :
    ((deliverValue g c s v).node j).pendingCount =
      if j = c ∧ j < g.n then wdec (g.node j).pendingCount
      else (g.node j).pendingCount := by
  rw [deliverValue, Graph.node_upd]
  by_cases hc : j = c ∧ j < g.n
  · simp only [if_pos hc]
  · simp only [if_neg hc]

theorem deliverNoArg_pending (g : Graph V) (c j : Nat) :
    ((deliverNoArg g c).node j).pendingCount =
      if j = c ∧ j < g.n then wdec (g.node j).pendingCount
      else (g.node j).pendingCount := by
  rw [deliverNoArg, Graph.node_upd]
  by_cases hc : j = c ∧ j < g.n
  · simp only [if_pos hc]
  · simp only [if_neg hc]

theorem wdec_of_ne_zero (p : Nat) (h : p ≠ 0) : wdec p = p - 1 := by
  rw [wdec, if_neg h]

theorem foldl_deliverValue_pending_sub (l : List (Nat × Nat)) (r : V) :
    ∀ (g : Graph V) (c : Nat),
      l.countP (fun cs => cs.1 = c) ≤ (g.node c).pendingCount →
      ((l.foldl (fun h cs => deliverValue h cs.1 cs.2 r) g).node c).pendingCount =
        (g.node c).pendingCount - l.countP (fun cs => cs.1 = c) := by
  induction l with
  | nil =>
      intro g c _
      simp
  | cons cs l ih =>
      intro g c hb
      rw [List.foldl_cons]
      by_cases hcs : cs.1 = c
      · have hcount : List.countP (fun cs => decide (cs.1 = c)) (cs :: l) =
            List.countP (fun cs => decide (cs.1 = c)) l + 1 := by
          simp [List.countP_cons, hcs]
        rw [hcount] at hb ⊢
        by_cases hcn : c < g.n
        · have hps : ((deliverValue g cs.1 cs.2 r).node c).pendingCount =
              (g.node c).pendingCount - 1 := by
            rw [deliverValue_pending, if_pos ⟨hcs.symm, hcn⟩]
            exact wdec_of_ne_zero _ (by omega)
          have hrec := ih (deliverValue g cs.1 cs.2 r) c (by rw [hps]; omega)
          rw [hrec, hps]
          omega
        · exfalso
          have hz : (g.node c).pendingCount = 0 := by
            rw [Graph.node_of_ge g c (Nat.le_of_not_lt hcn)]
            rfl
          omega
      · have hcount : List.countP (fun cs => decide (cs.1 = c)) (cs :: l) =
            List.countP (fun cs => decide (cs.1 = c)) l := by
          simp [List.countP_cons, hcs]
        rw [hcount] at hb ⊢
        have hps : ((deliverValue g cs.1 cs.2 r).node c).pendingCount =
            (g.node c).pendingCount := by
          rw [deliverValue_pending, if_neg (by intro hx; exact hcs hx.1.symm)]
        have hrec := ih (deliverValue g cs.1 cs.2 r) c (by rw [hps]; omega)
        rw [hrec, hps]

theorem foldl_deliverNoArg_pending_sub (l : List Nat) :
    ∀ (g : Graph V) (c : Nat), l.count c ≤ (g.node c).pendingCount →
      ((l.foldl deliverNoArg g).node c).pendingCount =
        (g.node c).pendingCount - l.count c := by
  induction l with
  | nil =>
      intro g c _
      simp
  | cons c0 l ih =>
      intro g c hb
      rw [List.foldl_cons]
      by_cases hcs : c0 = c
      · have hcount : List.count c (c0 :: l) = List.count c l + 1 := by
          simp [List.count_cons, hcs]
        rw [hcount] at hb ⊢
        by_cases hcn : c < g.n
        · have hps : ((deliverNoArg g c0).node c).pendingCount =
              (g.node c).pendingCount - 1 := by
            rw [deliverNoArg_pending, if_pos ⟨hcs.symm, hcn⟩]
            exact wdec_of_ne_zero _ (by omega)
          have hrec := ih (deliverNoArg g c0) c (by rw [hps]; omega)
          rw [hrec, hps]
          omega
        · exfalso
          have hz : (g.node c).pendingCount = 0 := by
            rw [Graph.node_of_ge g c (Nat.le_of_not_lt hcn)]
            rfl
          omega
      · have hcount : List.count c (c0 :: l) = List.count c l := by
          simp [List.count_cons, hcs]
        rw [hcount] at hb ⊢
        have hps : ((deliverNoArg g c0).node c).pendingCount =
            (g.node c).pendingCount := by
          rw [deliverNoArg_pending, if_neg (by intro hx; exact hcs hx.1.symm)]
        have hrec := ih (deliverNoArg g c0) c (by rw [hps]; omega)
        rw [hrec, hps]

theorem upd_rv_pending (g : Graph V) (w : Nat) (r0 : Option V) (c : Nat) :
    ((g.upd w fun nd =>
      { nd with result := r0, validResult := true }).node c).pendingCount =
      (g.node c).pendingCount := by
  rw [Graph.node_upd]
  split
  · rfl
  · rfl

theorem upd_vfalse_pending (g : Graph V) (w : Nat) (c : Nat) :
    ((g.upd w fun nd =>
      { nd with validResult := false }).node c).pendingCount =
      (g.node c).pendingCount := by
  rw [Graph.node_upd]
  split
  · rfl
  · rfl

/-- Total pending decrement a thunk applies to node `c`. -/
theorem runNode_pending_delta (g : Graph V) (w : Nat) (g' : Graph V)
    (r : Option V) (h : runNode g w = some (g', r))
    (hnoskip : (g.node w).copyable = true ∨ (g.node w).childTasks.length ≤ 1)
    (c : Nat) (hb : edgesFromInto g w c ≤ (g.node c).pendingCount) :
    (g'.node c).pendingCount = (g.node c).pendingCount - edgesFromInto g w c := by
  have hp := runNode_pending_zero g w (g', r) h
  rw [edgesFromInto] at hb ⊢
  by_cases hcp : (g.node w).copyable = false
  · have hlen : ¬(g.node w).childTasks.length > 1 := by
      rcases hnoskip with hx | hx
      · rw [hcp] at hx; cases hx
      · omega
    cases hct : (g.node w).childTasks with
    | nil =>
        rw [runNode_mo_nil g w hp hcp hct] at h
        cases h
        have h0 := upd_rv_pending g w
          (some ((g.node w).job (g.node w).args)) c
        rw [hct] at hb
        simp only [List.countP_nil, Nat.zero_add] at hb ⊢
        rw [foldl_deliverNoArg_pending_sub _ _ c (by rw [h0]; exact hb), h0]
    | cons cs rest =>
        have hrest : rest = [] := by
          rw [hct] at hlen
          simp only [List.length_cons, gt_iff_lt, not_lt] at hlen
          exact List.length_eq_zero.mp (by omega)
        subst hrest
        rw [runNode_mo_one g w cs.1 cs.2 hp hcp (by rw [hct])] at h
        cases h
        rw [hct] at hb
        have h0 := upd_rv_pending g w
          (some ((g.node w).job (g.node w).args)) c
        have h1 : ((deliverValue (g.upd w fun nd =>
            { nd with result := some ((g.node w).job (g.node w).args),
                      validResult := true }) cs.1 cs.2
              ((g.node w).job (g.node w).args)).node c).pendingCount =
            (g.node c).pendingCount - [cs].countP (fun x => x.1 = c) := by
        -- delivery of the single value edge
          rw [deliverValue_pending]
          by_cases hcc : c = cs.1
          · have hcnt : ([cs].countP (fun x => x.1 = c)) = 1 := by
              simp [List.countP_cons, hcc]
            rw [hcnt]
            by_cases hcn : c < g.n
            · rw [if_pos ⟨hcc, by rw [Graph.upd_n]; exact hcn⟩, h0]
              refine wdec_of_ne_zero _ ?_
              have hcnt' : ([cs].countP (fun x => x.1 = c)) = 1 := hcnt
              rw [hcnt'] at hb
              omega
            · exfalso
              have hz : (g.node c).pendingCount = 0 := by
                rw [Graph.node_of_ge g c (Nat.le_of_not_lt hcn)]
                rfl
              rw [hcnt] at hb
              omega
          · have hcnt : ([cs].countP (fun x => x.1 = c)) = 0 := by
              simp [List.countP_cons]
              intro hx
              exact absurd hx.symm hcc
            rw [hcnt, if_neg (by intro hx; exact hcc hx.1), h0]
            omega
        have h2 : (((deliverValue (g.upd w fun nd =>
            { nd with result := some ((g.node w).job (g.node w).args),
                      validResult := true }) cs.1 cs.2
              ((g.node w).job (g.node w).args)).upd w fun nd =>
                { nd with validResult := false }).node c).pendingCount =
            (g.node c).pendingCount - [cs].countP (fun x => x.1 = c) := by
          rw [upd_vfalse_pending _ w c, h1]
        rw [foldl_deliverNoArg_pending_sub _ _ c (by rw [h2]; omega), h2]
        omega
  · have hcp' : (g.node w).copyable = true := by
      revert hcp
      cases (g.node w).copyable <;> simp
    rw [runNode_copy g w hp hcp'] at h
    cases h
    have h0 := upd_rv_pending g w
      (some ((g.node w).job (g.node w).args)) c
    have h1 := foldl_deliverValue_pending_sub (g.node w).childTasks
      ((g.node w).job (g.node w).args)
      (g.upd w fun nd =>
        { nd with result := some ((g.node w).job (g.node w).args),
                  validResult := true }) c (by rw [h0]; omega)
    rw [h0] at h1
    rw [foldl_deliverNoArg_pending_sub _ _ c (by rw [h1]; omega), h1]
    omega

/-- Thunks never touch `parentEnqueued`. -/
theorem runNode_pe (g : Graph V) (w : Nat) (g' : Graph V) (r : Option V)
    (h : runNode g w = some (g', r)) (j : Nat) :
    (g'.node j).parentEnqueued = (g.node j).parentEnqueued := by
  have hp := runNode_pending_zero g w (g', r) h
  have hupd : ∀ (h0 : Graph V) (f : NodeSt V → NodeSt V),
      (∀ nd, (f nd).parentEnqueued = nd.parentEnqueued) →
      ((h0.upd w f).node j).parentEnqueued = (h0.node j).parentEnqueued := by
    intro h0 f hf
    rw [Graph.node_upd]
    split
    · rw [hf]
    · rfl
  have hdv : ∀ (h0 : Graph V) (c s : Nat) (v : V),
      ((deliverValue h0 c s v).node j).parentEnqueued =
        (h0.node j).parentEnqueued := by
    intro h0 c s v
    rw [deliverValue, Graph.node_upd]
    split
    · rfl
    · rfl
  have hdn : ∀ (h0 : Graph V) (c : Nat),
      ((deliverNoArg h0 c).node j).parentEnqueued =
        (h0.node j).parentEnqueued := by
    intro h0 c
    rw [deliverNoArg, Graph.node_upd]
    split
    · rfl
    · rfl
  have hfoldn : ∀ (l : List Nat) (h0 : Graph V),
      ((l.foldl deliverNoArg h0).node j).parentEnqueued =
        (h0.node j).parentEnqueued := by
    intro l
    induction l with
    | nil => intro h0; rfl
    | cons c l ih =>
        intro h0
        rw [List.foldl_cons]
        exact (ih _).trans (hdn h0 c)
  have hfoldv : ∀ (l : List (Nat × Nat)) (v : V) (h0 : Graph V),
      ((l.foldl (fun h cs => deliverValue h cs.1 cs.2 v) h0).node j).parentEnqueued =
        (h0.node j).parentEnqueued := by
    intro l v
    induction l with
    | nil => intro h0; rfl
    | cons cs l ih =>
        intro h0
        rw [List.foldl_cons]
        exact (ih _).trans (hdv h0 cs.1 cs.2 v)
  by_cases hcp : (g.node w).copyable = false
  · by_cases hlen : (g.node w).childTasks.length > 1
    · rw [runNode_mo_big g w hp hcp hlen] at h
      cases h
      rfl
    · cases hct : (g.node w).childTasks with
      | nil =>
          rw [runNode_mo_nil g w hp hcp hct] at h
          cases h
          exact (hfoldn _ _).trans (hupd _
            (fun nd => { nd with
              result := some ((g.node w).job (g.node w).args),
              validResult := true }) (fun nd => rfl))
      | cons cs rest =>
          have hrest : rest = [] := by
            rw [hct] at hlen
            simp only [List.length_cons, gt_iff_lt, not_lt] at hlen
            exact List.length_eq_zero.mp (by omega)
          subst hrest
          rw [runNode_mo_one g w cs.1 cs.2 hp hcp (by rw [hct])] at h
          cases h
          refine (hfoldn _ _).trans ?_
          refine (hupd _ (fun nd => { nd with validResult := false })
            (fun nd => rfl)).trans ?_
          exact (hdv _ cs.1 cs.2 _).trans (hupd _
            (fun nd => { nd with
              result := some ((g.node w).job (g.node w).args),
              validResult := true }) (fun nd => rfl))
  · rw [runNode_copy g w hp (by revert hcp; cases (g.node w).copyable <;> simp)] at h
    cases h
    exact (hfoldn _ _).trans ((hfoldv _ _ _).trans (hupd _
      (fun nd => { nd with
        result := some ((g.node w).job (g.node w).args),
        validResult := true }) (fun nd => rfl)))

theorem runTrace_pe (L : List Nat) :
    ∀ (g g'' : Graph V) (tr : List (Nat × Nat × Option V)) (j : Nat),
      runTrace g L = some (g'', tr) →
      (g''.node j).parentEnqueued = (g.node j).parentEnqueued := by
  induction L with
  | nil =>
      intro g g'' tr j h
      rw [runTrace] at h
      cases h
      rfl
  | cons i L' ih =>
      intro g g'' tr j h
      rcases runTrace_cons g i L' g'' tr h with ⟨g1, r, tr', hr, htr, _⟩
      exact (ih g1 g'' tr' j htr).trans (runNode_pe g i g1 r hr j)

theorem futureEdgesInto_cons (g : Graph V) (w : Nat) (L : List Nat) (c : Nat) :
    futureEdgesInto g (w :: L) c =
      edgesFromInto g w c + futureEdgesInto g L c := by
  simp [futureEdgesInto]

theorem edgesFromInto_congr (g g1 : Graph V)
    (h : ∀ j, (g1.node j).statics = (g.node j).statics) (w c : Nat) :
    edgesFromInto g1 w c = edgesFromInto g w c := by
  rw [edgesFromInto, edgesFromInto,
    (statics_fields (h w)).2.2.2.2.2.1, (statics_fields (h w)).2.2.2.2.2.2.1]

theorem futureEdgesInto_congr (g g1 : Graph V)
    (h : ∀ j, (g1.node j).statics = (g.node j).statics) (L : List Nat) (c : Nat) :
    futureEdgesInto g1 L c = futureEdgesInto g L c := by
  rw [futureEdgesInto, futureEdgesInto]
  congr 1
  exact List.map_congr_left fun w _ => edgesFromInto_congr g g1 h w c

theorem sum_zero_of_mem {l : List Nat} {f : Nat → Nat}
    (h : (l.map f).sum = 0) {x : Nat} (hx : x ∈ l) : f x = 0 := by
  induction l with
  | nil => cases hx
  | cons a l ih =>
      rw [List.map_cons, List.sum_cons] at h
      rcases List.mem_cons.mp hx with hx1 | hx2
      · subst hx1; omega
      · exact ih (by omega) hx2

/-- The value a non-throwing thunk returns is the job applied to the node's
argument tuple at thunk start. -/
theorem runNode_produces (g : Graph V) (w : Nat) (g' : Graph V) (r : Option V)
    (h : runNode g w = some (g', r))
    (hnoskip : (g.node w).copyable = true ∨ (g.node w).childTasks.length ≤ 1) :
    r = some ((g.node w).job ((g.node w).args)) := by
  have hp := runNode_pending_zero g w (g', r) h
  by_cases hcp : (g.node w).copyable = false
  · have hlen : ¬(g.node w).childTasks.length > 1 := by
      rcases hnoskip with hx | hx
      · rw [hcp] at hx; cases hx
      · omega
    cases hct : (g.node w).childTasks with
    | nil =>
        rw [runNode_mo_nil g w hp hcp hct] at h
        cases h
        rfl
    | cons cs rest =>
        have hrest : rest = [] := by
          rw [hct] at hlen
          simp only [List.length_cons, gt_iff_lt, not_lt] at hlen
          exact List.length_eq_zero.mp (by omega)
        subst hrest
        rw [runNode_mo_one g w cs.1 cs.2 hp hcp (by rw [hct])] at h
        cases h
        rfl
  · rw [runNode_copy g w hp (by revert hcp; cases (g.node w).copyable <;> simp)] at h
    cases h
    rfl

theorem foldl_deliverValue_writes (l : List (Nat × Nat)) (r : V) :
    ∀ (g : Graph V) (cs : Nat × Nat), l.Nodup → cs ∈ l → cs.1 < g.n →
      ((l.foldl (fun h x => deliverValue h x.1 x.2 r) g).node cs.1).args cs.2 = r := by
  induction l with
  | nil =>
      intro g cs _ hm
      cases hm
  | cons x l ih =>
      intro g cs hnd hm hcn
      rw [List.foldl_cons]
      rcases List.mem_cons.mp hm with hx | hx
      · subst hx
        have hnotin : cs ∉ l := (List.nodup_cons.mp hnd).1
        rw [foldl_deliverValue_args_other l r cs.1 cs.2 hnotin]
        rw [deliverValue_args, if_pos ⟨rfl, hcn, rfl⟩]
      · have hn' : (deliverValue g x.1 x.2 r).n = g.n := by
          rw [deliverValue]; exact Graph.upd_n _ _ _
        exact ih (deliverValue g x.1 x.2 r) cs (List.Nodup.of_cons hnd) hx
          (by rw [hn']; exact hcn)

/-- A non-throwing thunk leaves its produced value in every value-edge
target slot. -/
theorem runNode_delivers (g : Graph V) (w : Nat) (g' : Graph V) (r : Option V)
    (h : runNode g w = some (g', r))
    (hnoskip : (g.node w).copyable = true ∨ (g.node w).childTasks.length ≤ 1)
    (cs : Nat × Nat) (hm : cs ∈ (g.node w).childTasks)
    (hnd : (g.node w).childTasks.Nodup) (hcn : cs.1 < g.n) :
    (g'.node cs.1).args cs.2 = (g.node w).job ((g.node w).args) := by
  have hp := runNode_pending_zero g w (g', r) h
  by_cases hcp : (g.node w).copyable = false
  · have hlen : ¬(g.node w).childTasks.length > 1 := by
      rcases hnoskip with hx | hx
      · rw [hcp] at hx; cases hx
      · omega
    cases hct : (g.node w).childTasks with
    | nil =>
        rw [hct] at hm
        cases hm
    | cons x rest =>
        have hrest : rest = [] := by
          rw [hct] at hlen
          simp only [List.length_cons, gt_iff_lt, not_lt] at hlen
          exact List.length_eq_zero.mp (by omega)
        subst hrest
        have hx : cs = x := by
          rw [hct] at hm
          rcases List.mem_cons.mp hm with h1 | h1
          · exact h1
          · cases h1
        subst hx
        rw [runNode_mo_one g w cs.1 cs.2 hp hcp (by rw [hct])] at h
        cases h
        refine (foldl_deliverNoArg_args _ _ cs.1 cs.2).trans ?_
        refine (Graph.node_upd_args _ w
          (fun nd => { nd with validResult := false }) (fun nd => rfl)
          cs.1 cs.2).trans ?_
        rw [deliverValue_args, if_pos ⟨rfl, by rw [Graph.upd_n]; exact hcn, rfl⟩]
  · rw [runNode_copy g w hp (by revert hcp; cases (g.node w).copyable <;> simp)] at h
    cases h
    refine (foldl_deliverNoArg_args _ _ cs.1 cs.2).trans ?_
    refine foldl_deliverValue_writes _ _ _ cs hnd hm ?_
    rw [Graph.upd_n]
    exact hcn

/-- Facts of one successful sequential round over a duplicate-free dispatch
list whose pending counters dominate the future in-edge counts: every
produced value is the job applied to the producer's final argument tuple
(that tuple is complete at the producer's turn and never written
afterwards), and every value edge of a dispatched node leaves the produced
value in its target slot at end of round. -/
theorem runTrace_round_facts (L : List Nat) :
    ∀ (g g'' : Graph V) (tr : List (Nat × Nat × Option V)),
      runTrace g L = some (g'', tr) → L.Nodup →
      (∀ c, futureEdgesInto g L c ≤ (g.node c).pendingCount) →
      (∀ w ∈ L, (g.node w).copyable = true ∨ (g.node w).childTasks.length ≤ 1) →
      (∀ (c s w w' : Nat), (c, s) ∈ (g.node w).childTasks →
        (c, s) ∈ (g.node w').childTasks → w = w') →
      (∀ w, (g.node w).childTasks.Nodup) →
      (∀ w p r, (w, p, r) ∈ tr →
        r = some ((g.node w).job ((g''.node w).args))) ∧
      (∀ w ∈ L, ∀ cs ∈ (g.node w).childTasks, cs.1 < g.n →
        (g''.node cs.1).args cs.2 = (g.node w).job ((g''.node w).args)) := by
  induction L with
  | nil =>
      intro g g'' tr h _ _ _ _ _
      rw [runTrace] at h
      cases h
      constructor
      · intro w p r hm
        cases hm
      · intro w hm
        cases hm
  | cons w L' ih =>
      intro g g'' tr h hnd hinv hnoskip huniq hndct
      rcases runTrace_cons g w L' g'' tr h with ⟨g1, r, tr', hr, htr, htreq⟩
      have hp := runNode_pending_zero g w (g1, r) hr
      have hwL' : w ∉ L' := (List.nodup_cons.mp hnd).1
      have hst : ∀ j, (g1.node j).statics = (g.node j).statics :=
        runNode_statics g w g1 r hr
      have hn1 : g1.n = g.n := runNode_n g w g1 r hr
      -- the pending counter of w is zero, so no in-edges of w are left
      have hzero : futureEdgesInto g (w :: L') w = 0 := by
        have := hinv w
        omega
      have hself : edgesFromInto g w w = 0 := by
        rw [futureEdgesInto_cons] at hzero
        omega
      have hfut0 : futureEdgesInto g L' w = 0 := by
        rw [futureEdgesInto_cons] at hzero
        omega
      have hselfslot : ∀ s, (w, s) ∉ (g.node w).childTasks := by
        intro s hmem
        rw [edgesFromInto] at hself
        have hcz : (g.node w).childTasks.countP (fun cs => cs.1 = w) = 0 := by
          omega
        have := List.countP_eq_zero.mp hcz (w, s) hmem
        simp at this
      have hargsw1 : ∀ s, (g1.node w).args s = (g.node w).args s := by
        intro s
        exact runNode_args_other g w g1 r hr w s (hselfslot s)
      have hargswL : ∀ s, (g''.node w).args s = (g1.node w).args s := by
        intro s
        refine runTrace_args_notwritten L' g1 g'' tr' w s htr ?_
        intro w' hw' hmem
        rw [(statics_fields (hst w')).2.2.2.2.2.1] at hmem
        have hz := sum_zero_of_mem (by rw [futureEdgesInto] at hfut0; exact hfut0) hw'
        rw [edgesFromInto] at hz
        have hcz : (g.node w').childTasks.countP (fun cs => cs.1 = w) = 0 := by
          omega
        have := List.countP_eq_zero.mp hcz (w, s) hmem
        simp at this
      have hargsfin : (g''.node w).args = (g.node w).args := by
        funext s
        rw [hargswL s, hargsw1 s]
      have hnoskipw := hnoskip w (List.mem_cons_self _ _)
      have hrv := runNode_produces g w g1 r hr hnoskipw
      -- the bound transfers to the tail
      have hinv' : ∀ c, futureEdgesInto g1 L' c ≤ (g1.node c).pendingCount := by
        intro c
        have hbc : edgesFromInto g w c ≤ (g.node c).pendingCount := by
          have := hinv c
          rw [futureEdgesInto_cons] at this
          omega
        have hdelta := runNode_pending_delta g w g1 r hr hnoskipw c hbc
        rw [futureEdgesInto_congr g g1 hst, hdelta]
        have := hinv c
        rw [futureEdgesInto_cons] at this
        omega
      have hih := ih g1 g'' tr' htr (List.Nodup.of_cons hnd) hinv'
        (by
          intro w' hw'
          rw [(statics_fields (hst w')).2.1, (statics_fields (hst w')).2.2.2.2.2.1]
          exact hnoskip w' (List.mem_cons_of_mem _ hw'))
        (by
          intro c s w1 w2 h1 h2
          rw [(statics_fields (hst w1)).2.2.2.2.2.1] at h1
          rw [(statics_fields (hst w2)).2.2.2.2.2.1] at h2
          exact huniq c s w1 w2 h1 h2)
        (by
          intro w'
          rw [(statics_fields (hst w')).2.2.2.2.2.1]
          exact hndct w')
      constructor
      · intro w0 p0 r0 hm0
        rw [htreq] at hm0
        rcases List.mem_cons.mp hm0 with hx | hx
        · injection hx with h1 h2
          injection h2 with h3 h4
          subst h1
          rw [h4, hrv, hargsfin]
        · have := hih.1 w0 p0 r0 hx
          rw [(statics_fields (hst w0)).2.2.2.1] at this
          exact this
      · intro w0 hw0 cs hcs hcn
        rcases List.mem_cons.mp hw0 with hx | hx
        · subst hx
          have hdel := runNode_delivers g w0 g1 r hr hnoskipw cs hcs
            (hndct w0) hcn
          have hkeep : (g''.node cs.1).args cs.2 = (g1.node cs.1).args cs.2 := by
            refine runTrace_args_notwritten L' g1 g'' tr' cs.1 cs.2 htr ?_
            intro w' hw' hmem
            rw [(statics_fields (hst w')).2.2.2.2.2.1] at hmem
            have hcs' : cs = (cs.1, cs.2) := rfl
            rw [← hcs'] at hmem
            exact hwL' ((huniq cs.1 cs.2 w' w0 hmem (by rw [hcs'] at hcs; exact hcs)) ▸ hw')
          rw [hkeep, hdel, hargsfin]
        · have := hih.2 w0 hx cs
            (by rw [(statics_fields (hst w0)).2.2.2.2.2.1]; exact hcs)
            (by rw [hn1]; exact hcn)
          rw [(statics_fields (hst w0)).2.2.2.1] at this
          exact this

theorem foldl_deliverValue_pending_iter (l : List (Nat × Nat)) (r : V) :
    ∀ (g : Graph V) (c : Nat),
      ((l.foldl (fun h x => deliverValue h x.1 x.2 r) g).node c).pendingCount =
        if c < g.n then
          wdec^[l.countP (fun x => x.1 = c)] ((g.node c).pendingCount)
        else (g.node c).pendingCount := by
  induction l with
  | nil =>
      intro g c
      by_cases hc : c < g.n
      · simp [hc]
      · simp [hc]
  | cons x l ih =>
      intro g c
      rw [List.foldl_cons]
      have hn' : (deliverValue g x.1 x.2 r).n = g.n := by
        rw [deliverValue]; exact Graph.upd_n _ _ _
      rw [ih, hn']
      by_cases hc : c < g.n
      · rw [if_pos hc, if_pos hc]
        by_cases hx : x.1 = c
        · have hcount : List.countP (fun x => decide (x.1 = c)) (x :: l) =
              List.countP (fun x => decide (x.1 = c)) l + 1 := by
            simp [List.countP_cons, hx]
          rw [hcount, deliverValue_pending, if_pos ⟨hx.symm, hc⟩,
            Function.iterate_succ_apply]
        · have hcount : List.countP (fun x => decide (x.1 = c)) (x :: l) =
              List.countP (fun x => decide (x.1 = c)) l := by
            simp [List.countP_cons, hx]
          rw [hcount, deliverValue_pending,
            if_neg (by intro hk; exact hx hk.1.symm)]
      · rw [if_neg hc, if_neg hc, deliverValue_pending,
          if_neg (by intro hk; exact hc hk.2)]

theorem foldl_deliverNoArg_pending_iter (l : List Nat) :
    ∀ (g : Graph V) (c : Nat),
      ((l.foldl deliverNoArg g).node c).pendingCount =
        if c < g.n then wdec^[l.count c] ((g.node c).pendingCount)
        else (g.node c).pendingCount := by
  induction l with
  | nil =>
      intro g c
      by_cases hc : c < g.n
      · simp [hc]
      · simp [hc]
  | cons x l ih =>
      intro g c
      rw [List.foldl_cons]
      have hn' : (deliverNoArg g x).n = g.n := by
        rw [deliverNoArg]; exact Graph.upd_n _ _ _
      rw [ih, hn']
      by_cases hc : c < g.n
      · rw [if_pos hc, if_pos hc]
        by_cases hx : x = c
        · have hcount : List.count c (x :: l) = List.count c l + 1 := by
            simp [List.count_cons, hx]
          rw [hcount, deliverNoArg_pending, if_pos ⟨hx.symm, hc⟩,
            Function.iterate_succ_apply]
        · have hcount : List.count c (x :: l) = List.count c l := by
            simp [List.count_cons, hx]
          rw [hcount, deliverNoArg_pending,
            if_neg (by intro hk; exact hx hk.1.symm)]
      · rw [if_neg hc, if_neg hc, deliverNoArg_pending,
          if_neg (by intro hk; exact hc hk.2)]

/-- Exact pending counter after one thunk, as iterated wrap-around
decrements (one per delivery the thunk sends to `c`). -/
theorem runNode_pending_iter (g : Graph V) (w : Nat) (g' : Graph V)
    (r : Option V) (h : runNode g w = some (g', r))
    (hnoskip : (g.node w).copyable = true ∨ (g.node w).childTasks.length ≤ 1)
    (c : Nat) :
    (g'.node c).pendingCount =
      if c < g.n then wdec^[edgesFromInto g w c] ((g.node c).pendingCount)
      else (g.node c).pendingCount := by
  have hp := runNode_pending_zero g w (g', r) h
  rw [edgesFromInto]
  by_cases hcp : (g.node w).copyable = false
  · have hlen : ¬(g.node w).childTasks.length > 1 := by
      rcases hnoskip with hx | hx
      · rw [hcp] at hx; cases hx
      · omega
    cases hct : (g.node w).childTasks with
    | nil =>
        rw [runNode_mo_nil g w hp hcp hct] at h
        cases h
        rw [foldl_deliverNoArg_pending_iter, Graph.upd_n,
          upd_rv_pending g w (some ((g.node w).job (g.node w).args)) c]
        simp only [List.countP_nil, Nat.zero_add]
    | cons cs rest =>
        have hrest : rest = [] := by
          rw [hct] at hlen
          simp only [List.length_cons, gt_iff_lt, not_lt] at hlen
          exact List.length_eq_zero.mp (by omega)
        subst hrest
        rw [runNode_mo_one g w cs.1 cs.2 hp hcp (by rw [hct])] at h
        cases h
        rw [foldl_deliverNoArg_pending_iter]
        have hnn : ((deliverValue (g.upd w fun nd =>
            { nd with result := some ((g.node w).job (g.node w).args),
                      validResult := true }) cs.1 cs.2
            ((g.node w).job (g.node w).args)).upd w fun nd =>
              { nd with validResult := false }).n = g.n := by
          rw [Graph.upd_n, deliverValue, Graph.upd_n, Graph.upd_n]
        rw [hnn, upd_vfalse_pending, deliverValue_pending, Graph.upd_n,
          upd_rv_pending g w (some ((g.node w).job (g.node w).args)) c]
        by_cases hc : c < g.n
        · rw [if_pos hc, if_pos hc]
          by_cases hx : cs.1 = c
          · have hcount : List.countP (fun x => decide (x.1 = c)) [cs] = 1 := by
              simp [List.countP_cons, hx]
            rw [if_pos ⟨hx.symm, hc⟩, hcount, Nat.add_comm 1,
              Function.iterate_add_apply, Function.iterate_one]
          · have hcount : List.countP (fun x => decide (x.1 = c)) [cs] = 0 := by
              simp [List.countP_cons, hx]
            rw [if_neg (by intro hk; exact hx hk.1.symm), hcount, Nat.zero_add]
        · rw [if_neg hc, if_neg hc,
            if_neg (by intro hk; exact hc hk.2)]
  · rw [runNode_copy g w hp (by revert hcp; cases (g.node w).copyable <;> simp)] at h
    cases h
    rw [foldl_deliverNoArg_pending_iter, foldl_deliverValue_n, Graph.upd_n,
      foldl_deliverValue_pending_iter, Graph.upd_n,
      upd_rv_pending g w (some ((g.node w).job (g.node w).args)) c]
    by_cases hc : c < g.n
    · rw [if_pos hc, if_pos hc, if_pos hc]
      rw [← Function.iterate_add_apply]
      rw [Nat.add_comm]
    · rw [if_neg hc, if_neg hc, if_neg hc]

/-- Result and validity of the running node itself after its thunk. -/
theorem runNode_rv_self (g : Graph V) (w : Nat) (g' : Graph V)
    (r : Option V) (h : runNode g w = some (g', r))
    (hnoskip : (g.node w).copyable = true ∨ (g.node w).childTasks.length ≤ 1)
    (hw : w < g.n) :
    (g'.node w).result = some ((g.node w).job ((g.node w).args)) ∧
    (g'.node w).validResult =
      (if (g.node w).copyable = false ∧ (g.node w).childTasks ≠ [] then false
       else true) := by
  have hp := runNode_pending_zero g w (g', r) h
  by_cases hcp : (g.node w).copyable = false
  · have hlen : ¬(g.node w).childTasks.length > 1 := by
      rcases hnoskip with hx | hx
      · rw [hcp] at hx; cases hx
      · omega
    cases hct : (g.node w).childTasks with
    | nil =>
        rw [runNode_mo_nil g w hp hcp hct] at h
        cases h
        rw [if_neg (by intro hk; exact hk.2 rfl)]
        constructor
        · refine (foldl_deliverNoArg_rv _ _ w).1.trans ?_
          rw [Graph.node_upd_self g w _ hw]
        · refine (foldl_deliverNoArg_rv _ _ w).2.trans ?_
          rw [Graph.node_upd_self g w _ hw]
    | cons cs rest =>
        have hrest : rest = [] := by
          rw [hct] at hlen
          simp only [List.length_cons, gt_iff_lt, not_lt] at hlen
          exact List.length_eq_zero.mp (by omega)
        subst hrest
        rw [runNode_mo_one g w cs.1 cs.2 hp hcp (by rw [hct])] at h
        cases h
        rw [if_pos ⟨hcp, List.cons_ne_nil cs []⟩]
        constructor
        · refine (foldl_deliverNoArg_rv _ _ w).1.trans ?_
          have h1 : (((deliverValue (g.upd w fun nd =>
              { nd with result := some ((g.node w).job (g.node w).args),
                        validResult := true }) cs.1 cs.2
                ((g.node w).job (g.node w).args)).upd w fun nd =>
                  { nd with validResult := false }).node w).result =
              ((deliverValue (g.upd w fun nd =>
              { nd with result := some ((g.node w).job (g.node w).args),
                        validResult := true }) cs.1 cs.2
                ((g.node w).job (g.node w).args)).node w).result := by
            rw [Graph.node_upd]
            split
            · rfl
            · rfl
          rw [h1, (deliverValue_rv _ cs.1 cs.2 _ w).1,
            Graph.node_upd_self g w _ hw]
        · refine (foldl_deliverNoArg_rv _ _ w).2.trans ?_
          rw [Graph.node_upd_self _ w _ (by
            rw [deliverValue, Graph.upd_n, Graph.upd_n]
            exact hw)]
  · rw [runNode_copy g w hp (by revert hcp; cases (g.node w).copyable <;> simp)] at h
    cases h
    rw [if_neg (by intro hk; rw [hk.1] at hcp; exact hcp rfl)]
    constructor
    · refine (foldl_deliverNoArg_rv _ _ w).1.trans ?_
      refine (foldl_deliverValue_rv _ _ _ w).1.trans ?_
      rw [Graph.node_upd_self g w _ hw]
    · refine (foldl_deliverNoArg_rv _ _ w).2.trans ?_
      refine (foldl_deliverValue_rv _ _ _ w).2.trans ?_
      rw [Graph.node_upd_self g w _ hw]

/-- A pending-zero node whose thunk is not skipped runs and returns its
job applied to its current arguments. -/
theorem runNode_runs (g : Graph V) (w : Nat)
    (hp : (g.node w).pendingCount = 0)
    (hnoskip : (g.node w).copyable = true ∨ (g.node w).childTasks.length ≤ 1) :
    ∃ g', runNode g w = some (g', some ((g.node w).job ((g.node w).args))) := by
  by_cases hcp : (g.node w).copyable = false
  · have hlen : ¬(g.node w).childTasks.length > 1 := by
      rcases hnoskip with hx | hx
      · rw [hcp] at hx; cases hx
      · omega
    cases hct : (g.node w).childTasks with
    | nil => exact ⟨_, runNode_mo_nil g w hp hcp hct⟩
    | cons cs rest =>
        have hrest : rest = [] := by
          rw [hct] at hlen
          simp only [List.length_cons, gt_iff_lt, not_lt] at hlen
          exact List.length_eq_zero.mp (by omega)
        subst hrest
        exact ⟨_, runNode_mo_one g w cs.1 cs.2 hp hcp (by rw [hct])⟩
  · exact ⟨_, runNode_copy g w hp (by revert hcp; cases (g.node w).copyable <;> simp)⟩

/-- Replay simulation: a second round over the same dispatch list, started
from a state that agrees with the first round's start on statics, pending
counters and results, whose argument tuples already hold the first round's
final argument tuples `gfin`, and whose validity flags agree outside the
list, reproduces the first round's trace exactly and ends in a state
matching the first round's final state field by field. -/
theorem runTrace_replay (L : List Nat) :
    ∀ (gA gB gfin g'' : Graph V) (tr : List (Nat × Nat × Option V)),
      runTrace gA L = some (g'', tr) →
      (∀ w ∈ L, (gA.node w).copyable = true ∨ (gA.node w).childTasks.length ≤ 1) →
      (∀ w, (gA.node w).childTasks.Nodup) →
      (∀ w p r, (w, p, r) ∈ tr → r = some ((gA.node w).job ((gfin.node w).args))) →
      (∀ w ∈ L, ∀ cs ∈ (gA.node w).childTasks, cs.1 < gA.n →
        (gfin.node cs.1).args cs.2 = (gA.node w).job ((gfin.node w).args)) →
      gB.n = gA.n →
      (∀ j, (gB.node j).statics = (gA.node j).statics) →
      (∀ j, (gB.node j).pendingCount = (gA.node j).pendingCount) →
      (∀ j, (gB.node j).result = (gA.node j).result) →
      (∀ j, (gB.node j).args = (gfin.node j).args) →
      (∀ j, j ∉ L → (gB.node j).validResult = (gA.node j).validResult) →
      ∃ gB'', runTrace gB L = some (gB'', tr) ∧
        gB''.n = g''.n ∧
        (∀ j, (gB''.node j).statics = (g''.node j).statics) ∧
        (∀ j, (gB''.node j).pendingCount = (g''.node j).pendingCount) ∧
        (∀ j, (gB''.node j).result = (g''.node j).result) ∧
        (∀ j, (gB''.node j).args = (gfin.node j).args) ∧
        (∀ j, (gB''.node j).validResult = (g''.node j).validResult) := by
  induction L with
  | nil =>
      intro gA gB gfin g'' tr h _ _ _ _ hn hstat hpend hres hargs hval
      rw [runTrace] at h
      cases h
      exact ⟨gB, rfl, hn, hstat, hpend, hres, hargs,
        fun j => hval j (List.not_mem_nil j)⟩
  | cons w L' ih =>
      intro gA gB gfin g'' tr h hnoskip hndct horacle1 horacle2 hn hstat hpend
        hres hargs hval
      rcases runTrace_cons gA w L' g'' tr h with ⟨gA1, r, tr', hr, htr, htreq⟩
      have hpA := runNode_pending_zero gA w (gA1, r) hr
      have hnoskipw := hnoskip w (List.mem_cons_self w L')
      have hsw := statics_fields (hstat w)
      have hjobw : (gB.node w).job = (gA.node w).job := hsw.2.2.2.1
      have hctw : (gB.node w).childTasks = (gA.node w).childTasks :=
        hsw.2.2.2.2.2.1
      have hcpw : (gB.node w).copyable = (gA.node w).copyable := hsw.2.1
      have hnoskipB : (gB.node w).copyable = true ∨
          (gB.node w).childTasks.length ≤ 1 := by
        rw [hcpw, hctw]; exact hnoskipw
      have hpB : (gB.node w).pendingCount = 0 := by rw [hpend w]; exact hpA
      rcases runNode_runs gB w hpB hnoskipB with ⟨gB1, hrB⟩
      have hrA : r = some ((gA.node w).job ((gA.node w).args)) :=
        runNode_produces gA w gA1 r hr hnoskipw
      have hrOr : r = some ((gA.node w).job ((gfin.node w).args)) :=
        horacle1 w ((gA.node w).pendingCount) r
          (by rw [htreq]; exact List.mem_cons_self _ _)
      have hrBval : some ((gB.node w).job ((gB.node w).args)) = r := by
        rw [hjobw, hargs w, hrOr]
      have hnA1 := runNode_n gA w gA1 r hr
      have hnB1 := runNode_n gB w gB1 _ hrB
      have hstatA1 := runNode_statics gA w gA1 r hr
      have hstatB1 := runNode_statics gB w gB1 _ hrB
      have hn1 : gB1.n = gA1.n := by rw [hnB1, hnA1, hn]
      have hstat1 : ∀ j, (gB1.node j).statics = (gA1.node j).statics := fun j =>
        (hstatB1 j).trans ((hstat j).trans (hstatA1 j).symm)
      have hpend1 : ∀ j, (gB1.node j).pendingCount = (gA1.node j).pendingCount := by
        intro j
        rw [runNode_pending_iter gA w gA1 r hr hnoskipw j,
          runNode_pending_iter gB w gB1 _ hrB hnoskipB j,
          hn, hpend j, edgesFromInto_congr gA gB hstat w j]
      have hres1 : ∀ j, (gB1.node j).result = (gA1.node j).result := by
        intro j
        by_cases hjw : j = w
        · rw [hjw]
          by_cases hjn : w < gA.n
          · have hA := runNode_rv_self gA w gA1 r hr hnoskipw hjn
            have hB := runNode_rv_self gB w gB1 _ hrB hnoskipB
              (by rw [hn]; exact hjn)
            rw [hB.1, hA.1, hjobw, hargs w]
            exact hrOr.symm.trans hrA
          · have hdefA : gA1.node w = default :=
              Graph.node_of_ge gA1 w (by rw [hnA1]; omega)
            have hdefB : gB1.node w = default :=
              Graph.node_of_ge gB1 w (by rw [hnB1, hn]; omega)
            rw [hdefA, hdefB]
        · rw [(runNode_rv_other gA w gA1 r hr j hjw).1,
            (runNode_rv_other gB w gB1 _ hrB j hjw).1]
          exact hres j
      have hargs1 : ∀ j, (gB1.node j).args = (gfin.node j).args := by
        intro j
        funext s
        by_cases hjn : j < gB.n
        · by_cases hmem : (j, s) ∈ (gB.node w).childTasks
          · have hdel := runNode_delivers gB w gB1 _ hrB hnoskipB (j, s) hmem
              (by rw [hctw]; exact hndct w) hjn
            rw [hdel, hjobw, hargs w]
            have hmemA : (j, s) ∈ (gA.node w).childTasks := by
              rw [← hctw]; exact hmem
            exact (horacle2 w (List.mem_cons_self _ _) (j, s) hmemA
              (by rw [← hn]; exact hjn)).symm
          · rw [runNode_args_other gB w gB1 _ hrB j s hmem, hargs j]
        · have hdefB1 : gB1.node j = default :=
            Graph.node_of_ge gB1 j (by rw [hnB1]; omega)
          have hdefB : gB.node j = default :=
            Graph.node_of_ge gB j (by omega)
          rw [hdefB1, ← hdefB, hargs j]
      have hval1 : ∀ j, j ∉ L' →
          (gB1.node j).validResult = (gA1.node j).validResult := by
        intro j hjL
        by_cases hjw : j = w
        · rw [hjw]
          by_cases hjn : w < gA.n
          · have hA := runNode_rv_self gA w gA1 r hr hnoskipw hjn
            have hB := runNode_rv_self gB w gB1 _ hrB hnoskipB
              (by rw [hn]; exact hjn)
            rw [hB.2, hA.2, hcpw, hctw]
          · have hdefA : gA1.node w = default :=
              Graph.node_of_ge gA1 w (by rw [hnA1]; omega)
            have hdefB : gB1.node w = default :=
              Graph.node_of_ge gB1 w (by rw [hnB1, hn]; omega)
            rw [hdefA, hdefB]
        · rw [(runNode_rv_other gA w gA1 r hr j hjw).2,
            (runNode_rv_other gB w gB1 _ hrB j hjw).2]
          exact hval j (fun hm => (List.mem_cons.mp hm).elim hjw hjL)
      have hnoskip' : ∀ u ∈ L', (gA1.node u).copyable = true ∨
          (gA1.node u).childTasks.length ≤ 1 := by
        intro u hu
        have hsu := statics_fields (hstatA1 u)
        rw [hsu.2.1, hsu.2.2.2.2.2.1]
        exact hnoskip u (List.mem_cons_of_mem _ hu)
      have hndct' : ∀ u, (gA1.node u).childTasks.Nodup := by
        intro u
        rw [(statics_fields (hstatA1 u)).2.2.2.2.2.1]
        exact hndct u
      have horacle1' : ∀ u p r0, (u, p, r0) ∈ tr' →
          r0 = some ((gA1.node u).job ((gfin.node u).args)) := by
        intro u p r0 hm
        rw [(statics_fields (hstatA1 u)).2.2.2.1]
        exact horacle1 u p r0 (by rw [htreq]; exact List.mem_cons_of_mem _ hm)
      have horacle2' : ∀ u ∈ L', ∀ cs ∈ (gA1.node u).childTasks, cs.1 < gA1.n →
          (gfin.node cs.1).args cs.2 = (gA1.node u).job ((gfin.node u).args) := by
        intro u hu cs hcs hcn
        rw [(statics_fields (hstatA1 u)).2.2.2.1]
        refine horacle2 u (List.mem_cons_of_mem _ hu) cs ?_ ?_
        · rw [← (statics_fields (hstatA1 u)).2.2.2.2.2.1]; exact hcs
        · rw [← hnA1]; exact hcn
      rcases ih gA1 gB1 gfin g'' tr' htr hnoskip' hndct' horacle1' horacle2'
        hn1 hstat1 hpend1 hres1 hargs1 hval1 with
        ⟨gB'', htrB, hfn, hfstat, hfpend, hfres, hfargs, hfval⟩
      refine ⟨gB'', ?_, hfn, hfstat, hfpend, hfres, hfargs, hfval⟩
      have hstep : runTrace gB (w :: L') = some (gB'',
          (w, (gB.node w).pendingCount,
            some ((gB.node w).job ((gB.node w).args))) :: tr') := by
        simp [runTrace, hrB, htrB]
      rw [hstep, htreq, hpend w, hrBval]

/-! ### The dispatch order depends only on the scheduling fields -/

theorem peupd_schedEq {gA gB : Graph V} (h : SchedEq gA gB) (k : Nat) :
    SchedEq
      (gA.upd k fun nd => { nd with parentEnqueued := winc nd.parentEnqueued })
      (gB.upd k fun nd => { nd with parentEnqueued := winc nd.parentEnqueued }) := by
  refine ⟨?_, ?_, ?_⟩
  · rw [Graph.upd_n, Graph.upd_n]; exact h.1
  · rw [Graph.upd_inputs, Graph.upd_inputs]; exact h.2.1
  · intro j
    rw [Graph.node_upd gA k _ j, Graph.node_upd gB k _ j, h.1]
    by_cases hc : j = k ∧ j < gA.n
    · simp only [if_pos hc]
      exact ⟨(h.2.2 j).1, (h.2.2 j).2.1, by
        show winc (gB.node j).parentEnqueued = winc (gA.node j).parentEnqueued
        rw [(h.2.2 j).2.2]⟩
    · simp only [if_neg hc]
      exact h.2.2 j

theorem foldl_peupd_schedEq (l : List Nat) :
    ∀ {gA gB : Graph V}, SchedEq gA gB →
      SchedEq
        (l.foldl (fun h k =>
          h.upd k fun nd => { nd with parentEnqueued := winc nd.parentEnqueued }) gA)
        (l.foldl (fun h k =>
          h.upd k fun nd => { nd with parentEnqueued := winc nd.parentEnqueued }) gB) := by
  induction l with
  | nil => intro gA gB h; exact h
  | cons k l ih =>
      intro gA gB h
      rw [List.foldl_cons, List.foldl_cons]
      exact ih (peupd_schedEq h k)

theorem bumpPE_schedEq {gA gB : Graph V} (h : SchedEq gA gB) (u : Nat) :
    SchedEq (bumpPE gA u) (bumpPE gB u) := by
  rw [bumpPE, bumpPE, (h.2.2 u).1]
  exact foldl_peupd_schedEq _ h

theorem tryEnqueue_schedEq {gA gB : Graph V} (h : SchedEq gA gB)
    (q pr : List Nat) (c : Nat) :
    SchedEq (tryEnqueue (gA, q, pr) c).1 (tryEnqueue (gB, q, pr) c).1 ∧
    (tryEnqueue (gB, q, pr) c).2 = (tryEnqueue (gA, q, pr) c).2 := by
  rw [tryEnqueue, tryEnqueue]
  have hcond : (c ∉ pr ∧
      (gB.node c).parentEnqueued = (gB.node c).parentCount) ↔
      (c ∉ pr ∧ (gA.node c).parentEnqueued = (gA.node c).parentCount) := by
    rw [(h.2.2 c).2.1, (h.2.2 c).2.2]
  by_cases hc : c ∉ pr ∧ (gA.node c).parentEnqueued = (gA.node c).parentCount
  · rw [if_pos hc, if_pos (hcond.mpr hc)]
    exact ⟨bumpPE_schedEq h c, rfl⟩
  · rw [if_neg hc, if_neg (fun hx => hc (hcond.mp hx))]
    exact ⟨h, rfl⟩

theorem foldl_tryEnqueue_schedEq (l : List Nat) :
    ∀ {gA gB : Graph V} (q pr : List Nat), SchedEq gA gB →
      SchedEq ((l.foldl tryEnqueue (gA, q, pr)).1)
        ((l.foldl tryEnqueue (gB, q, pr)).1) ∧
      (l.foldl tryEnqueue (gB, q, pr)).2 =
        (l.foldl tryEnqueue (gA, q, pr)).2 := by
  induction l with
  | nil => intro gA gB q pr h; exact ⟨h, rfl⟩
  | cons c l ih =>
      intro gA gB q pr h
      rw [List.foldl_cons, List.foldl_cons]
      rcases tryEnqueue_schedEq h q pr c with ⟨h1, h2⟩
      have hBeta : tryEnqueue (gB, q, pr) c =
          ((tryEnqueue (gB, q, pr) c).1, (tryEnqueue (gA, q, pr) c).2.1,
            (tryEnqueue (gA, q, pr) c).2.2) := by
        rw [← h2]
      have hAeta : tryEnqueue (gA, q, pr) c =
          ((tryEnqueue (gA, q, pr) c).1, (tryEnqueue (gA, q, pr) c).2.1,
            (tryEnqueue (gA, q, pr) c).2.2) := rfl
      rw [hBeta, hAeta]
      exact ih _ _ h1

theorem bfs_schedEq :
    ∀ (fuel : Nat) {gA gB : Graph V} (q pr acc : List Nat), SchedEq gA gB →
      SchedEq (bfs fuel gA q pr acc).1 (bfs fuel gB q pr acc).1 ∧
      (bfs fuel gB q pr acc).2 = (bfs fuel gA q pr acc).2 := by
  intro fuel
  induction fuel with
  | zero => intro gA gB q pr acc h; exact ⟨h, rfl⟩
  | succ fuel ih =>
      intro gA gB q pr acc h
      cases q with
      | nil => exact ⟨h, rfl⟩
      | cons u qs =>
          have hred : ∀ (g : Graph V), bfs (fuel + 1) g (u :: qs) pr acc =
              bfs fuel ((g.node u).nextNodes.foldl tryEnqueue (g, qs, pr)).1
                ((g.node u).nextNodes.foldl tryEnqueue (g, qs, pr)).2.1
                ((g.node u).nextNodes.foldl tryEnqueue (g, qs, pr)).2.2
                (u :: acc) := fun g => rfl
          rw [hred gA, hred gB, (h.2.2 u).1]
          rcases foldl_tryEnqueue_schedEq (gA.node u).nextNodes qs pr h with ⟨h1, h2⟩
          rw [h2]
          exact ih _ _ _ h1

theorem foldl_seed_schedEq (l : List Nat) :
    ∀ {gA gB : Graph V} (q pr : List Nat), SchedEq gA gB →
      SchedEq ((l.foldl (fun acc v =>
          (bumpPE acc.1 v, acc.2.1 ++ [v], insertP acc.2.2 v)) (gA, q, pr)).1)
        ((l.foldl (fun acc v =>
          (bumpPE acc.1 v, acc.2.1 ++ [v], insertP acc.2.2 v)) (gB, q, pr)).1) ∧
      (l.foldl (fun acc v =>
          (bumpPE acc.1 v, acc.2.1 ++ [v], insertP acc.2.2 v)) (gB, q, pr)).2 =
        (l.foldl (fun acc v =>
          (bumpPE acc.1 v, acc.2.1 ++ [v], insertP acc.2.2 v)) (gA, q, pr)).2 := by
  induction l with
  | nil => intro gA gB q pr h; exact ⟨h, rfl⟩
  | cons v l ih =>
      intro gA gB q pr h
      rw [List.foldl_cons, List.foldl_cons]
      exact ih _ _ (bumpPE_schedEq h v)

/-- Two graphs that agree on the scheduling fields (`next_nodes`,
`parentCount`, `parentEnqueued`, the input list and the node count) are
dispatched in the same order by `GraphEx::execute`. -/
theorem scheduleList_schedEq {gA gB : Graph V} (h : SchedEq gA gB) :
    (schedule gB).2 = (schedule gA).2 := by
  have hseed : SchedEq (seed gA).1 (seed gB).1 ∧ (seed gB).2 = (seed gA).2 := by
    rw [seed, seed, h.2.1]
    exact foldl_seed_schedEq gA.inputs [] [] h
  have hsched : ∀ (g : Graph V), schedule g =
      bfs (g.inputs.length + g.n + 1) (seed g).1 (seed g).2.1 (seed g).2.2 [] :=
    fun g => rfl
  rw [hsched gA, hsched gB, h.2.1, h.1, hseed.2]
  exact (bfs_schedEq _ _ _ _ hseed.1).2

/-! ### The dispatch list stays inside the closure of the inputs -/

theorem foldl_peupd_pe_notmem (l : List Nat) :
    ∀ (g : Graph V) (j : Nat), j ∉ l →
      ((l.foldl (fun h k =>
        h.upd k fun nd => { nd with parentEnqueued := winc nd.parentEnqueued })
          g).node j).parentEnqueued = (g.node j).parentEnqueued := by
  induction l with
  | nil => intro g j _; rfl
  | cons k l ih =>
      intro g j hj
      rw [List.foldl_cons]
      refine (ih _ j (fun hm => hj (List.mem_cons_of_mem _ hm))).trans ?_
      rw [Graph.node_upd]
      have hcond : ¬(j = k ∧ j < g.n) :=
        fun hx => hj (hx.1 ▸ List.mem_cons_self _ _)
      rw [if_neg hcond]

/-- Invariant of the pop loop: a predicate closed under the child edges
holds of everything dispatched, and the loop never bumps `parentEnqueued`
outside the predicate. -/
theorem bfs_inv (g0 : Graph V) (R : Nat → Prop)
    (hstep : ∀ u, R u → ∀ c ∈ (g0.node u).nextNodes, R c) :
    ∀ (fuel : Nat) (g : Graph V) (q pr acc : List Nat),
      (∀ j, (g.node j).statics = (g0.node j).statics) →
      (∀ u ∈ q, R u) → (∀ u ∈ acc, R u) →
      (∀ u ∈ (bfs fuel g q pr acc).2, R u) ∧
      (∀ j, ¬ R j →
        (((bfs fuel g q pr acc).1).node j).parentEnqueued =
          (g.node j).parentEnqueued) := by
  have hfold : ∀ (l : List Nat) (g : Graph V) (q pr : List Nat),
      (∀ j, (g.node j).statics = (g0.node j).statics) →
      (∀ c ∈ l, R c) → (∀ u ∈ q, R u) →
      (∀ j, ((l.foldl tryEnqueue (g, q, pr)).1.node j).statics =
        (g0.node j).statics) ∧
      (∀ u ∈ (l.foldl tryEnqueue (g, q, pr)).2.1, R u) ∧
      (∀ j, ¬ R j →
        ((l.foldl tryEnqueue (g, q, pr)).1.node j).parentEnqueued =
          (g.node j).parentEnqueued) := by
    intro l
    induction l with
    | nil => intro g q pr hst hl hq; exact ⟨hst, hq, fun _ _ => rfl⟩
    | cons c l ih =>
        intro g q pr hst hl hq
        rw [List.foldl_cons]
        have hRc : R c := hl c (List.mem_cons_self _ _)
        have hstep1 : ∀ j, ((tryEnqueue (g, q, pr) c).1.node j).statics =
            (g0.node j).statics := by
          intro j
          exact (((foldl_tryEnqueue_eqExceptPE [c] (g, q, pr)).2.2 j).1).trans (hst j)
        have hq1 : ∀ u ∈ (tryEnqueue (g, q, pr) c).2.1, R u := by
          intro u hu
          rw [tryEnqueue] at hu
          by_cases hcc : c ∉ pr ∧
              (g.node c).parentEnqueued = (g.node c).parentCount
          · rw [if_pos hcc] at hu
            rcases List.mem_append.mp hu with hx | hx
            · exact hq u hx
            · rw [List.mem_singleton] at hx
              exact hx ▸ hRc
          · rw [if_neg hcc] at hu
            exact hq u hu
        have hpe1 : ∀ j, ¬ R j →
            ((tryEnqueue (g, q, pr) c).1.node j).parentEnqueued =
              (g.node j).parentEnqueued := by
          intro j hj
          rw [tryEnqueue]
          by_cases hcc : c ∉ pr ∧
              (g.node c).parentEnqueued = (g.node c).parentCount
          · rw [if_pos hcc]
            show ((bumpPE g c).node j).parentEnqueued = (g.node j).parentEnqueued
            rw [bumpPE]
            refine foldl_peupd_pe_notmem _ g j ?_
            intro hm
            rw [(statics_fields (hst c)).2.2.2.2.2.2.2] at hm
            exact hj (hstep c hRc j hm)
          · rw [if_neg hcc]
        have heta : tryEnqueue (g, q, pr) c =
            ((tryEnqueue (g, q, pr) c).1, (tryEnqueue (g, q, pr) c).2.1,
              (tryEnqueue (g, q, pr) c).2.2) := rfl
        rw [heta]
        rcases ih (tryEnqueue (g, q, pr) c).1 (tryEnqueue (g, q, pr) c).2.1
          (tryEnqueue (g, q, pr) c).2.2 hstep1
          (fun x hx => hl x (List.mem_cons_of_mem _ hx)) hq1 with ⟨a, b, d⟩
        exact ⟨a, b, fun j hj => (d j hj).trans (hpe1 j hj)⟩
  intro fuel
  induction fuel with
  | zero =>
      intro g q pr acc _ _ hacc
      exact ⟨fun u hu => hacc u (by simpa using List.mem_reverse.mp hu),
        fun _ _ => rfl⟩
  | succ fuel ih =>
      intro g q pr acc hst hq hacc
      cases q with
      | nil =>
          exact ⟨fun u hu => hacc u (by simpa using List.mem_reverse.mp hu),
            fun _ _ => rfl⟩
      | cons u qs =>
          have hred : bfs (fuel + 1) g (u :: qs) pr acc =
              bfs fuel ((g.node u).nextNodes.foldl tryEnqueue (g, qs, pr)).1
                ((g.node u).nextNodes.foldl tryEnqueue (g, qs, pr)).2.1
                ((g.node u).nextNodes.foldl tryEnqueue (g, qs, pr)).2.2
                (u :: acc) := rfl
          rw [hred]
          have hRu : R u := hq u (List.mem_cons_self _ _)
          have hchild : ∀ c ∈ (g.node u).nextNodes, R c := by
            intro c hc
            rw [(statics_fields (hst u)).2.2.2.2.2.2.2] at hc
            exact hstep u hRu c hc
          rcases hfold (g.node u).nextNodes g qs pr hst hchild
            (fun x hx => hq x (List.mem_cons_of_mem _ hx)) with ⟨a, b, d⟩
          rcases ih ((g.node u).nextNodes.foldl tryEnqueue (g, qs, pr)).1
            ((g.node u).nextNodes.foldl tryEnqueue (g, qs, pr)).2.1
            ((g.node u).nextNodes.foldl tryEnqueue (g, qs, pr)).2.2 (u :: acc)
            a b (by
              intro x hx
              rcases List.mem_cons.mp hx with hx1 | hx1
              · exact hx1 ▸ hRu
              · exact hacc x hx1) with ⟨e, f⟩
          exact ⟨e, fun j hj => (f j hj).trans (d j hj)⟩

theorem foldl_seed_inv (g0 : Graph V) (R : Nat → Prop)
    (hstep : ∀ u, R u → ∀ c ∈ (g0.node u).nextNodes, R c) (l : List Nat) :
    ∀ (g : Graph V) (q pr : List Nat),
      (∀ j, (g.node j).statics = (g0.node j).statics) →
      (∀ v ∈ l, R v) → (∀ u ∈ q, R u) →
      (∀ j, (((l.foldl (fun acc v =>
          (bumpPE acc.1 v, acc.2.1 ++ [v], insertP acc.2.2 v))
          (g, q, pr)).1).node j).statics = (g0.node j).statics) ∧
      (∀ u ∈ (l.foldl (fun acc v =>
          (bumpPE acc.1 v, acc.2.1 ++ [v], insertP acc.2.2 v))
          (g, q, pr)).2.1, R u) ∧
      (∀ j, ¬ R j →
        (((l.foldl (fun acc v =>
          (bumpPE acc.1 v, acc.2.1 ++ [v], insertP acc.2.2 v))
          (g, q, pr)).1).node j).parentEnqueued =
            (g.node j).parentEnqueued) := by
  induction l with
  | nil => intro g q pr hst _ hq; exact ⟨hst, hq, fun _ _ => rfl⟩
  | cons v l ih =>
      intro g q pr hst hl hq
      rw [List.foldl_cons]
      have hRv : R v := hl v (List.mem_cons_self _ _)
      have hst1 : ∀ j, ((bumpPE g v).node j).statics = (g0.node j).statics :=
        fun j => (((bumpPE_eqExceptPE g v).2.2 j).1).trans (hst j)
      have hq1 : ∀ u ∈ q ++ [v], R u := by
        intro u hu
        rcases List.mem_append.mp hu with hx | hx
        · exact hq u hx
        · rw [List.mem_singleton] at hx
          exact hx ▸ hRv
      have hpe1 : ∀ j, ¬ R j →
          ((bumpPE g v).node j).parentEnqueued = (g.node j).parentEnqueued := by
        intro j hj
        rw [bumpPE]
        refine foldl_peupd_pe_notmem _ g j ?_
        intro hm
        rw [(statics_fields (hst v)).2.2.2.2.2.2.2] at hm
        exact hj (hstep v hRv j hm)
      rcases ih (bumpPE g v) (q ++ [v]) (insertP pr v) hst1
        (fun x hx => hl x (List.mem_cons_of_mem _ hx)) hq1 with ⟨a, b, d⟩
      exact ⟨a, b, fun j hj => (d j hj).trans (hpe1 j hj)⟩

/-- Any predicate that holds of the registered inputs and is closed under
the child edges covers the entire dispatch list, and `parentEnqueued` is
never bumped outside it. -/
theorem schedule_inv (g : Graph V) (R : Nat → Prop)
    (hstep : ∀ u, R u → ∀ c ∈ (g.node u).nextNodes, R c)
    (hin : ∀ i ∈ g.inputs, R i) :
    (∀ u ∈ (schedule g).2, R u) ∧
    (∀ j, ¬ R j → (((schedule g).1).node j).parentEnqueued =
      (g.node j).parentEnqueued) := by
  have hseed := foldl_seed_inv g R hstep g.inputs g [] [] (fun _ => rfl) hin
    (fun u hu => absurd hu (List.not_mem_nil u))
  have hseedeq : g.inputs.foldl (fun acc v =>
      (bumpPE acc.1 v, acc.2.1 ++ [v], insertP acc.2.2 v)) (g, [], []) =
      seed g := rfl
  rw [hseedeq] at hseed
  have hb := bfs_inv g R hstep (g.inputs.length + g.n + 1) (seed g).1
    (seed g).2.1 (seed g).2.2 [] hseed.1 hseed.2.1
    (fun u hu => absurd hu (List.not_mem_nil u))
  have hsched : schedule g =
      bfs (g.inputs.length + g.n + 1) (seed g).1 (seed g).2.1 (seed g).2.2 [] :=
    rfl
  rw [hsched]
  exact ⟨hb.1, fun j hj => (hb.2 j hj).trans (hseed.2.2 j hj)⟩

/-! ### Effect of `GraphEx::reset` -/

theorem mem_insertP (pr : List Nat) (v x : Nat) :
    x ∈ insertP pr v ↔ x ∈ pr ∨ x = v := by
  rw [insertP]
  by_cases hv : v ∈ pr
  · rw [if_pos hv]
    constructor
    · exact Or.inl
    · intro h
      rcases h with h | h
      · exact h
      · exact h ▸ hv
  · rw [if_neg hv]
    rw [List.mem_append, List.mem_singleton]

theorem resetSpec_refl (g : Graph V) (vis : List Nat) :
    ResetSpec g g vis vis :=
  ⟨rfl, rfl, fun _ h => h, fun _ => ⟨rfl, rfl, rfl⟩, fun _ _ => rfl,
    fun _ _ => rfl, fun _ h1 h2 => absurd h1 h2⟩

theorem resetSpec_trans {g g1 g2 : Graph V} {vis vis1 vis2 : List Nat}
    (h1 : ResetSpec g g1 vis vis1) (h2 : ResetSpec g1 g2 vis1 vis2) :
    ResetSpec g g2 vis vis2 := by
  obtain ⟨hn1, hi1, hsub1, hf1, hout1, hold1, hnew1⟩ := h1
  obtain ⟨hn2, hi2, hsub2, hf2, hout2, hold2, hnew2⟩ := h2
  refine ⟨hn2.trans hn1, hi2.trans hi1, fun x hx => hsub2 x (hsub1 x hx),
    fun j => ⟨(hf2 j).1.trans (hf1 j).1, (hf2 j).2.1.trans (hf1 j).2.1,
      (hf2 j).2.2.trans (hf1 j).2.2⟩, ?_, ?_, ?_⟩
  · intro j hj
    have hj1 : j ∉ vis1 := fun hx => hj (hsub2 j hx)
    rw [hout2 j hj, hout1 j hj1]
  · intro j hj
    rw [hold2 j (hsub1 j hj), hold1 j hj]
  · intro j hj2 hj
    by_cases hj1 : j ∈ vis1
    · rcases hnew1 j hj1 hj with ⟨a, b, c⟩
      rw [hold2 j hj1]
      exact ⟨a, b, c⟩
    · rcases hnew2 j hj2 hj1 with ⟨a, b, c⟩
      rw [hout1 j hj1] at b
      exact ⟨a, b, c⟩

theorem resetStep (g : Graph V) (u : Nat) (vis : List Nat) (hu : u ∉ vis) :
    ResetSpec g (g.upd u resetNode) vis (insertP vis u) := by
  refine ⟨Graph.upd_n g u _, rfl,
    fun x hx => (mem_insertP vis u x).mpr (Or.inl hx), ?_, ?_, ?_, ?_⟩
  · intro j
    rw [Graph.node_upd]
    by_cases hc : j = u ∧ j < g.n
    · rw [if_pos hc]
      exact ⟨rfl, rfl, rfl⟩
    · rw [if_neg hc]
      exact ⟨rfl, rfl, rfl⟩
  · intro j hj
    have hju : j ≠ u := fun hx => hj ((mem_insertP vis u j).mpr (Or.inr hx))
    exact Graph.node_upd_ne g u _ j hju
  · intro j hj
    have hju : j ≠ u := fun hx => hu (hx ▸ hj)
    exact Graph.node_upd_ne g u _ j hju
  · intro j hj hjv
    have hju : j = u := by
      rcases (mem_insertP vis u j).mp hj with hx | hx
      · exact absurd hx hjv
      · exact hx
    subst hju
    by_cases hn : j < g.n
    · rw [Graph.node_upd_self g j _ hn]
      exact ⟨rfl, rfl, rfl⟩
    · rw [Graph.upd_of_ge g j _ (Nat.le_of_not_lt hn),
        Graph.node_of_ge g j (Nat.le_of_not_lt hn)]
      exact ⟨rfl, rfl, rfl⟩

theorem resetDfs_effect :
    ∀ (fuel : Nat) (g : Graph V) (u : Nat) (vis : List Nat), u ∉ vis →
      ResetSpec g (resetDfs fuel g u vis).1 vis (resetDfs fuel g u vis).2 := by
  intro fuel
  induction fuel with
  | zero => intro g u vis _; exact resetSpec_refl g vis
  | succ fuel ih =>
      intro g u vis hu
      have hred : resetDfs (fuel + 1) g u vis =
          (g.node u).nextNodes.foldl
            (fun acc c => if c ∈ acc.2 then acc else resetDfs fuel acc.1 c acc.2)
            (g.upd u resetNode, insertP vis u) := rfl
      rw [hred]
      have hfold : ∀ (l : List Nat) (h : Graph V) (w : List Nat),
          ResetSpec h
            (l.foldl (fun acc c =>
              if c ∈ acc.2 then acc else resetDfs fuel acc.1 c acc.2) (h, w)).1
            w
            (l.foldl (fun acc c =>
              if c ∈ acc.2 then acc else resetDfs fuel acc.1 c acc.2) (h, w)).2 := by
        intro l
        induction l with
        | nil => intro h w; exact resetSpec_refl h w
        | cons c l ihl =>
            intro h w
            rw [List.foldl_cons]
            by_cases hc : c ∈ w
            · have hstep : (if c ∈ (h, w).2 then (h, w)
                  else resetDfs fuel (h, w).1 c (h, w).2) = (h, w) := by
                show (if c ∈ w then (h, w) else resetDfs fuel h c w) = (h, w)
                rw [if_pos hc]
              rw [hstep]
              exact ihl h w
            · have hstep : (if c ∈ (h, w).2 then (h, w)
                  else resetDfs fuel (h, w).1 c (h, w).2) =
                  ((resetDfs fuel h c w).1, (resetDfs fuel h c w).2) := by
                show (if c ∈ w then (h, w) else resetDfs fuel h c w) =
                  ((resetDfs fuel h c w).1, (resetDfs fuel h c w).2)
                rw [if_neg hc]
              rw [hstep]
              exact resetSpec_trans (ih h c w hc) (ihl _ _)
      exact resetSpec_trans (resetStep g u vis hu) (hfold _ _ _)

theorem resetRun_effect (g : Graph V) :
    ResetSpec g (resetRun g).1 [] (resetRun g).2 := by
  rw [resetRun]
  have hfold : ∀ (l : List Nat) (h : Graph V) (w : List Nat),
      ResetSpec h
        (l.foldl (fun acc v =>
          if v ∈ acc.2 then acc else resetDfs (g.n + 1) acc.1 v acc.2) (h, w)).1
        w
        (l.foldl (fun acc v =>
          if v ∈ acc.2 then acc else resetDfs (g.n + 1) acc.1 v acc.2) (h, w)).2 := by
    intro l
    induction l with
    | nil => intro h w; exact resetSpec_refl h w
    | cons v l ihl =>
        intro h w
        rw [List.foldl_cons]
        by_cases hv : v ∈ w
        · have hstep : (if v ∈ (h, w).2 then (h, w)
              else resetDfs (g.n + 1) (h, w).1 v (h, w).2) = (h, w) := by
            show (if v ∈ w then (h, w) else resetDfs (g.n + 1) h v w) = (h, w)
            rw [if_pos hv]
          rw [hstep]
          exact ihl h w
        · have hstep : (if v ∈ (h, w).2 then (h, w)
              else resetDfs (g.n + 1) (h, w).1 v (h, w).2) =
              ((resetDfs (g.n + 1) h v w).1, (resetDfs (g.n + 1) h v w).2) := by
            show (if v ∈ w then (h, w) else resetDfs (g.n + 1) h v w) =
              ((resetDfs (g.n + 1) h v w).1, (resetDfs (g.n + 1) h v w).2)
            rw [if_neg hv]
          rw [hstep]
          exact resetSpec_trans (resetDfs_effect (g.n + 1) h v w hv) (ihl _ _)
  exact hfold g.inputs g []

theorem resetG_eq (g : Graph V) : resetG g = (resetRun g).1 := rfl

theorem filter_notmem_card_le {n : Nat} {w w' : List Nat}
    (hsub : ∀ x ∈ w, x ∈ w') :
    ((Finset.range n).filter (fun j => j ∉ w')).card ≤
      ((Finset.range n).filter (fun j => j ∉ w)).card := by
  apply Finset.card_le_card
  intro j hj
  rw [Finset.mem_filter] at hj ⊢
  exact ⟨hj.1, fun hx => hj.2 (hsub j hx)⟩

/-- With fuel exceeding the number of unvisited ids, the reset traversal
visits its start node and closes the newly visited set under child edges. -/
theorem resetDfs_closed (g0 : Graph V)
    (htr : ∀ v, ∀ c ∈ (g0.node v).nextNodes, c < g0.n) :
    ∀ (fuel : Nat) (g : Graph V) (u : Nat) (vis : List Nat),
      (∀ j, (g.node j).statics = (g0.node j).statics) →
      u < g0.n → u ∉ vis →
      ((Finset.range g0.n).filter (fun j => j ∉ vis)).card < fuel →
      u ∈ (resetDfs fuel g u vis).2 ∧
      (∀ v ∈ (resetDfs fuel g u vis).2, v ∉ vis →
        ∀ c ∈ (g0.node v).nextNodes, c ∈ (resetDfs fuel g u vis).2) := by
  intro fuel
  induction fuel with
  | zero =>
      intro g u vis _ _ _ hfuel
      exact absurd hfuel (Nat.not_lt_zero _)
  | succ fuel ih =>
      intro g u vis hst hun hu hfuel
      have hred : resetDfs (fuel + 1) g u vis =
          (g.node u).nextNodes.foldl
            (fun acc c => if c ∈ acc.2 then acc else resetDfs fuel acc.1 c acc.2)
            (g.upd u resetNode, insertP vis u) := rfl
      rw [hred]
      have hcard1 : ((Finset.range g0.n).filter
          (fun j => j ∉ insertP vis u)).card < fuel := by
        have hss : (Finset.range g0.n).filter (fun j => j ∉ insertP vis u) ⊆
            ((Finset.range g0.n).filter (fun j => j ∉ vis)).erase u := by
          intro j hj
          rw [Finset.mem_filter] at hj
          rw [Finset.mem_erase, Finset.mem_filter]
          refine ⟨?_, hj.1, fun hx => hj.2 ((mem_insertP vis u j).mpr (Or.inl hx))⟩
          intro hx
          exact hj.2 ((mem_insertP vis u j).mpr (Or.inr hx))
        have hmem : u ∈ (Finset.range g0.n).filter (fun j => j ∉ vis) := by
          rw [Finset.mem_filter, Finset.mem_range]
          exact ⟨hun, hu⟩
        have h1 := Finset.card_le_card hss
        have h2 := Finset.card_erase_of_mem hmem
        have h3 : 0 < ((Finset.range g0.n).filter (fun j => j ∉ vis)).card :=
          Finset.card_pos.mpr ⟨u, hmem⟩
        omega
      have hfold : ∀ (l : List Nat), (∀ c ∈ l, c < g0.n) →
          ∀ (h : Graph V) (w : List Nat),
          (∀ j, (h.node j).statics = (g0.node j).statics) →
          ((Finset.range g0.n).filter (fun j => j ∉ w)).card < fuel →
          (∀ x ∈ w, x ∈ (l.foldl (fun acc c =>
            if c ∈ acc.2 then acc else resetDfs fuel acc.1 c acc.2) (h, w)).2) ∧
          (∀ c ∈ l, c ∈ (l.foldl (fun acc c =>
            if c ∈ acc.2 then acc else resetDfs fuel acc.1 c acc.2) (h, w)).2) ∧
          (∀ j, (((l.foldl (fun acc c =>
            if c ∈ acc.2 then acc else resetDfs fuel acc.1 c acc.2)
              (h, w)).1).node j).statics = (g0.node j).statics) ∧
          (∀ v ∈ (l.foldl (fun acc c =>
            if c ∈ acc.2 then acc else resetDfs fuel acc.1 c acc.2) (h, w)).2,
            v ∉ w → ∀ c ∈ (g0.node v).nextNodes,
              c ∈ (l.foldl (fun acc c =>
                if c ∈ acc.2 then acc else resetDfs fuel acc.1 c acc.2) (h, w)).2) := by
        intro l
        induction l with
        | nil =>
            intro _ h w hsth _
            exact ⟨fun x hx => hx, fun c hc => absurd hc (List.not_mem_nil c),
              hsth, fun v _ hv2 c hc => absurd ‹v ∈ w› hv2⟩
        | cons c l ihl =>
            intro hlt h w hsth hcw
            rw [List.foldl_cons]
            by_cases hc : c ∈ w
            · have hstep : (if c ∈ (h, w).2 then (h, w)
                  else resetDfs fuel (h, w).1 c (h, w).2) = (h, w) := by
                show (if c ∈ w then (h, w) else resetDfs fuel h c w) = (h, w)
                rw [if_pos hc]
              rw [hstep]
              rcases ihl (fun x hx => hlt x (List.mem_cons_of_mem _ hx))
                h w hsth hcw with ⟨a, b, d, e⟩
              exact ⟨a, fun x hx => by
                rcases List.mem_cons.mp hx with hx1 | hx1
                · exact hx1 ▸ a c hc
                · exact b x hx1, d, e⟩
            · have hstep : (if c ∈ (h, w).2 then (h, w)
                  else resetDfs fuel (h, w).1 c (h, w).2) =
                  ((resetDfs fuel h c w).1, (resetDfs fuel h c w).2) := by
                show (if c ∈ w then (h, w) else resetDfs fuel h c w) =
                  ((resetDfs fuel h c w).1, (resetDfs fuel h c w).2)
                rw [if_neg hc]
              rw [hstep]
              have heff := resetDfs_effect fuel h c w hc
              have hclosed := ih h c w hsth (hlt c (List.mem_cons_self _ _)) hc hcw
              have hsub : ∀ x ∈ w, x ∈ (resetDfs fuel h c w).2 := heff.2.2.1
              have hsth' : ∀ j, (((resetDfs fuel h c w).1).node j).statics =
                  (g0.node j).statics :=
                fun j => ((heff.2.2.2.1 j).1).trans (hsth j)
              have hcw' : ((Finset.range g0.n).filter
                  (fun j => j ∉ (resetDfs fuel h c w).2)).card < fuel :=
                Nat.lt_of_le_of_lt (filter_notmem_card_le hsub) hcw
              rcases ihl (fun x hx => hlt x (List.mem_cons_of_mem _ hx))
                (resetDfs fuel h c w).1 (resetDfs fuel h c w).2 hsth' hcw' with
                ⟨a, b, d, e⟩
              refine ⟨fun x hx => a x (hsub x hx), ?_, d, ?_⟩
              · intro x hx
                rcases List.mem_cons.mp hx with hx1 | hx1
                · exact hx1 ▸ a c hclosed.1
                · exact b x hx1
              · intro v hv hvw c0 hc0
                by_cases hv1 : v ∈ (resetDfs fuel h c w).2
                · exact a c0 (hclosed.2 v hv1 hvw c0 hc0)
                · exact e v hv hv1 c0 hc0
      have hl : ∀ c ∈ (g.node u).nextNodes, c < g0.n := by
        intro c hc
        rw [(statics_fields (hst u)).2.2.2.2.2.2.2] at hc
        exact htr u c hc
      have hst1 : ∀ j, ((g.upd u resetNode).node j).statics =
          (g0.node j).statics := by
        intro j
        refine Eq.trans ?_ (hst j)
        rw [Graph.node_upd]
        by_cases hcnd : j = u ∧ j < g.n
        · rw [if_pos hcnd]; rfl
        · rw [if_neg hcnd]
      rcases hfold (g.node u).nextNodes hl (g.upd u resetNode) (insertP vis u)
        hst1 hcard1 with ⟨a, b, _, e⟩
      have humem : u ∈ (insertP vis u) := (mem_insertP vis u u).mpr (Or.inr rfl)
      refine ⟨a u humem, ?_⟩
      intro v hv hvvis c hc
      by_cases hvu : v = u
      · subst hvu
        refine b c ?_
        rw [(statics_fields (hst v)).2.2.2.2.2.2.2]
        exact hc
      · refine e v hv ?_ c hc
        intro hx
        rcases (mem_insertP vis u v).mp hx with hx1 | hx1
        · exact hvvis hx1
        · exact hvu hx1

/-- The visited set of `GraphEx::reset` contains every input and is closed
under child edges. -/
theorem resetRun_closed (g : Graph V)
    (htr : ∀ v, ∀ c ∈ (g.node v).nextNodes, c < g.n)
    (hinp : ∀ i ∈ g.inputs, i < g.n) :
    (∀ i ∈ g.inputs, i ∈ (resetRun g).2) ∧
    (∀ v ∈ (resetRun g).2, ∀ c ∈ (g.node v).nextNodes, c ∈ (resetRun g).2) := by
  rw [resetRun]
  have hfold : ∀ (l : List Nat), (∀ i ∈ l, i < g.n) →
      ∀ (h : Graph V) (w : List Nat),
      (∀ j, (h.node j).statics = (g.node j).statics) →
      (∀ v ∈ w, ∀ c ∈ (g.node v).nextNodes, c ∈ w) →
      (∀ x ∈ w, x ∈ (l.foldl (fun acc v =>
        if v ∈ acc.2 then acc else resetDfs (g.n + 1) acc.1 v acc.2) (h, w)).2) ∧
      (∀ i ∈ l, i ∈ (l.foldl (fun acc v =>
        if v ∈ acc.2 then acc else resetDfs (g.n + 1) acc.1 v acc.2) (h, w)).2) ∧
      (∀ v ∈ (l.foldl (fun acc v =>
        if v ∈ acc.2 then acc else resetDfs (g.n + 1) acc.1 v acc.2) (h, w)).2,
        ∀ c ∈ (g.node v).nextNodes,
          c ∈ (l.foldl (fun acc v =>
            if v ∈ acc.2 then acc else resetDfs (g.n + 1) acc.1 v acc.2) (h, w)).2) := by
    intro l
    induction l with
    | nil =>
        intro _ h w hsth hcl
        exact ⟨fun x hx => hx, fun i hi => absurd hi (List.not_mem_nil i), hcl⟩
    | cons v l ihl =>
        intro hlt h w hsth hcl
        rw [List.foldl_cons]
        by_cases hv : v ∈ w
        · have hstep : (if v ∈ (h, w).2 then (h, w)
              else resetDfs (g.n + 1) (h, w).1 v (h, w).2) = (h, w) := by
            show (if v ∈ w then (h, w) else resetDfs (g.n + 1) h v w) = (h, w)
            rw [if_pos hv]
          rw [hstep]
          rcases ihl (fun x hx => hlt x (List.mem_cons_of_mem _ hx))
            h w hsth hcl with ⟨a, b, e⟩
          exact ⟨a, fun x hx => by
            rcases List.mem_cons.mp hx with hx1 | hx1
            · exact hx1 ▸ a v hv
            · exact b x hx1, e⟩
        · have hstep : (if v ∈ (h, w).2 then (h, w)
              else resetDfs (g.n + 1) (h, w).1 v (h, w).2) =
              ((resetDfs (g.n + 1) h v w).1, (resetDfs (g.n + 1) h v w).2) := by
            show (if v ∈ w then (h, w) else resetDfs (g.n + 1) h v w) =
              ((resetDfs (g.n + 1) h v w).1, (resetDfs (g.n + 1) h v w).2)
            rw [if_neg hv]
          rw [hstep]
          have heff := resetDfs_effect (g.n + 1) h v w hv
          have hcard : ((Finset.range g.n).filter
              (fun j => j ∉ w)).card < g.n + 1 :=
            Nat.lt_succ_of_le ((Finset.card_filter_le _ _).trans
              (le_of_eq (Finset.card_range g.n)))
          have hclosed := resetDfs_closed g htr (g.n + 1) h v w hsth
            (hlt v (List.mem_cons_self _ _)) hv hcard
          have hsub : ∀ x ∈ w, x ∈ (resetDfs (g.n + 1) h v w).2 := heff.2.2.1
          have hsth' : ∀ j, (((resetDfs (g.n + 1) h v w).1).node j).statics =
              (g.node j).statics :=
            fun j => ((heff.2.2.2.1 j).1).trans (hsth j)
          have hcl' : ∀ x ∈ (resetDfs (g.n + 1) h v w).2,
              ∀ c ∈ (g.node x).nextNodes, c ∈ (resetDfs (g.n + 1) h v w).2 := by
            intro x hx c hc
            by_cases hxw : x ∈ w
            · exact hsub c (hcl x hxw c hc)
            · exact hclosed.2 x hx hxw c hc
          rcases ihl (fun x hx => hlt x (List.mem_cons_of_mem _ hx))
            (resetDfs (g.n + 1) h v w).1 (resetDfs (g.n + 1) h v w).2
            hsth' hcl' with ⟨a, b, e⟩
          refine ⟨fun x hx => a x (hsub x hx), ?_, e⟩
          intro x hx
          rcases List.mem_cons.mp hx with hx1 | hx1
          · exact hx1 ▸ a v hclosed.1
          · exact b x hx1
  rcases hfold g.inputs hinp g [] (fun _ => rfl)
    (fun v hv => absurd hv (List.not_mem_nil v)) with ⟨_, b, e⟩
  exact ⟨b, e⟩

/-- Everything reachable from a registered input is visited by
`GraphEx::reset`. -/
theorem resetRun_reach (g : Graph V)
    (htr : ∀ v, ∀ c ∈ (g.node v).nextNodes, c < g.n)
    (hinp : ∀ i ∈ g.inputs, i < g.n) :
    ∀ j, Reachable g j → j ∈ (resetRun g).2 := by
  rintro j ⟨i, hi, hreach⟩
  rcases resetRun_closed g htr hinp with ⟨hin, hcl⟩
  induction hreach with
  | refl => exact hin i hi
  | tail hab hbc ihr => exact hcl _ ihr _ hbc

/-! ### Counting in-edges against the fresh pending counters -/

theorem sum_map_le_range (f : Nat → Nat) (L : List Nat) (n : Nat)
    (hnd : L.Nodup) (hlt : ∀ w ∈ L, w < n) :
    (L.map f).sum ≤ ((List.range n).map f).sum := by
  rw [← List.sum_toFinset f hnd, ← List.sum_toFinset f (List.nodup_range n)]
  apply Finset.sum_le_sum_of_subset
  intro x hx
  rw [List.mem_toFinset] at hx ⊢
  rw [List.mem_range]
  exact hlt x hx

theorem futureEdgesInto_split (g : Graph V) (c : Nat) :
    ∀ (l : List Nat),
      futureEdgesInto g l c =
        ((l.flatMap fun w => (g.node w).childTasks).countP
          (fun cs => cs.1 = c)) +
        (l.map (fun w => (g.node w).noArgChildTasks.count c)).sum := by
  intro l
  induction l with
  | nil => rfl
  | cons w l ih =>
      rw [futureEdgesInto] at ih ⊢
      rw [List.map_cons, List.sum_cons, List.flatMap_cons, List.countP_append,
        List.map_cons, List.sum_cons, ih, edgesFromInto]
      omega

theorem countP_allChildTasks_le_arity (g : Graph V) (c : Nat)
    (huq : SlotsUniq g) (hsr : SlotsInRange g) :
    (allChildTasks g).countP (fun cs => cs.1 = c) ≤ (g.node c).arity := by
  rw [List.countP_eq_length_filter]
  have hnd : ((allChildTasks g).filter (fun cs => decide (cs.1 = c))).Nodup :=
    List.Nodup.filter _ huq
  have hmap : (((allChildTasks g).filter
      (fun cs => decide (cs.1 = c))).map Prod.snd).Nodup := by
    refine List.Nodup.map_on ?_ hnd
    intro x hx y hy hxy
    have hx0 := List.of_mem_filter hx
    have hy0 := List.of_mem_filter hy
    have hx1 : x.1 = c := of_decide_eq_true hx0
    have hy1 : y.1 = c := of_decide_eq_true hy0
    exact Prod.ext (hx1.trans hy1.symm) hxy
  have hbound : ∀ s ∈ ((allChildTasks g).filter
      (fun cs => decide (cs.1 = c))).map Prod.snd, s < (g.node c).arity := by
    intro s hs
    rcases List.mem_map.mp hs with ⟨x, hx, hxs⟩
    have hx0 := List.of_mem_filter hx
    have hx1 : x.1 = c := of_decide_eq_true hx0
    have hxm : x ∈ allChildTasks g := List.mem_of_mem_filter hx
    rcases List.mem_flatMap.mp hxm with ⟨w, hw, hxw⟩
    have hxa := hsr w (List.mem_range.mp hw) x hxw
    rw [hx1] at hxa
    rw [← hxs]
    exact hxa
  have hlen : (((allChildTasks g).filter
      (fun cs => decide (cs.1 = c))).map Prod.snd).length ≤ (g.node c).arity := by
    have h1 : (((allChildTasks g).filter
        (fun cs => decide (cs.1 = c))).map Prod.snd).toFinset ⊆
        Finset.range (g.node c).arity := by
      intro s hs
      rw [Finset.mem_range]
      exact hbound s (List.mem_toFinset.mp hs)
    have h2 := Finset.card_le_card h1
    rw [Finset.card_range] at h2
    rw [← List.toFinset_card_of_nodup hmap]
    exact h2
  rw [← List.length_map ((allChildTasks g).filter
    (fun cs => decide (cs.1 = c))) Prod.snd]
  exact hlen

theorem slotsUniq_pair_uniq (g : Graph V) (huq : SlotsUniq g) (c s w w' : Nat)
    (h1 : (c, s) ∈ (g.node w).childTasks)
    (h2 : (c, s) ∈ (g.node w').childTasks) : w = w' := by
  by_cases hw : w < g.n
  · by_cases hw' : w' < g.n
    · by_contra hne
      have hnf := List.nodup_flatMap.mp huq
      have hdisj : List.Disjoint ((g.node w).childTasks)
          ((g.node w').childTasks) := by
        refine List.Pairwise.forall ?_ hnf.2 ?_ ?_ hne
        · intro a b hab x hx1 hx2
          exact hab hx2 hx1
        · exact List.mem_range.mpr hw
        · exact List.mem_range.mpr hw'
      exact hdisj h1 h2
    · exfalso
      rw [Graph.node_of_ge g w' (Nat.le_of_not_lt hw')] at h2
      cases h2
  · exfalso
    rw [Graph.node_of_ge g w (Nat.le_of_not_lt hw)] at h1
    cases h1

theorem slotsUniq_nodup_child (g : Graph V) (huq : SlotsUniq g) (w : Nat) :
    (g.node w).childTasks.Nodup := by
  by_cases hw : w < g.n
  · exact (List.nodup_flatMap.mp huq).1 w (List.mem_range.mpr hw)
  · rw [Graph.node_of_ge g w (Nat.le_of_not_lt hw)]
    exact List.nodup_nil

/-! ### Small transfer helpers -/

theorem fresh_node (g : Graph V) (hf : Fresh g) (j : Nat) :
    FreshNode (g.node j) := by
  by_cases hj : j < g.n
  · have hx : g.node j = g.nodeList.get ⟨j, hj⟩ := by
      rw [Graph.node, List.getD_eq_getElem?_getD, List.getElem?_eq_getElem hj]
      rfl
    rw [hx]
    exact hf _ (List.get_mem _ _ _)
  · rw [Graph.node_of_ge g j (Nat.le_of_not_lt hj)]
    exact ⟨rfl, rfl, rfl, rfl⟩

theorem foldl_deliverNoArg_inputs (l : List Nat) :
    ∀ (g : Graph V), (l.foldl deliverNoArg g).inputs = g.inputs := by
  induction l with
  | nil => intro g; rfl
  | cons c l ih => intro g; rw [List.foldl_cons, ih]; rfl

theorem foldl_deliverValue_inputs (l : List (Nat × Nat)) (r : V) :
    ∀ (g : Graph V),
      (l.foldl (fun h cs => deliverValue h cs.1 cs.2 r) g).inputs = g.inputs := by
  induction l with
  | nil => intro g; rfl
  | cons cs l ih => intro g; rw [List.foldl_cons, ih]; rfl

theorem runNode_inputs (g : Graph V) (w : Nat) (g' : Graph V) (r : Option V)
    (h : runNode g w = some (g', r)) : g'.inputs = g.inputs := by
  have hp := runNode_pending_zero g w (g', r) h
  by_cases hcp : (g.node w).copyable = false
  · by_cases hlen : (g.node w).childTasks.length > 1
    · rw [runNode_mo_big g w hp hcp hlen] at h
      cases h
      rfl
    · cases hct : (g.node w).childTasks with
      | nil =>
          rw [runNode_mo_nil g w hp hcp hct] at h
          cases h
          rw [foldl_deliverNoArg_inputs]
          rfl
      | cons cs rest =>
          have hrest : rest = [] := by
            rw [hct] at hlen
            simp only [List.length_cons, gt_iff_lt, not_lt] at hlen
            exact List.length_eq_zero.mp (by omega)
          subst hrest
          rw [runNode_mo_one g w cs.1 cs.2 hp hcp (by rw [hct])] at h
          cases h
          rw [foldl_deliverNoArg_inputs]
          rfl
  · rw [runNode_copy g w hp (by revert hcp; cases (g.node w).copyable <;> simp)] at h
    cases h
    rw [foldl_deliverNoArg_inputs, foldl_deliverValue_inputs]
    rfl

theorem runTrace_inputs (L : List Nat) :
    ∀ (g g'' : Graph V) (tr : List (Nat × Nat × Option V)),
      runTrace g L = some (g'', tr) → g''.inputs = g.inputs := by
  induction L with
  | nil =>
      intro g g'' tr h
      rw [runTrace] at h
      cases h
      rfl
  | cons w L' ih =>
      intro g g'' tr h
      rcases runTrace_cons g w L' g'' tr h with ⟨g1, r, tr', hr, htr, _⟩
      exact (ih g1 g'' tr' htr).trans (runNode_inputs g w g1 r hr)

theorem reachable_congr {gA gB : Graph V}
    (hstat : ∀ j, (gB.node j).statics = (gA.node j).statics)
    (hinp : gB.inputs = gA.inputs) (j : Nat) :
    Reachable gB j ↔ Reachable gA j := by
  have hrel : ∀ a b, edgeRel gB a b ↔ edgeRel gA a b := by
    intro a b
    rw [edgeRel, edgeRel, (statics_fields (hstat a)).2.2.2.2.2.2.2]
  constructor
  · rintro ⟨i, hi, hr⟩
    exact ⟨i, hinp ▸ hi, Relation.ReflTransGen.mono
      (fun a b hab => (hrel a b).mp hab) hr⟩
  · rintro ⟨i, hi, hr⟩
    exact ⟨i, hinp.symm ▸ hi, Relation.ReflTransGen.mono
      (fun a b hab => (hrel a b).mpr hab) hr⟩

theorem runTrace_pending_untouched (L : List Nat) :
    ∀ (g g'' : Graph V) (tr : List (Nat × Nat × Option V)) (j : Nat),
      runTrace g L = some (g'', tr) →
      (∀ w ∈ L, (g.node w).copyable = true ∨ (g.node w).childTasks.length ≤ 1) →
      (∀ w ∈ L, edgesFromInto g w j = 0) →
      (g''.node j).pendingCount = (g.node j).pendingCount := by
  induction L with
  | nil =>
      intro g g'' tr j h _ _
      rw [runTrace] at h
      cases h
      rfl
  | cons w L' ih =>
      intro g g'' tr j h hnoskip hzero
      rcases runTrace_cons g w L' g'' tr h with ⟨g1, r, tr', hr, htr, _⟩
      have h1 : (g1.node j).pendingCount = (g.node j).pendingCount := by
        rw [runNode_pending_iter g w g1 r hr
          (hnoskip w (List.mem_cons_self _ _)) j]
        by_cases hj : j < g.n
        · rw [if_pos hj, hzero w (List.mem_cons_self _ _)]
          rfl
        · rw [if_neg hj]
      have hst := runNode_statics g w g1 r hr
      have hnoskip' : ∀ w' ∈ L', (g1.node w').copyable = true ∨
          (g1.node w').childTasks.length ≤ 1 := by
        intro w' hw'
        rw [(statics_fields (hst w')).2.1, (statics_fields (hst w')).2.2.2.2.2.1]
        exact hnoskip w' (List.mem_cons_of_mem _ hw')
      have hzero' : ∀ w' ∈ L', edgesFromInto g1 w' j = 0 := by
        intro w' hw'
        rw [edgesFromInto_congr g g1 hst w' j]
        exact hzero w' (List.mem_cons_of_mem _ hw')
      exact (ih g1 g'' tr' j htr hnoskip' hzero').trans h1

theorem runTrace_statics (L : List Nat) :
    ∀ (g g'' : Graph V) (tr : List (Nat × Nat × Option V)),
      runTrace g L = some (g'', tr) →
      ∀ j, (g''.node j).statics = (g.node j).statics := by
  induction L with
  | nil =>
      intro g g'' tr h j
      rw [runTrace] at h
      cases h
      rfl
  | cons w L' ih =>
      intro g g'' tr h j
      rcases runTrace_cons g w L' g'' tr h with ⟨g1, r, tr', hr, htr, _⟩
      exact (ih g1 g'' tr' htr j).trans (runNode_statics g w g1 r hr j)

theorem runTrace_n (L : List Nat) :
    ∀ (g g'' : Graph V) (tr : List (Nat × Nat × Option V)),
      runTrace g L = some (g'', tr) → g''.n = g.n := by
  induction L with
  | nil =>
      intro g g'' tr h
      rw [runTrace] at h
      cases h
      rfl
  | cons w L' ih =>
      intro g g'' tr h
      rcases runTrace_cons g w L' g'' tr h with ⟨g1, r, tr', hr, htr, _⟩
      exact (ih g1 g'' tr' htr).trans (runNode_n g w g1 r hr)

/-- Worker-level replay fact about the reset state, for a well-formed fresh
graph: `reset()` restores every pending counter to the parent count, clears
every result slot and zeroes every enqueue counter, and the schedule of the
reset state dispatches the same nodes in the same order, so that RE-RUNNING
the thunks from the reset state (`runTrace` over the unchanged dispatch
list, which is what `executeT (resetG g1)` computes) would reproduce the
first round's trace, results, validity flags and `collect()` outcomes.  The
source never performs this re-run: its pool is already stopped when the
second `execute()` is called (see `executeTP` and
`c1_second_execute_dead_pool`). -/
theorem reset_replay_model (g g1 : Graph V)
    (tr1 : List (Nat × Nat × Option V))
    (hrun : executeT g = some (g1, tr1))
    (hfresh : Fresh g)
    (hwf1 : InputsEdgesInRange g) (hwf2 : TargetsInRange g)
    (hwf3 : SlotsUniq g) (hwf4 : SlotsInRange g)
    (hwf5 : ParentCountConsistent g) (hwf6 : DeliveriesAlongEdges g)
    (hnd : (scheduleList g).Nodup)
    (hnoskip : ∀ w ∈ scheduleList g,
      (g.node w).copyable = true ∨ (g.node w).childTasks.length ≤ 1) :
    (∀ j, ((resetG g1).node j).pendingCount = (g1.node j).parentCount ∧
      ((resetG g1).node j).result = none ∧
      ((resetG g1).node j).parentEnqueued = 0) ∧
    ∃ g3, executeT (resetG g1) = some (g3, tr1) ∧
      (∀ j, (g3.node j).result = (g1.node j).result) ∧
      (∀ j, (g3.node j).validResult = (g1.node j).validResult) ∧
      (∀ j, collect g3 j = collect g1 j) := by
  have hks := schedule_eqExceptPE g
  have hstS : ∀ j, (((schedule g).1).node j).statics = (g.node j).statics :=
    fun j => (hks.2.2 j).1
  have hrunS : runTrace (schedule g).1 (scheduleList g) = some (g1, tr1) := hrun
  have hstep : ∀ u, (Reachable g u ∧ u < g.n) →
      ∀ c ∈ (g.node u).nextNodes, Reachable g c ∧ c < g.n := by
    intro u hu c hc
    rcases hu with ⟨⟨i, hi, hre⟩, hun⟩
    exact ⟨⟨i, hi, hre.tail hc⟩, hwf1.2 u hun c hc⟩
  have hin : ∀ i ∈ g.inputs, Reachable g i ∧ i < g.n := by
    intro i hi
    exact ⟨⟨i, hi, Relation.ReflTransGen.refl⟩, hwf1.1 i hi⟩
  have hsi := schedule_inv g (fun j => Reachable g j ∧ j < g.n) hstep hin
  have hLmem : ∀ u ∈ scheduleList g, Reachable g u ∧ u < g.n := hsi.1
  have hfr := fresh_node g hfresh
  have hnoskipS : ∀ w ∈ scheduleList g,
      (((schedule g).1).node w).copyable = true ∨
      (((schedule g).1).node w).childTasks.length ≤ 1 := by
    intro w hw
    rw [(statics_fields (hstS w)).2.1, (statics_fields (hstS w)).2.2.2.2.2.1]
    exact hnoskip w hw
  have hndctS : ∀ w, (((schedule g).1).node w).childTasks.Nodup := by
    intro w
    rw [(statics_fields (hstS w)).2.2.2.2.2.1]
    exact slotsUniq_nodup_child g hwf3 w
  have huniqS : ∀ (c s w w' : Nat),
      (c, s) ∈ (((schedule g).1).node w).childTasks →
      (c, s) ∈ (((schedule g).1).node w').childTasks → w = w' := by
    intro c s w w' h1 h2
    rw [(statics_fields (hstS w)).2.2.2.2.2.1] at h1
    rw [(statics_fields (hstS w')).2.2.2.2.2.1] at h2
    exact slotsUniq_pair_uniq g hwf3 c s w w' h1 h2
  have hinvS : ∀ c, futureEdgesInto (schedule g).1 (scheduleList g) c ≤
      (((schedule g).1).node c).pendingCount := by
    intro c
    rw [futureEdgesInto_congr g (schedule g).1 hstS (scheduleList g) c,
      (hks.2.2 c).2.2.2.2, (hfr c).2.2.2]
    by_cases hc : c < g.n
    · have hsplit := futureEdgesInto_split g c (List.range g.n)
      have hle : futureEdgesInto g (scheduleList g) c ≤
          futureEdgesInto g (List.range g.n) c := by
        rw [futureEdgesInto, futureEdgesInto]
        exact sum_map_le_range _ _ _ hnd (fun w hw => (hLmem w hw).2)
      have hallct : (List.range g.n).flatMap (fun w => (g.node w).childTasks) =
          allChildTasks g := rfl
      rw [hallct] at hsplit
      have hnae : ((List.range g.n).map
          (fun w => (g.node w).noArgChildTasks.count c)).sum =
          noArgEdgesInto g c := rfl
      rw [hnae] at hsplit
      have hcnt := countP_allChildTasks_le_arity g c hwf3 hwf4
      have hpc := hwf5 c hc
      omega
    · have hz : futureEdgesInto g (scheduleList g) c = 0 := by
        rw [futureEdgesInto]
        apply List.sum_eq_zero
        intro x hx
        rcases List.mem_map.mp hx with ⟨w, hw, hwx⟩
        rw [← hwx, edgesFromInto]
        have hwlt := (hLmem w hw).2
        have h1 : (g.node w).childTasks.countP (fun cs => cs.1 = c) = 0 := by
          rw [List.countP_eq_zero]
          intro cs hcs
          have hlt2 := (hwf2 w hwlt).1 cs hcs
          simp only [decide_eq_true_eq]
          omega
        have h2 : (g.node w).noArgChildTasks.count c = 0 := by
          rw [List.count_eq_zero]
          intro hmem
          exact hc ((hwf2 w hwlt).2 c hmem)
        omega
      rw [hz]
      exact Nat.zero_le _
  have hfacts := runTrace_round_facts (scheduleList g) (schedule g).1 g1 tr1
    hrunS hnd hinvS hnoskipS huniqS hndctS
  have hst1 : ∀ j, (g1.node j).statics = (g.node j).statics := fun j =>
    (runTrace_statics (scheduleList g) (schedule g).1 g1 tr1 hrunS j).trans (hstS j)
  have hn1 : g1.n = g.n :=
    (runTrace_n (scheduleList g) (schedule g).1 g1 tr1 hrunS).trans hks.1
  have hi1 : g1.inputs = g.inputs :=
    (runTrace_inputs (scheduleList g) (schedule g).1 g1 tr1 hrunS).trans hks.2.1
  obtain ⟨hRn, hRi, _, hRf, hRout, _, hRnew⟩ := resetRun_effect g1
  have htr1 : ∀ v, ∀ c ∈ (g1.node v).nextNodes, c < g1.n := by
    intro v c hc
    rw [(statics_fields (hst1 v)).2.2.2.2.2.2.2] at hc
    by_cases hv : v < g.n
    · rw [hn1]; exact hwf1.2 v hv c hc
    · rw [Graph.node_of_ge g v (Nat.le_of_not_lt hv)] at hc
      cases hc
  have hinp1 : ∀ i ∈ g1.inputs, i < g1.n := by
    intro i hi
    rw [hi1] at hi
    rw [hn1]
    exact hwf1.1 i hi
  have hcomp := resetRun_reach g1 htr1 hinp1
  have hreach1 : ∀ j, Reachable g1 j ↔ Reachable g j := reachable_congr hst1 hi1
  have hnotvis : ∀ j, j ∉ (resetRun g1).2 → ¬ Reachable g j := by
    intro j hj hr
    exact hj (hcomp j ((hreach1 j).mpr hr))
  have hnotdisp : ∀ j, j ∉ (resetRun g1).2 → j ∉ scheduleList g := by
    intro j hj hmem
    exact hnotvis j hj (hLmem j hmem).1
  have hpe_unvis : ∀ j, j ∉ (resetRun g1).2 →
      (((schedule g).1).node j).parentEnqueued = (g.node j).parentEnqueued := by
    intro j hj
    refine hsi.2 j ?_
    intro hRj
    exact hnotvis j hj hRj.1
  have hpend_unvis : ∀ j, j ∉ (resetRun g1).2 →
      (g1.node j).pendingCount = (((schedule g).1).node j).pendingCount := by
    intro j hj
    refine runTrace_pending_untouched (scheduleList g) (schedule g).1 g1 tr1 j
      hrunS hnoskipS ?_
    intro w hw
    rw [edgesFromInto_congr g (schedule g).1 hstS w j]
    by_contra hne
    have hwlt := (hLmem w hw).2
    have hjnext : j ∈ (g.node w).nextNodes := by
      rw [edgesFromInto] at hne
      by_cases hcp : (g.node w).childTasks.countP (fun cs => cs.1 = j) = 0
      · have hcnt : (g.node w).noArgChildTasks.count j ≠ 0 := by omega
        have hmem : j ∈ (g.node w).noArgChildTasks := by
          by_contra hjm
          exact hcnt (List.count_eq_zero.mpr hjm)
        exact (hwf6 w hwlt).2 j hmem
      · rcases List.countP_pos.mp (Nat.pos_of_ne_zero hcp) with ⟨cs, hcs, hq⟩
        have hq1 : cs.1 = j := of_decide_eq_true hq
        have hnx := (hwf6 w hwlt).1 cs hcs
        rw [hq1] at hnx
        exact hnx
    rcases (hLmem w hw).1 with ⟨i, hi, hre⟩
    exact hnotvis j hj ⟨i, hi, hre.tail hjnext⟩
  have hresetG : resetG g1 = (resetRun g1).1 := rfl
  have parta : ∀ j, ((resetG g1).node j).pendingCount = (g1.node j).parentCount ∧
      ((resetG g1).node j).result = none ∧
      ((resetG g1).node j).parentEnqueued = 0 := by
    intro j
    rw [hresetG]
    by_cases hj : j ∈ (resetRun g1).2
    · rcases hRnew j hj (List.not_mem_nil j) with ⟨a, b, c⟩
      exact ⟨b, a, c⟩
    · rw [hRout j hj]
      refine ⟨?_, ?_, ?_⟩
      · rw [hpend_unvis j hj, (hks.2.2 j).2.2.2.2, (hfr j).2.2.2]
        exact ((statics_fields (hst1 j)).2.2.2.2.1).symm
      · rw [(runTrace_rv_notmem (scheduleList g) (schedule g).1 g1 tr1 j hrunS
          (hnotdisp j hj)).1, (hks.2.2 j).2.1]
        exact (hfr j).2.1
      · rw [runTrace_pe (scheduleList g) (schedule g).1 g1 tr1 j hrunS,
          hpe_unvis j hj]
        exact (hfr j).2.2.1
  have hSE : SchedEq g (resetG g1) := by
    rw [hresetG]
    refine ⟨hRn.trans hn1, hRi.trans hi1, ?_⟩
    intro j
    have hstR : ((resetRun g1).1.node j).statics = (g.node j).statics :=
      ((hRf j).1).trans (hst1 j)
    refine ⟨(statics_fields hstR).2.2.2.2.2.2.2,
      (statics_fields hstR).2.2.2.2.1, ?_⟩
    by_cases hj : j ∈ (resetRun g1).2
    · rw [(hRnew j hj (List.not_mem_nil j)).2.2, (hfr j).2.2.1]
    · rw [hRout j hj, runTrace_pe (scheduleList g) (schedule g).1 g1 tr1 j hrunS,
        hpe_unvis j hj]
  have hlist : (schedule (resetG g1)).2 = (schedule g).2 := scheduleList_schedEq hSE
  have hksR := schedule_eqExceptPE (resetG g1)
  have hstatB : ∀ j, ((schedule (resetG g1)).1.node j).statics =
      (((schedule g).1).node j).statics := by
    intro j
    refine ((hksR.2.2 j).1).trans ?_
    rw [hresetG]
    exact ((hRf j).1).trans ((hst1 j).trans (hstS j).symm)
  have hnB : (schedule (resetG g1)).1.n = ((schedule g).1).n := by
    rw [hksR.1, hresetG, hRn, hn1, hks.1]
  have hpendB : ∀ j, ((schedule (resetG g1)).1.node j).pendingCount =
      (((schedule g).1).node j).pendingCount := by
    intro j
    rw [(hksR.2.2 j).2.2.2.2, hresetG]
    by_cases hj : j ∈ (resetRun g1).2
    · rw [(hRnew j hj (List.not_mem_nil j)).2.1, (hks.2.2 j).2.2.2.2,
        (hfr j).2.2.2]
      exact (statics_fields (hst1 j)).2.2.2.2.1
    · rw [hRout j hj]
      exact hpend_unvis j hj
  have hresB : ∀ j, ((schedule (resetG g1)).1.node j).result =
      (((schedule g).1).node j).result := by
    intro j
    rw [(hksR.2.2 j).2.1, hresetG]
    by_cases hj : j ∈ (resetRun g1).2
    · rw [(hRnew j hj (List.not_mem_nil j)).1, (hks.2.2 j).2.1, (hfr j).2.1]
    · rw [hRout j hj]
      exact (runTrace_rv_notmem (scheduleList g) (schedule g).1 g1 tr1 j hrunS
        (hnotdisp j hj)).1
  have hargsB : ∀ j, ((schedule (resetG g1)).1.node j).args =
      (g1.node j).args := by
    intro j
    rw [(hksR.2.2 j).2.2.2.1, hresetG]
    exact (hRf j).2.1
  have hvalBnotL : ∀ j, j ∉ scheduleList g →
      ((schedule (resetG g1)).1.node j).validResult =
      (((schedule g).1).node j).validResult := by
    intro j hj
    rw [(hksR.2.2 j).2.2.1, hresetG, (hRf j).2.2]
    exact (runTrace_rv_notmem (scheduleList g) (schedule g).1 g1 tr1 j hrunS hj).2
  rcases runTrace_replay (scheduleList g) (schedule g).1
    (schedule (resetG g1)).1 g1 g1 tr1 hrunS hnoskipS hndctS hfacts.1 hfacts.2
    hnB hstatB hpendB hresB hargsB hvalBnotL with
    ⟨g3, htrB, _, _, _, hfres, _, hfval⟩
  refine ⟨parta, g3, ?_, ?_, ?_, ?_⟩
  · have hexe : executeT (resetG g1) =
        runTrace (schedule (resetG g1)).1 (schedule (resetG g1)).2 := rfl
    rw [hexe, hlist]
    exact htrB
  · intro j
    rw [hfres j]
  · intro j
    rw [hfval j]
  · intro j
    simp only [collect, hfres j, hfval j]

set_option maxHeartbeats 2000000 in
/-- `reset_replay_model` at the diamond graph `gDia`: all of its
well-formedness hypotheses hold there and the replay conclusions follow. -/
theorem reset_replay_model_example :
    executeT gDia = some (gDia1, gDiaTr) ∧ Fresh gDia ∧
    InputsEdgesInRange gDia ∧ TargetsInRange gDia ∧ SlotsUniq gDia ∧
    SlotsInRange gDia ∧ ParentCountConsistent gDia ∧
    DeliveriesAlongEdges gDia ∧ (scheduleList gDia).Nodup ∧
    (∀ w ∈ scheduleList gDia, (gDia.node w).copyable = true ∨
      (gDia.node w).childTasks.length ≤ 1) ∧
    (∀ j, ((resetG gDia1).node j).pendingCount = (gDia1.node j).parentCount ∧
      ((resetG gDia1).node j).result = none ∧
      ((resetG gDia1).node j).parentEnqueued = 0) ∧
    ∃ g3, executeT (resetG gDia1) = some (g3, gDiaTr) ∧
      (∀ j, (g3.node j).result = (gDia1.node j).result) ∧
      (∀ j, (g3.node j).validResult = (gDia1.node j).validResult) ∧
      (∀ j, collect g3 j = collect gDia1 j) := by
  have hfresh : Fresh gDia := by unfold Fresh FreshNode; decide
  have h1 : InputsEdgesInRange gDia := by unfold InputsEdgesInRange; decide
  have h2 : TargetsInRange gDia := by unfold TargetsInRange; decide
  have h3 : SlotsUniq gDia := by unfold SlotsUniq; decide
  have h4 : SlotsInRange gDia := by unfold SlotsInRange; decide
  have h5 : ParentCountConsistent gDia := by
    unfold ParentCountConsistent; decide
  have h6 : DeliveriesAlongEdges gDia := by
    unfold DeliveriesAlongEdges; decide
  have h7 : (scheduleList gDia).Nodup := by decide
  have h8 : ∀ w ∈ scheduleList gDia, (gDia.node w).copyable = true ∨
      (gDia.node w).childTasks.length ≤ 1 := by decide
  have h := reset_replay_model gDia gDia1 gDiaTr rfl hfresh
    h1 h2 h3 h4 h5 h6 h7 h8
  exact ⟨rfl, hfresh, h1, h2, h3, h4, h5, h6, h7, h8, h.1, h.2⟩

/-! ### C8: what the pop loop actually submits first -/

theorem bfs_acc_ext :
    ∀ (fuel : Nat) (g : Graph V) (q pr acc : List Nat),
      ∃ rest, (bfs fuel g q pr acc).2 = acc.reverse ++ rest := by
  intro fuel
  induction fuel with
  | zero => intro g q pr acc; exact ⟨[], (List.append_nil _).symm⟩
  | succ fuel ih =>
      intro g q pr acc
      cases q with
      | nil => exact ⟨[], (List.append_nil _).symm⟩
      | cons u qs =>
          have hred : bfs (fuel + 1) g (u :: qs) pr acc =
              bfs fuel ((g.node u).nextNodes.foldl tryEnqueue (g, qs, pr)).1
                ((g.node u).nextNodes.foldl tryEnqueue (g, qs, pr)).2.1
                ((g.node u).nextNodes.foldl tryEnqueue (g, qs, pr)).2.2
                (u :: acc) := rfl
          rw [hred]
          rcases ih ((g.node u).nextNodes.foldl tryEnqueue (g, qs, pr)).1
            ((g.node u).nextNodes.foldl tryEnqueue (g, qs, pr)).2.1
            ((g.node u).nextNodes.foldl tryEnqueue (g, qs, pr)).2.2
            (u :: acc) with ⟨rest, hrest⟩
          refine ⟨u :: rest, ?_⟩
          rw [hrest, List.reverse_cons, List.append_assoc]
          rfl

theorem foldl_tryEnqueue_queue_ext (l : List Nat) :
    ∀ (g : Graph V) (q pr : List Nat),
      ∃ new, (l.foldl tryEnqueue (g, q, pr)).2.1 = q ++ new := by
  induction l with
  | nil => intro g q pr; exact ⟨[], (List.append_nil _).symm⟩
  | cons c l ih =>
      intro g q pr
      rw [List.foldl_cons]
      by_cases hc : c ∉ pr ∧ (g.node c).parentEnqueued = (g.node c).parentCount
      · have hstep : tryEnqueue (g, q, pr) c =
            (bumpPE g c, q ++ [c], pr ++ [c]) := by
          rw [tryEnqueue, if_pos hc]
        rw [hstep]
        rcases ih (bumpPE g c) (q ++ [c]) (pr ++ [c]) with ⟨new, hnew⟩
        refine ⟨c :: new, ?_⟩
        rw [hnew, List.append_assoc]
        rfl
      · have hstep : tryEnqueue (g, q, pr) c = (g, q, pr) := by
          rw [tryEnqueue, if_neg hc]
        rw [hstep]
        exact ih g q pr

theorem bfs_pops_lead :
    ∀ (q : List Nat) (fuel : Nat), q.length < fuel →
      ∀ (tail : List Nat) (g : Graph V) (pr acc : List Nat),
      ∃ rest, (bfs fuel g (q ++ tail) pr acc).2 = acc.reverse ++ q ++ rest := by
  intro q
  induction q with
  | nil =>
      intro fuel _ tail g pr acc
      rcases bfs_acc_ext fuel g tail pr acc with ⟨rest, hrest⟩
      refine ⟨rest, ?_⟩
      simp only [List.nil_append, List.append_nil]
      exact hrest
  | cons u qs ih =>
      intro fuel hfuel tail g pr acc
      cases fuel with
      | zero => exact absurd hfuel (Nat.not_lt_zero _)
      | succ f =>
          have hlen : qs.length < f := by
            rw [List.length_cons] at hfuel
            omega
          have hqt : (u :: qs) ++ tail = u :: (qs ++ tail) := rfl
          rw [hqt]
          have hred : bfs (f + 1) g (u :: (qs ++ tail)) pr acc =
              bfs f ((g.node u).nextNodes.foldl tryEnqueue (g, qs ++ tail, pr)).1
                ((g.node u).nextNodes.foldl tryEnqueue (g, qs ++ tail, pr)).2.1
                ((g.node u).nextNodes.foldl tryEnqueue (g, qs ++ tail, pr)).2.2
                (u :: acc) := rfl
          rw [hred]
          rcases foldl_tryEnqueue_queue_ext (g.node u).nextNodes g (qs ++ tail)
            pr with ⟨new, hnew⟩
          rw [hnew, List.append_assoc]
          rcases ih f hlen (tail ++ new)
            ((g.node u).nextNodes.foldl tryEnqueue (g, qs ++ tail, pr)).1
            ((g.node u).nextNodes.foldl tryEnqueue (g, qs ++ tail, pr)).2.2
            (u :: acc) with ⟨rest, hrest⟩
          refine ⟨rest, ?_⟩
          rw [hrest]
          simp

theorem seed_queue (g : Graph V) : (seed g).2.1 = g.inputs := by
  have hgen : ∀ (l : List Nat) (acc : Graph V × List Nat × List Nat),
      (l.foldl (fun acc v =>
        (bumpPE acc.1 v, acc.2.1 ++ [v], insertP acc.2.2 v)) acc).2.1 =
      acc.2.1 ++ l := by
    intro l
    induction l with
    | nil => intro acc; exact (List.append_nil _).symm
    | cons v l ih =>
        intro acc
        rw [List.foldl_cons, ih, List.append_assoc]
        rfl
  have h := hgen g.inputs (g, [], [])
  rw [seed, h]
  rfl

theorem scheduleList_inputs_lead (g : Graph V) :
    ∃ rest, scheduleList g = g.inputs ++ rest := by
  have hsched : schedule g =
      bfs (g.inputs.length + g.n + 1) (seed g).1 (seed g).2.1 (seed g).2.2 [] :=
    rfl
  have hq : (seed g).2.1 = g.inputs ++ [] := by
    rw [seed_queue, List.append_nil]
  rcases bfs_pops_lead g.inputs (g.inputs.length + g.n + 1) (by omega) []
    (seed g).1 (seed g).2.2 [] with ⟨rest, hrest⟩
  refine ⟨rest, ?_⟩
  rw [scheduleList, hsched, hq, hrest]
  rfl

theorem runTrace_ids (L : List Nat) :
    ∀ (g g'' : Graph V) (tr : List (Nat × Nat × Option V)),
      runTrace g L = some (g'', tr) → tr.map (fun e => e.1) = L := by
  induction L with
  | nil =>
      intro g g'' tr h
      rw [runTrace] at h
      cases h
      rfl
  | cons w L' ih =>
      intro g g'' tr h
      rcases runTrace_cons g w L' g'' tr h with ⟨g1, r, tr', hr, htr, htreq⟩
      rw [htreq, List.map_cons, ih g1 g'' tr' htr]

/-- C8 counterexample: in `gSched` the pending-zero root `0` is never
submitted, while the registered input `1` is submitted first despite its
nonzero pending counter — its thunk then busy-waits and `execute()` never
returns. -/
theorem c8_initial_ready_counterexample :
    (gSched.node 0).pendingCount = 0 ∧ (gSched.node 1).pendingCount = 1 ∧
    scheduleList gSched = [1] ∧ 0 ∉ scheduleList gSched ∧
    executeT gSched = none :=
  ⟨by decide, by decide, rfl, by decide, rfl⟩

/-- C8 (amended).  The initial set of nodes submitted to the pool is exactly
the list of registered input nodes, in registration order — the pending
counters are not consulted.  Every dispatched node's thunk runs to
completion before `execute()` returns: the trace lists exactly the
dispatched nodes, in dispatch order. -/
theorem c8_initial_dispatch (g g' : Graph V)
    (tr : List (Nat × Nat × Option V))
    (h : executeT g = some (g', tr)) :
    (∃ rest, scheduleList g = g.inputs ++ rest) ∧
    tr.map (fun e => e.1) = scheduleList g := by
  refine ⟨scheduleList_inputs_lead g, ?_⟩
  exact runTrace_ids (scheduleList g) (schedule g).1 g' tr h

/-- Witness for C8 on the diamond. -/
theorem c8_initial_dispatch_witness :
    executeT gDia = some (gDia1, gDiaTr) ∧
    (∃ rest, scheduleList gDia = gDia.inputs ++ rest) ∧
    gDiaTr.map (fun e => e.1) = scheduleList gDia := by
  have h := c8_initial_dispatch gDia gDia1 gDiaTr rfl
  exact ⟨rfl, h.1, h.2⟩

/-! ### C2: the depth-first cycle search -/

theorem setCol_self (col : Col) (u : Nat) (b : Bool) :
    setCol col u b u = some b := by
  simp [setCol]

theorem setCol_ne (col : Col) (u : Nat) (b : Bool) (x : Nat) (h : x ≠ u) :
    setCol col u b x = col x := by
  simp [setCol, h]

theorem dfsStep_true (fuel : Nat) (g : Graph V) (col : Col) (c : Nat) :
    dfsStep fuel g (true, col) c = (true, col) := rfl

theorem dfsStep_none (fuel : Nat) (g : Graph V) (col : Col) (c : Nat)
    (hcc : col c = none) :
    dfsStep fuel g (false, col) c = dfsCycle fuel g c col := by
  simp [dfsStep, hcc]

theorem dfsStep_gray (fuel : Nat) (g : Graph V) (col : Col) (c : Nat)
    (hcc : col c = some true) :
    dfsStep fuel g (false, col) c = (true, col) := by
  simp [dfsStep, hcc]

theorem dfsStep_black (fuel : Nat) (g : Graph V) (col : Col) (c : Nat)
    (hcc : col c = some false) :
    dfsStep fuel g (false, col) c = (false, col) := by
  simp [dfsStep, hcc]

theorem foldl_dfsStep_true (fuel : Nat) (g : Graph V) :
    ∀ (l : List Nat) (col : Col),
      l.foldl (dfsStep fuel g) (true, col) = (true, col) := by
  intro l
  induction l with
  | nil => intro col; rfl
  | cons c l ih =>
      intro col
      rw [List.foldl_cons, dfsStep_true]
      exact ih col

theorem dfsCycle_succ (fuel : Nat) (g : Graph V) (u : Nat) (col : Col) :
    dfsCycle (fuel + 1) g u col =
      (if ((g.node u).nextNodes.foldl (dfsStep fuel g)
            (false, setCol col u true)).1
       then (true, ((g.node u).nextNodes.foldl (dfsStep fuel g)
            (false, setCol col u true)).2)
       else (false, setCol ((g.node u).nextNodes.foldl (dfsStep fuel g)
            (false, setCol col u true)).2 u false)) := rfl

/-- Soundness of the child loop: a reported back edge closes a cycle
reachable from the parent, and a quiet loop leaves the gray set unchanged. -/
theorem dfsFold_sound (g : Graph V) (fuel : Nat) (u : Nat)
    (hrec : ∀ (c : Nat) (col : Col),
      (∀ x, col x = some true → Reaches g x c) → col c = none →
      ((dfsCycle fuel g c col).1 = true →
        ∃ v, Reaches g c v ∧ Relation.TransGen (edgeRel g) v v) ∧
      ((dfsCycle fuel g c col).1 = false →
        ∀ x, ((dfsCycle fuel g c col).2 x = some true ↔ col x = some true))) :
    ∀ (l : List Nat), (∀ c ∈ l, edgeRel g u c) →
      ∀ (col : Col), (∀ x, col x = some true → Reaches g x u) →
      (((l.foldl (dfsStep fuel g) (false, col)).1 = true →
        ∃ v, Reaches g u v ∧ Relation.TransGen (edgeRel g) v v) ∧
       ((l.foldl (dfsStep fuel g) (false, col)).1 = false →
        ∀ x, ((l.foldl (dfsStep fuel g) (false, col)).2 x = some true ↔
          col x = some true))) := by
  intro l
  induction l with
  | nil =>
      intro _ col _
      exact ⟨fun h => Bool.noConfusion h, fun _ x => Iff.rfl⟩
  | cons c l ihl =>
      intro hch col hgray
      rw [List.foldl_cons]
      have hedge : edgeRel g u c := hch c (List.mem_cons_self _ _)
      cases hcc : col c with
      | none =>
          rw [dfsStep_none fuel g col c hcc]
          have hgrayc : ∀ x, col x = some true → Reaches g x c := by
            intro x hx
            exact (hgray x hx).tail hedge
          have hr := hrec c col hgrayc hcc
          have heta : dfsCycle fuel g c col =
              ((dfsCycle fuel g c col).1, (dfsCycle fuel g c col).2) := rfl
          cases hb : (dfsCycle fuel g c col).1 with
          | true =>
              rw [heta, hb, foldl_dfsStep_true]
              constructor
              · intro _
                rcases hr.1 hb with ⟨v, hv1, hv2⟩
                exact ⟨v, Relation.ReflTransGen.head hedge hv1, hv2⟩
              · intro hf
                exact Bool.noConfusion hf
          | false =>
              rw [heta, hb]
              have hgray2 := hr.2 hb
              have hgray' : ∀ x, (dfsCycle fuel g c col).2 x = some true →
                  Reaches g x u := by
                intro x hx
                exact hgray x ((hgray2 x).mp hx)
              rcases ihl (fun c' hc' => hch c' (List.mem_cons_of_mem _ hc'))
                ((dfsCycle fuel g c col).2) hgray' with ⟨a, b⟩
              refine ⟨a, ?_⟩
              intro hf x
              exact (b hf x).trans (hgray2 x)
      | some b0 =>
          cases b0 with
          | true =>
              rw [dfsStep_gray fuel g col c hcc, foldl_dfsStep_true]
              constructor
              · intro _
                refine ⟨c, Relation.ReflTransGen.single hedge, ?_⟩
                exact Relation.TransGen.tail' (hgray c hcc) hedge
              · intro hf
                exact Bool.noConfusion hf
          | false =>
              rw [dfsStep_black fuel g col c hcc]
              exact ihl (fun c' hc' => hch c' (List.mem_cons_of_mem _ hc'))
                col hgray

/-- Soundness of `has_cycle`'s DFS: a `true` answer exhibits a directed
cycle reachable from the start node; a `false` answer leaves the set of
on-stack nodes exactly as it was. -/
theorem dfsCycle_sound :
    ∀ (fuel : Nat) (g : Graph V) (u : Nat) (col : Col),
      (∀ x, col x = some true → Reaches g x u) → col u = none →
      ((dfsCycle fuel g u col).1 = true →
        ∃ v, Reaches g u v ∧ Relation.TransGen (edgeRel g) v v) ∧
      ((dfsCycle fuel g u col).1 = false →
        ∀ x, ((dfsCycle fuel g u col).2 x = some true ↔ col x = some true)) := by
  intro fuel
  induction fuel with
  | zero =>
      intro g u col hgray hu
      exact ⟨fun h => Bool.noConfusion h, fun _ x => Iff.rfl⟩
  | succ fuel ih =>
      intro g u col hgray hu
      rw [dfsCycle_succ]
      have hgray1 : ∀ x, setCol col u true x = some true → Reaches g x u := by
        intro x hx
        by_cases hxu : x = u
        · rw [hxu]
          exact Relation.ReflTransGen.refl
        · rw [setCol_ne col u true x hxu] at hx
          exact hgray x hx
      have hch : ∀ c ∈ (g.node u).nextNodes, edgeRel g u c := fun c hc => hc
      rcases dfsFold_sound g fuel u (ih g) (g.node u).nextNodes hch
        (setCol col u true) hgray1 with ⟨a, b⟩
      cases hst : ((g.node u).nextNodes.foldl (dfsStep fuel g)
          (false, setCol col u true)).1 with
      | true =>
          rw [if_pos rfl]
          constructor
          · intro _
            exact a hst
          · intro hf
            exact Bool.noConfusion hf
      | false =>
          rw [if_neg (by decide)]
          constructor
          · intro hf
            exact Bool.noConfusion hf
          · intro _ x
            show setCol ((g.node u).nextNodes.foldl (dfsStep fuel g)
              (false, setCol col u true)).2 u false x = some true ↔
              col x = some true
            by_cases hxu : x = u
            · rw [hxu, setCol_self]
              constructor
              · intro hx
                exact absurd hx (by simp)
              · intro hx
                rw [hu] at hx
                exact absurd hx (by simp)
            · rw [setCol_ne _ u false x hxu]
              have h2 : setCol col u true x = col x := setCol_ne col u true x hxu
              exact (b hst x).trans (by rw [h2])

theorem card_none_mono {n : Nat} {col col' : Col}
    (hM : ∀ x b, col x = some b → col' x = some b) :
    ((Finset.range n).filter (fun j => col' j = none)).card ≤
      ((Finset.range n).filter (fun j => col j = none)).card := by
  apply Finset.card_le_card
  intro j hj
  rw [Finset.mem_filter] at hj ⊢
  refine ⟨hj.1, ?_⟩
  cases hcj : col j with
  | none => rfl
  | some b =>
      rw [hM j b hcj] at hj
      exact absurd hj.2 (by simp)

/-- Completeness invariant of the child loop: with every recursive search
correct, a quiet loop keeps every assigned color, blackens every child,
keeps the black set closed under edges and free of cycles. -/
theorem dfsFold_complete (g : Graph V)
    (htr : ∀ v, ∀ c ∈ (g.node v).nextNodes, c < g.n) (fuel : Nat)
    (hrec : ∀ (c : Nat) (col : Col), c < g.n → col c = none →
      ((Finset.range g.n).filter (fun j => col j = none)).card < fuel →
      (∀ v, col v = some false → ∀ d ∈ (g.node v).nextNodes, col d = some false) →
      (∀ v, col v = some false → ¬ Relation.TransGen (edgeRel g) v v) →
      (dfsCycle fuel g c col).1 = false →
      ((dfsCycle fuel g c col).2 c = some false ∧
       (∀ x b, col x = some b → (dfsCycle fuel g c col).2 x = some b) ∧
       (∀ v, (dfsCycle fuel g c col).2 v = some false →
         ∀ d ∈ (g.node v).nextNodes, (dfsCycle fuel g c col).2 d = some false) ∧
       (∀ v, (dfsCycle fuel g c col).2 v = some false →
         ¬ Relation.TransGen (edgeRel g) v v))) :
    ∀ (l : List Nat), (∀ c ∈ l, c < g.n) →
      ∀ (col : Col),
      ((Finset.range g.n).filter (fun j => col j = none)).card < fuel →
      (∀ v, col v = some false → ∀ d ∈ (g.node v).nextNodes, col d = some false) →
      (∀ v, col v = some false → ¬ Relation.TransGen (edgeRel g) v v) →
      (l.foldl (dfsStep fuel g) (false, col)).1 = false →
      ((∀ x b, col x = some b →
         (l.foldl (dfsStep fuel g) (false, col)).2 x = some b) ∧
       (∀ c ∈ l, (l.foldl (dfsStep fuel g) (false, col)).2 c = some false) ∧
       (∀ v, (l.foldl (dfsStep fuel g) (false, col)).2 v = some false →
         ∀ d ∈ (g.node v).nextNodes,
           (l.foldl (dfsStep fuel g) (false, col)).2 d = some false) ∧
       (∀ v, (l.foldl (dfsStep fuel g) (false, col)).2 v = some false →
         ¬ Relation.TransGen (edgeRel g) v v)) := by
  intro l
  induction l with
  | nil =>
      intro _ col _ hclosed hnocyc _
      exact ⟨fun x b hx => hx, fun c hc => absurd hc (List.not_mem_nil c),
        hclosed, hnocyc⟩
  | cons c l ihl =>
      intro hlt col hcard hclosed hnocyc hflag
      rw [List.foldl_cons] at hflag ⊢
      cases hcc : col c with
      | none =>
          rw [dfsStep_none fuel g col c hcc] at hflag ⊢
          have heta : dfsCycle fuel g c col =
              ((dfsCycle fuel g c col).1, (dfsCycle fuel g c col).2) := rfl
          cases hb : (dfsCycle fuel g c col).1 with
          | true =>
              rw [heta, hb, foldl_dfsStep_true] at hflag
              exact Bool.noConfusion hflag
          | false =>
              rw [heta, hb] at hflag ⊢
              rcases hrec c col (hlt c (List.mem_cons_self _ _)) hcc hcard
                hclosed hnocyc hb with ⟨hcb, hM1, hcl1, hnc1⟩
              have hcard' : ((Finset.range g.n).filter
                  (fun j => (dfsCycle fuel g c col).2 j = none)).card < fuel :=
                Nat.lt_of_le_of_lt (card_none_mono hM1) hcard
              rcases ihl (fun x hx => hlt x (List.mem_cons_of_mem _ hx))
                ((dfsCycle fuel g c col).2) hcard' hcl1 hnc1 hflag with
                ⟨FM2, FC2, FB2, F22⟩
              refine ⟨?_, ?_, FB2, F22⟩
              · intro x b hx
                exact FM2 x b (hM1 x b hx)
              · intro x hx
                rcases List.mem_cons.mp hx with hx1 | hx1
                · exact hx1 ▸ FM2 c false hcb
                · exact FC2 x hx1
      | some b0 =>
          cases b0 with
          | true =>
              rw [dfsStep_gray fuel g col c hcc, foldl_dfsStep_true] at hflag
              exact Bool.noConfusion hflag
          | false =>
              rw [dfsStep_black fuel g col c hcc] at hflag ⊢
              rcases ihl (fun x hx => hlt x (List.mem_cons_of_mem _ hx))
                col hcard hclosed hnocyc hflag with ⟨FM2, FC2, FB2, F22⟩
              refine ⟨FM2, ?_, FB2, F22⟩
              intro x hx
              rcases List.mem_cons.mp hx with hx1 | hx1
              · exact hx1 ▸ FM2 c false hcc
              · exact FC2 x hx1

/-- Completeness of `has_cycle`'s DFS: with enough fuel, a `false` answer
blackens the start node, and the black set is closed under edges and
contains no node lying on a directed cycle. -/
theorem dfsCycle_complete (g : Graph V)
    (htr : ∀ v, ∀ c ∈ (g.node v).nextNodes, c < g.n) :
    ∀ (fuel : Nat) (u : Nat) (col : Col),
      u < g.n → col u = none →
      ((Finset.range g.n).filter (fun j => col j = none)).card < fuel →
      (∀ v, col v = some false → ∀ d ∈ (g.node v).nextNodes, col d = some false) →
      (∀ v, col v = some false → ¬ Relation.TransGen (edgeRel g) v v) →
      (dfsCycle fuel g u col).1 = false →
      ((dfsCycle fuel g u col).2 u = some false ∧
       (∀ x b, col x = some b → (dfsCycle fuel g u col).2 x = some b) ∧
       (∀ v, (dfsCycle fuel g u col).2 v = some false →
         ∀ d ∈ (g.node v).nextNodes, (dfsCycle fuel g u col).2 d = some false) ∧
       (∀ v, (dfsCycle fuel g u col).2 v = some false →
         ¬ Relation.TransGen (edgeRel g) v v)) := by
  intro fuel
  induction fuel with
  | zero =>
      intro u col _ _ hcard
      exact absurd hcard (Nat.not_lt_zero _)
  | succ fuel ih =>
      intro u col hun hu hcard hclosed hnocyc hflag
      rw [dfsCycle_succ] at hflag ⊢
      have hcard1 : ((Finset.range g.n).filter
          (fun j => setCol col u true j = none)).card < fuel := by
        have hss : (Finset.range g.n).filter
            (fun j => setCol col u true j = none) ⊆
            ((Finset.range g.n).filter (fun j => col j = none)).erase u := by
          intro j hj
          rw [Finset.mem_filter] at hj
          rw [Finset.mem_erase, Finset.mem_filter]
          have hju : j ≠ u := by
            intro hx
            rw [hx, setCol_self] at hj
            exact absurd hj.2 (by simp)
          refine ⟨hju, hj.1, ?_⟩
          rw [← setCol_ne col u true j hju]
          exact hj.2
        have hmem : u ∈ (Finset.range g.n).filter (fun j => col j = none) := by
          rw [Finset.mem_filter, Finset.mem_range]
          exact ⟨hun, hu⟩
        have h1 := Finset.card_le_card hss
        have h2 := Finset.card_erase_of_mem hmem
        have h3 : 0 < ((Finset.range g.n).filter (fun j => col j = none)).card :=
          Finset.card_pos.mpr ⟨u, hmem⟩
        omega
      have hcl1 : ∀ v, setCol col u true v = some false →
          ∀ d ∈ (g.node v).nextNodes, setCol col u true d = some false := by
        intro v hv d hd
        have hvu : v ≠ u := by
          intro hx
          rw [hx, setCol_self] at hv
          exact absurd hv (by simp)
        rw [setCol_ne col u true v hvu] at hv
        have hdb := hclosed v hv d hd
        have hdu : d ≠ u := by
          intro hx
          rw [hx, hu] at hdb
          exact absurd hdb (by simp)
        rw [setCol_ne col u true d hdu]
        exact hdb
      have hnc1 : ∀ v, setCol col u true v = some false →
          ¬ Relation.TransGen (edgeRel g) v v := by
        intro v hv
        have hvu : v ≠ u := by
          intro hx
          rw [hx, setCol_self] at hv
          exact absurd hv (by simp)
        rw [setCol_ne col u true v hvu] at hv
        exact hnocyc v hv
      cases hst : ((g.node u).nextNodes.foldl (dfsStep fuel g)
          (false, setCol col u true)).1 with
      | true =>
          rw [hst, if_pos rfl] at hflag
          exact Bool.noConfusion hflag
      | false =>
          rw [hst, if_neg (by decide)] at hflag
          rw [if_neg (by decide)]
          rcases dfsFold_complete g htr fuel (ih) (g.node u).nextNodes (htr u)
            (setCol col u true) hcard1 hcl1 hnc1 hst with ⟨FM, FC, FB, F2⟩
          have hugray : ((g.node u).nextNodes.foldl (dfsStep fuel g)
              (false, setCol col u true)).2 u = some true :=
            FM u true (setCol_self col u true)
          have hnu : ¬ Relation.TransGen (edgeRel g) u u := by
            intro hcyc
            rcases Relation.TransGen.head'_iff.mp hcyc with ⟨c1, hedge, hpath⟩
            have hc1b := FC c1 hedge
            have hblackpath : ∀ y,
                Relation.ReflTransGen (edgeRel g) c1 y →
                ((g.node u).nextNodes.foldl (dfsStep fuel g)
                  (false, setCol col u true)).2 y = some false := by
              intro y hy
              induction hy with
              | refl => exact hc1b
              | tail hab hbc ihp => exact FB _ ihp _ hbc
            have hub := hblackpath u hpath
            rw [hugray] at hub
            exact absurd hub (by simp)
          refine ⟨?_, ?_, ?_, ?_⟩
          · show setCol ((g.node u).nextNodes.foldl (dfsStep fuel g)
              (false, setCol col u true)).2 u false u = some false
            exact setCol_self _ u false
          · intro x b hx
            show setCol ((g.node u).nextNodes.foldl (dfsStep fuel g)
              (false, setCol col u true)).2 u false x = some b
            have hxu : x ≠ u := by
              intro hz
              rw [hz, hu] at hx
              exact absurd hx (by simp)
            rw [setCol_ne _ u false x hxu]
            refine FM x b ?_
            rw [setCol_ne col u true x hxu]
            exact hx
          · intro v hv d hd
            show setCol ((g.node u).nextNodes.foldl (dfsStep fuel g)
              (false, setCol col u true)).2 u false d = some false
            have hv' : setCol ((g.node u).nextNodes.foldl (dfsStep fuel g)
                (false, setCol col u true)).2 u false v = some false := hv
            by_cases hvu : v = u
            · have hd' := FC d (by rw [← hvu]; exact hd)
              have hdu : d ≠ u := by
                intro hz
                rw [hz, hugray] at hd'
                exact absurd hd' (by simp)
              rw [setCol_ne _ u false d hdu]
              exact hd'
            · rw [setCol_ne _ u false v hvu] at hv'
              have hd' := FB v hv' d hd
              have hdu : d ≠ u := by
                intro hz
                rw [hz, hugray] at hd'
                exact absurd hd' (by simp)
              rw [setCol_ne _ u false d hdu]
              exact hd'
          · intro v hv
            have hv' : setCol ((g.node u).nextNodes.foldl (dfsStep fuel g)
                (false, setCol col u true)).2 u false v = some false := hv
            by_cases hvu : v = u
            · rw [hvu]
              exact hnu
            · rw [setCol_ne _ u false v hvu] at hv'
              exact F2 v hv'

/-- C2 counterexample: `gCyc` has a directed cycle (`0 → 1 → 0`) among its
registered edges, but no input node reaches it (the input list is empty)
and `has_cycle()` returns false. -/
theorem c2_has_cycle_counterexample :
    HasDirCycle gCyc ∧ hasCycleG gCyc = false := by
  constructor
  · refine ⟨0, ?_⟩
    have h01 : edgeRel gCyc 0 1 := by
      show (1 : Nat) ∈ (gCyc.node 0).nextNodes
      decide
    have h10 : edgeRel gCyc 1 0 := by
      show (0 : Nat) ∈ (gCyc.node 1).nextNodes
      decide
    exact Relation.TransGen.head h01 (Relation.TransGen.single h10)
  · rfl

/-- C2 (amended).  On a graph whose inputs and edge targets are in range,
`has_cycle()` returns true iff some directed cycle of registered edges is
reachable from a registered input node; a cycle in a part of the graph not
reachable from any input is not detected. -/
theorem c2_has_cycle_iff_reachable (g : Graph V)
    (hwf : InputsEdgesInRange g) :
    hasCycleG g = true ↔ CycReach g := by
  have htr : ∀ v, ∀ c ∈ (g.node v).nextNodes, c < g.n := by
    intro v c hc
    by_cases hv : v < g.n
    · exact hwf.2 v hv c hc
    · rw [Graph.node_of_ge g v (Nat.le_of_not_lt hv)] at hc
      cases hc
  rw [hasCycleG, List.any_eq_true]
  constructor
  · rintro ⟨i, hi, hflag⟩
    have hs := dfsCycle_sound (g.n + 1) g i (fun _ => none)
      (fun x hx => by cases hx) rfl
    rcases hs.1 hflag with ⟨v, hv1, hv2⟩
    exact ⟨i, hi, v, hv1, hv2⟩
  · rintro ⟨i, hi, v, hv1, hv2⟩
    refine ⟨i, hi, ?_⟩
    by_contra hflag
    have hflag' : (dfsCycle (g.n + 1) g i (fun _ => none)).1 = false := by
      cases hb : (dfsCycle (g.n + 1) g i (fun _ => none)).1
      · rfl
      · exact absurd hb hflag
    have hcard : ((Finset.range g.n).filter
        (fun j => (fun _ => (none : Option Bool)) j = none)).card < g.n + 1 :=
      Nat.lt_succ_of_le ((Finset.card_filter_le _ _).trans
        (le_of_eq (Finset.card_range g.n)))
    rcases dfsCycle_complete g htr (g.n + 1) i (fun _ => none)
      (hwf.1 i hi) rfl hcard (fun x hx => by cases hx) (fun x hx => by cases hx)
      hflag' with ⟨hib, _, hcl, hnc⟩
    have hvb : ∀ y, Relation.ReflTransGen (edgeRel g) i y →
        (dfsCycle (g.n + 1) g i (fun _ => none)).2 y = some false := by
      intro y hy
      induction hy with
      | refl => exact hib
      | tail hab hbc ihp => exact hcl _ ihp _ hbc
    exact hnc v (hvb v hv1) hv2

/-- Witness for C2 on the registered two-node cycle `gCycIn`. -/
theorem c2_has_cycle_witness :
    InputsEdgesInRange gCycIn ∧
    (hasCycleG gCycIn = true ↔ CycReach gCycIn) ∧
    hasCycleG gCycIn = true ∧ CycReach gCycIn := by
  have hwf : InputsEdgesInRange gCycIn := by
    unfold InputsEdgesInRange
    decide
  have h := c2_has_cycle_iff_reachable gCycIn hwf
  exact ⟨hwf, h, rfl, h.mp rfl⟩

/-- C1.  The round trip `execute(); reset(); execute()` fails on the
source: `GraphEx::execute` ends with `pool.stop(true)` (graphex.hpp 452)
and `ctpl::thread_pool::stop` (cptl.hpp 91-109) permanently joins and
clears the workers, so the second `execute()` pushes its thunks into a dead
pool and re-runs nothing.  Demonstrated on the diamond `gDia`: the first
call (live pool) runs every scheduled node and the sink collects `1`;
`reset()` does restore every pending counter to the parent count, clear
every result and zero every enqueue counter, but the second call (stopped
pool) returns with an empty trace — no task ran again — every result slot
is still empty while the validity flags are still set, and `collect()` on
the sink now raises `bad_optional_access` instead of returning `1`. -/
theorem c1_second_execute_dead_pool :
    executeTP gDia false = (some (gDia1, gDiaTr), true) ∧
    gDiaTr.map (fun e => e.1) = scheduleList gDia ∧
    gDiaTr ≠ [] ∧
    collect gDia1 4 = .ok 1 ∧
    (∀ j < gDia.n, ((resetG gDia1).node j).pendingCount =
        (gDia1.node j).parentCount ∧
      ((resetG gDia1).node j).result = none ∧
      ((resetG gDia1).node j).parentEnqueued = 0) ∧
    executeTP (resetG gDia1) true =
      (some ((schedule (resetG gDia1)).1, []), true) ∧
    (∀ j < gDia.n, (((schedule (resetG gDia1)).1).node j).result = none ∧
      (((schedule (resetG gDia1)).1).node j).validResult = true) ∧
    collect ((schedule (resetG gDia1)).1) 4 = .error .badOptionalAccess :=
  ⟨rfl, by decide, by decide, rfl, by decide, rfl, by decide, rfl⟩

/-- Witness for C10 at node 2 of the diamond. -/
theorem c10_collect_pure_witness :
    executeG gDia = some gDia1 ∧ (scheduleList gDia).Nodup ∧
    2 ∈ scheduleList gDia ∧ 2 < gDia.n ∧ (gDia.node 2).copyable = true ∧
    ∃ v, (gDia1.node 2).result = some v ∧ (gDia1.node 2).validResult = true ∧
      collect gDia1 2 = .ok v := by
  have h := c10_collect_pure_observer gDia gDia1 2 rfl (by decide) (by decide)
    (by decide) (by decide)
  exact ⟨rfl, by decide, by decide, by decide, by decide, h⟩

end GE
